import Mathlib

/-!
# Diamond chaincode (`diamonds.go`)

A shallow embedding of the chaincode `FabricChaincode` of `diamonds.go` and of the
parts of its environment that its three operations call:

* the chaincode stub (`GetState`, `PutState`) as a key-value world state with
  explicit read and write failures;
* `strings.ToLower`, `strconv.Atoi`, `json.Marshal` and `json.Unmarshal` of the Go
  standard library, for the record type `diamond`.

The chaincode is embedded twice.  In the first embedding Go strings are `String`,
that is well-formed UTF-8 text, and so are the byte strings written to and read from
the world state, which are JSON texts.  In the second embedding (section `Bytes`) a Go
string is a list of bytes, well-formed UTF-8 or not, and the library functions read
it through `utf8.DecodeRune`; it carries the properties that speak of arbitrary
arguments where text and bytes differ, the name of a record and the key it is stored
under.  `int` is the 64-bit integer type of the platforms a peer runs on.
Console output (`fmt.Println`) is not part of the model.
-/

namespace Diamonds

/-! ## Go standard library -/

/-- Go `len(s)` of a string: its length in bytes. -/
def len (s : String) : Nat := s.utf8ByteSize

/-- Go `unicode.ToLower`.  ASCII is handled in the function itself; every other rune
is looked up in the table `unicode.CaseRanges`, which is data of the Go standard
library and is the parameter `lowerCase` (`lowerCase r` is `unicode.To(LowerCase, r)`). -/
def unicodeToLower (lowerCase : Char → Char) (r : Char) : Char :=
  if r.toNat ≤ 0x7F then
    if 'A'.toNat ≤ r.toNat ∧ r.toNat ≤ 'Z'.toNat then Char.ofNat (r.toNat + ('a'.toNat - 'A'.toNat))
    else r
  else lowerCase r

/-- Go `strings.ToLower`: every rune of the text mapped by `unicode.ToLower`. -/
def ToLower (lowerCase : Char → Char) (s : String) : String :=
  ⟨s.data.map (unicodeToLower lowerCase)⟩

/-- The value of a decimal digit, `none` for any other character. -/
def digitVal (c : Char) : Option Nat :=
  if '0'.toNat ≤ c.toNat ∧ c.toNat ≤ '9'.toNat then some (c.toNat - '0'.toNat) else none

/-- The digit loop of `strconv.ParseUint(s, 10, 64)`: `n = n*10 + d` for each digit,
`none` at the first character that is not a digit. -/
def digitsValue (acc : Nat) : List Char → Option Nat
  | [] => some acc
  | c :: cs =>
    match digitVal c with
    | none => none
    | some d => digitsValue (acc * 10 + d) cs

/-- The magnitude parsed by `strconv.ParseUint(s, 10, 64)`, before the range check:
`none` for the empty text (syntax error) and for a text with a non-digit. -/
def parseDigits (s : List Char) : Option Nat :=
  match s with
  | [] => none
  | _ :: _ => digitsValue 0 s

/-- Go `strconv.ParseInt(s, 10, 64)`: an optional sign, then decimal digits, the value
within `[-2^63, 2^63 - 1]`.  `none` stands for a non-nil error (syntax or range). -/
def ParseInt (s : List Char) : Option Int :=
  match s with
  | [] => none
  | c :: r =>
    let neg : Bool := c = '-'
    let ds : List Char := if c = '+' ∨ c = '-' then r else s
    match parseDigits ds with
    | none => none
    | some un =>
      if !neg ∧ un ≥ 2 ^ 63 then none
      else if neg ∧ un > 2 ^ 63 then none
      else some (if neg then -(un : Int) else (un : Int))

/-- Go `strconv.Atoi(s)` with a 64-bit `int`: the fast path and `ParseInt(s, 10, 0)`
accept the same texts with the same values.  `none` stands for a non-nil error. -/
def Atoi (s : String) : Option Int := ParseInt s.data

/-! ## The record and its JSON encoding -/

/-- The Go struct `diamond` with JSON keys docType, name, origin, carats and owner. -/
structure diamond where
  ObjectType : String
  Name : String
  Origin : String
  Carats : Int
  Owner : String
  deriving DecidableEq, Repr

/-- The Go zero value `diamond{}`. -/
def diamond.zero : diamond := ⟨"", "", "", 0, ""⟩

/-- The values of the 64-bit Go type `int`. -/
def IntRange (i : Int) : Prop := -(2 : Int) ^ 63 ≤ i ∧ i < (2 : Int) ^ 63

instance (i : Int) : Decidable (IntRange i) := by
  unfold IntRange
  infer_instance

/-- The table `hex` of `encoding/json`: the lower-case hexadecimal digit of `n < 16`. -/
def hexDigit (n : Nat) : Char :=
  if n < 10 then Char.ofNat ('0'.toNat + n) else Char.ofNat ('a'.toNat + (n - 10))

/-- One rune of a string as written by `encodeState.string` (`appendString`) with HTML
escaping on (what `json.Marshal` uses): a backslash escape for the quote, the
backslash, backspace, form feed, newline, carriage return and tab; `\u00XX` for the
other control characters and for `<`, `>` and `&`; `\u2028` and `\u2029` for the two
separators; the rune itself otherwise. -/
def escapeRune (c : Char) : List Char :=
  if c = '\\' ∨ c = '"' then ['\\', c]
  else if c = Char.ofNat 8 then ['\\', 'b']
  else if c = Char.ofNat 12 then ['\\', 'f']
  else if c = '\n' then ['\\', 'n']
  else if c = '\r' then ['\\', 'r']
  else if c = '\t' then ['\\', 't']
  else if c.toNat < 0x20 ∨ c = '<' ∨ c = '>' ∨ c = '&' then
    ['\\', 'u', '0', '0', hexDigit (c.toNat / 16), hexDigit (c.toNat % 16)]
  else if c = Char.ofNat 0x2028 ∨ c = Char.ofNat 0x2029 then
    ['\\', 'u', '2', '0', '2', hexDigit (c.toNat % 16)]
  else [c]

/-- The body of a JSON string literal for the runes `s`. -/
def escapeRunes : List Char → List Char
  | [] => []
  | c :: cs => escapeRune c ++ escapeRunes cs

/-- A Go string as a JSON string literal (`encodeState.string`). -/
def quote (s : String) : List Char := '"' :: (escapeRunes s.data ++ ['"'])

/-- The decimal digits of `n`, most significant first, in front of `acc`; `fuel`
bounds the number of digits. -/
def natDigits : Nat → Nat → List Char → List Char
  | 0, _, acc => acc
  | fuel + 1, n, acc =>
    let acc' := Char.ofNat ('0'.toNat + n % 10) :: acc
    if n / 10 = 0 then acc' else natDigits fuel (n / 10) acc'

/-- Go `strconv.AppendInt(_, i, 10)`: the decimal text of an integer. -/
def formatInt (i : Int) : List Char :=
  if i < 0 then '-' :: natDigits (i.natAbs + 1) i.natAbs []
  else natDigits (i.natAbs + 1) i.natAbs []

/-- Go `json.Marshal` of a `diamond`: the fields in declaration order under their
JSON keys, without whitespace. -/
def jsonMarshal (d : diamond) : String :=
  ⟨"\x7b\"docType\":".data ++ quote d.ObjectType ++ ",\"name\":".data ++ quote d.Name
    ++ ",\"origin\":".data ++ quote d.Origin ++ ",\"carats\":".data ++ formatInt d.Carats
    ++ ",\"owner\":".data ++ quote d.Owner ++ ['}']⟩

/-! ## JSON decoding (`json.Unmarshal` into a `diamond`) -/

/-- A parsed JSON value; a number keeps its literal text. -/
inductive JVal where
  | null
  | bool (b : Bool)
  | num (lit : List Char)
  | str (s : List Char)
  | arr (xs : List JVal)
  | obj (ms : List (List Char × JVal))

/-- JSON whitespace (`isSpace` of the scanner). -/
def isSpace (c : Char) : Bool := c = ' ' ∨ c = '\t' ∨ c = '\r' ∨ c = '\n'

/-- Drop leading whitespace. -/
def skipSpace : List Char → List Char
  | [] => []
  | c :: cs => if isSpace c then skipSpace cs else c :: cs

/-- The value of a hexadecimal digit of a `\u` escape. -/
def hexVal (c : Char) : Option Nat :=
  if '0'.toNat ≤ c.toNat ∧ c.toNat ≤ '9'.toNat then some (c.toNat - '0'.toNat)
  else if 'a'.toNat ≤ c.toNat ∧ c.toNat ≤ 'f'.toNat then some (c.toNat - 'a'.toNat + 10)
  else if 'A'.toNat ≤ c.toNat ∧ c.toNat ≤ 'F'.toNat then some (c.toNat - 'A'.toNat + 10)
  else none

/-- The function `getu4`: the rune value of the four hexadecimal digits of `\uXXXX`. -/
def getu4 (a b c d : Char) : Option Nat :=
  match hexVal a, hexVal b, hexVal c, hexVal d with
  | some x, some y, some z, some w => some (((x * 16 + y) * 16 + z) * 16 + w)
  | _, _, _, _ => none

/-- The rune U+FFFD (`unicode.ReplacementChar`). -/
def replacementChar : Char := Char.ofNat 0xFFFD

/-- The rune of a single `\uXXXX` escape: a surrogate half that is not part of a
valid pair becomes U+FFFD. -/
def runeOfEscape (r : Nat) : Char :=
  if 0xD800 ≤ r ∧ r < 0xE000 then replacementChar else Char.ofNat r

/-- The one-letter escapes of a JSON string. -/
def simpleEscape (c : Char) : Option Char :=
  if c = '"' then some '"'
  else if c = '\\' then some '\\'
  else if c = '/' then some '/'
  else if c = 'b' then some (Char.ofNat 8)
  else if c = 'f' then some (Char.ofNat 12)
  else if c = 'n' then some '\n'
  else if c = 'r' then some '\r'
  else if c = 't' then some '\t'
  else none

/-- Put a decoded rune in front of the rest of a decoded string. -/
def consRune (c : Char) : Option (List Char × List Char) → Option (List Char × List Char)
  | none => none
  | some (s, rest) => some (c :: s, rest)

/-- A low surrogate escape `\uXXXX` (U+DC00 to U+DFFF) at the head of the input: its
value and the input after it. -/
def lowSurrogate (cs : List Char) : Option (Nat × List Char) :=
  match cs with
  | bs :: u :: a :: b :: c :: d :: rest =>
    if bs = '\\' ∧ u = 'u' then
      match getu4 a b c d with
      | none => none
      | some r2 => if 0xDC00 ≤ r2 ∧ r2 < 0xE000 then some (r2, rest) else none
    else none
  | _ => none

/-- A JSON string literal after its opening quote (the scanner together with
`unquote`): the decoded runes and the input after the closing quote.  A control
character, an unknown escape and a missing closing quote are syntax errors; the two
escapes of a surrogate pair are combined into one rune (`utf16.DecodeRune`).  `fuel`
bounds the number of runes. -/
def unquote : Nat → List Char → Option (List Char × List Char)
  | 0, _ => none
  | _ + 1, [] => none
  | fuel + 1, c :: rest =>
    if c = '"' then some ([], rest)
    else if c = '\\' then
      match rest with
      | [] => none
      | e :: rest1 =>
        if e = 'u' then
          match rest1 with
          | a :: b :: c :: d :: rest2 =>
            match getu4 a b c d with
            | none => none
            | some r =>
              if 0xD800 ≤ r ∧ r < 0xDC00 then
                match lowSurrogate rest2 with
                | some (r2, rest3) =>
                  consRune (Char.ofNat ((r - 0xD800) * 1024 + (r2 - 0xDC00) + 0x10000))
                    (unquote fuel rest3)
                | none => consRune replacementChar (unquote fuel rest2)
              else consRune (runeOfEscape r) (unquote fuel rest2)
          | _ => none
        else
          match simpleEscape e with
          | none => none
          | some x => consRune x (unquote fuel rest1)
    else if c.toNat < 0x20 then none
    else consRune c (unquote fuel rest)

/-- Whether a character is a decimal digit. -/
def isDigit (c : Char) : Bool := '0'.toNat ≤ c.toNat ∧ c.toNat ≤ '9'.toNat

/-- The longest prefix of digits and the input after it. -/
def takeDigits : List Char → List Char × List Char
  | [] => ([], [])
  | c :: cs =>
    if isDigit c then ((takeDigits cs).1.cons c, (takeDigits cs).2) else ([], c :: cs)

/-- The exponent part of a JSON number, if there is one. -/
def scanExponent (lit : List Char) (cs : List Char) : Option (List Char × List Char) :=
  match cs with
  | e :: r =>
    if e = 'e' ∨ e = 'E' then
      let sign : List Char := match r with
        | s :: _ => if s = '+' ∨ s = '-' then [s] else []
        | [] => []
      let r1 := r.drop sign.length
      let ds := takeDigits r1
      if ds.1 = [] then none else some (lit ++ e :: sign ++ ds.1, ds.2)
    else some (lit, cs)
  | [] => some (lit, cs)

/-- The fraction part of a JSON number, if there is one, then the exponent. -/
def scanFraction (lit : List Char) (cs : List Char) : Option (List Char × List Char) :=
  match cs with
  | '.' :: r =>
    let ds := takeDigits r
    if ds.1 = [] then none else scanExponent (lit ++ '.' :: ds.1) ds.2
  | _ => scanExponent lit cs

/-- The integer part of a JSON number after the optional minus sign: a single `0` or
a digit `1-9` followed by digits. -/
def scanInteger (lit : List Char) (cs : List Char) : Option (List Char × List Char) :=
  match cs with
  | c :: r =>
    if c = '0' then scanFraction (lit ++ [c]) r
    else if isDigit c then
      let ds := takeDigits r
      scanFraction (lit ++ c :: ds.1) ds.2
    else none
  | [] => none

/-- A JSON number literal: its text and the input after it. -/
def scanNumber (cs : List Char) : Option (List Char × List Char) :=
  match cs with
  | '-' :: r => scanInteger ['-'] r
  | _ => scanInteger [] cs

/-- What the parser is reading: a value, the elements of an array after `[`, or the
members of an object after `{` (with what has been read so far). -/
inductive Mode where
  | value
  | elems (acc : List JVal)
  | members (acc : List (List Char × JVal))

/-- The constant `maxNestingDepth` of the scanner of `encoding/json`: the number of
objects and arrays that may be open at once. -/
def maxNestingDepth : Nat := 10000

/-- The JSON grammar of the scanner of `encoding/json`.  The input has no leading
whitespace; the result is the value and the input after it.  `fuel` bounds the number
of nested calls; each call consumes at least one character.  `depth` is the number of
objects and arrays that are open (the length of the scanner's `parseState`): opening
one more than `maxNestingDepth` is the error "exceeded max depth"
(`pushParseState`). -/
def parseJ : Nat → Nat → Mode → List Char → Option (JVal × List Char)
  | 0, _, _, _ => none
  | fuel + 1, depth, .value, cs =>
    match cs with
    | [] => none
    | c :: r =>
      if c = '{' then
        if depth < maxNestingDepth then
          match skipSpace r with
          | [] => none
          | c1 :: r1 =>
            if c1 = '}' then some (.obj [], r1)
            else parseJ fuel (depth + 1) (.members []) (c1 :: r1)
        else none
      else if c = '[' then
        if depth < maxNestingDepth then
          match skipSpace r with
          | [] => none
          | c1 :: r1 =>
            if c1 = ']' then some (.arr [], r1)
            else parseJ fuel (depth + 1) (.elems []) (c1 :: r1)
        else none
      else if c = '"' then
        match unquote r.length r with
        | none => none
        | some (s, r1) => some (.str s, r1)
      else if c = 't' then
        match r with
        | 'r' :: 'u' :: 'e' :: r1 => some (.bool true, r1)
        | _ => none
      else if c = 'f' then
        match r with
        | 'a' :: 'l' :: 's' :: 'e' :: r1 => some (.bool false, r1)
        | _ => none
      else if c = 'n' then
        match r with
        | 'u' :: 'l' :: 'l' :: r1 => some (.null, r1)
        | _ => none
      else
        match scanNumber cs with
        | none => none
        | some (lit, r1) => some (.num lit, r1)
  | fuel + 1, depth, .elems acc, cs =>
    match parseJ fuel depth .value cs with
    | none => none
    | some (v, r) =>
      match skipSpace r with
      | [] => none
      | c1 :: r1 =>
        if c1 = ',' then parseJ fuel depth (.elems (acc ++ [v])) (skipSpace r1)
        else if c1 = ']' then some (.arr (acc ++ [v]), r1)
        else none
  | fuel + 1, depth, .members acc, cs =>
    match cs with
    | [] => none
    | c :: r =>
      if c = '"' then
        match unquote r.length r with
        | none => none
        | some (k, r1) =>
          match skipSpace r1 with
          | [] => none
          | c2 :: r2 =>
            if c2 = ':' then
              match parseJ fuel depth .value (skipSpace r2) with
              | none => none
              | some (v, r3) =>
                match skipSpace r3 with
                | [] => none
                | c4 :: r4 =>
                  if c4 = ',' then
                    parseJ fuel depth (.members (acc ++ [(k, v)])) (skipSpace r4)
                  else if c4 = '}' then some (.obj (acc ++ [(k, v)]), r4)
                  else none
            else none
      else none

/-- The fields of `diamond`, in declaration order. -/
inductive Field where
  | docType
  | name
  | origin
  | carats
  | owner
  deriving DecidableEq, Repr

/-- The JSON key of a field (its `json:"..."` tag). -/
def Field.nameBytes : Field → List Char
  | .docType => "docType".data
  | .name => "name".data
  | .origin => "origin".data
  | .carats => "carats".data
  | .owner => "owner".data

/-- The fields of `diamond`, as `cachedTypeFields` lists them. -/
def fields : List Field := [.docType, .name, .origin, .carats, .owner]

/-- One step of the case-insensitive key comparison of `encoding/json` (`equalFoldRight`,
which on letter-only names without `k` and `s` agrees with `simpleLetterEqualFold`):
`sb` is a rune of the field name, `tb` the rune of the key at the same place.  An ASCII
`tb` matches up to the case of a letter; `ſ` (U+017F) matches `s` and the Kelvin sign
(U+212A) matches `k`. -/
def equalFoldRune (sb tb : Char) : Bool :=
  if tb.toNat < 0x80 then
    sb = tb ∨ (('A'.toNat ≤ sb.toNat &&& 0xDF ∧ sb.toNat &&& 0xDF ≤ 'Z'.toNat)
      ∧ sb.toNat &&& 0xDF = tb.toNat &&& 0xDF)
  else
    ((sb = 's' ∨ sb = 'S') ∧ tb = Char.ofNat 0x17F)
      ∨ ((sb = 'k' ∨ sb = 'K') ∧ tb = Char.ofNat 0x212A)

/-- Case-insensitive comparison of a field name `s` with a key `t`. -/
def equalFold : List Char → List Char → Bool
  | [], [] => true
  | sb :: s, tb :: t => equalFoldRune sb tb && equalFold s t
  | _, _ => false

/-- The field a key of a JSON object is decoded into (the loop over the fields in
`decodeState.object`): a field whose name is exactly the key, else the first field
whose name is the key up to case; `none` for a key that is skipped. -/
def findField (key : List Char) : Option Field :=
  match fields.find? (fun f => f.nameBytes = key) with
  | some f => some f
  | none => fields.find? (fun f => equalFold f.nameBytes key)

/-- Decoding a JSON value into a field of type `string` (`literalStore`): the new
contents, and whether an `UnmarshalTypeError` is saved.  `null` leaves the field as it
is. -/
def storeString (v : JVal) (cur : String) : String × Bool :=
  match v with
  | .str s => (⟨s⟩, false)
  | .null => (cur, false)
  | _ => (cur, true)

/-- Decoding a JSON value into a field of type `int` (`literalStore`): a number
literal is read by `strconv.ParseInt(s, 10, 64)`. -/
def storeInt (v : JVal) (cur : Int) : Int × Bool :=
  match v with
  | .num lit =>
    match ParseInt lit with
    | some n => (n, false)
    | none => (cur, true)
  | .null => (cur, false)
  | _ => (cur, true)

/-- One member of a JSON object decoded into the struct: the struct afterwards and
whether a type error has been saved so far. -/
def decodeMember (st : diamond × Bool) (m : List Char × JVal) : diamond × Bool :=
  match findField m.1 with
  | none => st
  | some .docType =>
    let r := storeString m.2 st.1.ObjectType
    ({ st.1 with ObjectType := r.1 }, st.2 || r.2)
  | some .name =>
    let r := storeString m.2 st.1.Name
    ({ st.1 with Name := r.1 }, st.2 || r.2)
  | some .origin =>
    let r := storeString m.2 st.1.Origin
    ({ st.1 with Origin := r.1 }, st.2 || r.2)
  | some .carats =>
    let r := storeInt m.2 st.1.Carats
    ({ st.1 with Carats := r.1 }, st.2 || r.2)
  | some .owner =>
    let r := storeString m.2 st.1.Owner
    ({ st.1 with Owner := r.1 }, st.2 || r.2)

/-- The errors of `json.Unmarshal`: a `SyntaxError` (the input is not one JSON value)
or an `UnmarshalTypeError` (a value does not fit the Go type it is decoded into). -/
inductive JsonError where
  | syntaxError
  | typeError
  deriving DecidableEq, Repr

/-- The text of `err.Error()`.  The message of the library also names the offending
character or the JSON value and the field; of it only the kind of the error is kept,
and no statement below depends on this text. -/
def JsonError.Error : JsonError → String
  | .syntaxError => "json: syntax error"
  | .typeError => "json: cannot unmarshal value into Go struct diamond"

/-- Go `json.Unmarshal(data, &v)` for `v` of type `diamond`: the input is checked to be
one JSON value (`checkValid`), then decoded into `v`.  An object sets the fields its
keys name, the members in order; `null` leaves `v` as it is; any other value is a type
error.  The first saved type error is returned when decoding is done. -/
def jsonUnmarshal (data : String) (v : diamond) : Except JsonError diamond :=
  match parseJ (data.data.length + 1) 0 .value (skipSpace data.data) with
  | none => .error .syntaxError
  | some (j, rest) =>
    match skipSpace rest with
    | _ :: _ => .error .syntaxError
    | [] =>
      match j with
      | .obj ms =>
        let r := ms.foldl decodeMember (v, false)
        if r.2 then .error .typeError else .ok r.1
      | .null => .ok v
      | _ => .error .typeError

/-! ## The chaincode stub and `shim` -/

/-- The `pb.Response` of an invocation. -/
structure Response where
  Status : Nat
  Message : String
  Payload : Option String
  deriving DecidableEq, Repr

/-- Go `shim.Success(payload)`: status `OK` (200). -/
def shim.Success (payload : Option String) : Response :=
  { Status := 200, Message := "", Payload := payload }

/-- Go `shim.Error(msg)`: status `ERROR` (500). -/
def shim.Error (msg : String) : Response :=
  { Status := 500, Message := msg, Payload := none }

/-- The world state as seen through `shim.ChaincodeStubInterface`: the value stored
under each key (`none`: no value, `GetState` returns `nil`), and for each read and
each write whether the state store fails it, with the text of the error. -/
structure ChaincodeStub where
  state : String → Option String
  getError : String → Option String
  putError : String → String → Option String

/-- Go `stub.GetState(key)`: the error of the store, or the value under `key`. -/
def ChaincodeStub.GetState (stub : ChaincodeStub) (key : String) :
    Except String (Option String) :=
  match stub.getError key with
  | some e => .error e
  | none => .ok (stub.state key)

/-- The world state after a write of `value` under `key`.  A write of no bytes deletes
the key: "passing a 'nil' value will effectively delete the key from state", as the
source notes where it sketches the index entry. -/
def ChaincodeStub.write (stub : ChaincodeStub) (key : String) (value : String) :
    ChaincodeStub :=
  { stub with state := fun k =>
      if k = key then (if len value = 0 then none else some value) else stub.state k }

/-- Go `stub.PutState(key, value)`: the error of the store, the world state then being
what it was, or the world state with `value` under `key`. -/
def ChaincodeStub.PutState (stub : ChaincodeStub) (key : String) (value : String) :
    Except String ChaincodeStub :=
  match stub.putError key value with
  | some e => .error e
  | none => .ok (stub.write key value)

/-! ## The chaincode -/

/-- The method `createDiamond`: create a new diamond, store it into chaincode state.
`json.Marshal` returns no error for a struct of strings and an `int`, so the error
return after it is never taken; the index entry is commented out in the source. -/
def createDiamond (lowerCase : Char → Char) (stub : ChaincodeStub) (args : List String) :
    Response × ChaincodeStub :=
  match args with
  | [a0, a1, a2, a3] =>
    if len a0 ≤ 0 then (shim.Error "1st argument must be a non-empty string", stub)
    else if len a1 ≤ 0 then (shim.Error "2nd argument must be a non-empty string", stub)
    else if len a2 ≤ 0 then (shim.Error "3rd argument must be a non-empty string", stub)
    else if len a3 ≤ 0 then (shim.Error "4th argument must be a non-empty string", stub)
    else
      let diamondName := a0
      let origin := ToLower lowerCase a1
      let owner := ToLower lowerCase a3
      match Atoi a2 with
      | none => (shim.Error "3rd argument must be a numeric string", stub)
      | some carats =>
        match stub.GetState diamondName with
        | .error err => (shim.Error ("Failed to get diamond: " ++ err), stub)
        | .ok (some _) => (shim.Error ("This diamond already exists: " ++ diamondName), stub)
        | .ok none =>
          let objectType := "diamond"
          let diamond : diamond := ⟨objectType, diamondName, origin, carats, owner⟩
          let diamondJSONasBytes := jsonMarshal diamond
          match stub.PutState diamondName diamondJSONasBytes with
          | .error err => (shim.Error err, stub)
          | .ok stub1 => (shim.Success none, stub1)
  | _ => (shim.Error "Incorrect number of arguments. Expecting 4", stub)

/-- The method `queryDiamond`: read a diamond from chaincode state. -/
def queryDiamond (stub : ChaincodeStub) (args : List String) : Response × ChaincodeStub :=
  match args with
  | [name] =>
    match stub.GetState name with
    | .error _ => (shim.Error ("\x7b\"Error\":\"Failed to get state for " ++ name ++ "\"\x7d"), stub)
    | .ok none => (shim.Error ("\x7b\"Error\":\"Diamond does not exist: " ++ name ++ "\"\x7d"), stub)
    | .ok (some valAsbytes) => (shim.Success (some valAsbytes), stub)
  | _ => (shim.Error "Incorrect number of arguments. Expecting name of the diamond to query", stub)

/-- The method `transferDiamond`: transfer a diamond by setting a new owner name on
the diamond.  Arguments after the second are not looked at. -/
def transferDiamond (lowerCase : Char → Char) (stub : ChaincodeStub) (args : List String) :
    Response × ChaincodeStub :=
  match args with
  | a0 :: a1 :: _ =>
    let diamondName := a0
    let newOwner := ToLower lowerCase a1
    match stub.GetState diamondName with
    | .error err => (shim.Error ("Failed to get diamond:" ++ err), stub)
    | .ok none => (shim.Error "Diamond does not exist", stub)
    | .ok (some diamondAsBytes) =>
      match jsonUnmarshal diamondAsBytes diamond.zero with
      | .error err => (shim.Error err.Error, stub)
      | .ok diamondToTransfer =>
        let diamondToTransfer := { diamondToTransfer with Owner := newOwner }
        let diamondJSONasBytes := jsonMarshal diamondToTransfer
        match stub.PutState diamondName diamondJSONasBytes with
        | .error err => (shim.Error err, stub)
        | .ok stub1 => (shim.Success none, stub1)
  | _ => (shim.Error "Incorrect number of arguments. Expecting 2", stub)

/-- The method `Invoke`, the entry point for invocations; `function` and `args` are
what `stub.GetFunctionAndParameters()` returns for the invocation. -/
def Invoke (lowerCase : Char → Char) (stub : ChaincodeStub) (function : String)
    (args : List String) : Response × ChaincodeStub :=
  if function = "createDiamond" then createDiamond lowerCase stub args
  else if function = "transferDiamond" then transferDiamond lowerCase stub args
  else if function = "queryDiamond" then queryDiamond stub args
  else (shim.Error "Received unknown function invocation", stub)

/-! ## Sequences of invocations -/

/-- The world states the chaincode can reach: from the empty world state, by
invocations with any function name and any arguments; the failures of the store may
change from one invocation to the next. -/
inductive Reachable (lowerCase : Char → Char) : ChaincodeStub → Prop where
  | empty (getError : String → Option String) (putError : String → String → Option String) :
    Reachable lowerCase ⟨fun _ => none, getError, putError⟩
  | invoke (stub : ChaincodeStub) (function : String) (args : List String) :
    Reachable lowerCase stub → Reachable lowerCase (Invoke lowerCase stub function args).2
  | faults (stub : ChaincodeStub) (getError : String → Option String)
      (putError : String → String → Option String) :
    Reachable lowerCase stub →
    Reachable lowerCase { stub with getError := getError, putError := putError }

/-- The world state after a sequence of invocations, each a function name with its
arguments. -/
def run (lowerCase : Char → Char) (stub : ChaincodeStub) :
    List (String × List String) → ChaincodeStub
  | [] => stub
  | (function, args) :: rest => run lowerCase (Invoke lowerCase stub function args).2 rest

/-- A store without values and without failures. -/
def emptyStub : ChaincodeStub := ⟨fun _ => none, fun _ => none, fun _ _ => none⟩

/-! ## Auxiliary definitions for the proofs -/

/-- The decimal digit character of `d`. -/
def digitChar (d : Nat) : Char := Char.ofNat ('0'.toNat + d)

/-- The decimal digits of `n`, as `formatInt` writes them. -/
def decimal (n : Nat) : List Char := natDigits (n + 1) n []

/-- A character that ends a JSON integer literal: not a digit, and not the start of a
fraction or an exponent. -/
def endsNumber (x : Char) : Prop := isDigit x = false ∧ x ≠ '.' ∧ x ≠ 'e' ∧ x ≠ 'E'

/-- A string literal and what follows it. -/
def literalThen (s : List Char) (rest : List Char) : List Char :=
  '"' :: (escapeRunes s ++ '"' :: rest)

/-- A member `"k":V` of an object, in the text. -/
def memberText (k : List Char) (V : List Char) : List Char :=
  literalThen k (':' :: V)

/-- The invariant of the world state: every value is the encoding of a record of kind
`diamond` named by its key, with an `int` weight and with origin and owner in the
image of `strings.ToLower`. -/
def WellFormed (lowerCase : Char → Char) (stub : ChaincodeStub) : Prop :=
  ∀ k b, stub.state k = some b →
    ∃ d : diamond, b = jsonMarshal d ∧ d.ObjectType = "diamond" ∧ d.Name = k
      ∧ IntRange d.Carats ∧ (∃ x, d.Origin = ToLower lowerCase x)
      ∧ (∃ y, d.Owner = ToLower lowerCase y)

/-! ## Definitions that follow the words of the specification -/

/-- A numeric string in the words of the specification: an optional sign followed by
a sequence of at least one decimal digit. -/
def isNumericString (s : String) : Bool :=
  match s.data with
  | [] => false
  | c :: r =>
    if c = '+' ∨ c = '-' then (!r.isEmpty && r.all isDigit) else (c :: r).all isDigit

/-- The integer that a sequence of decimal digits denotes. -/
def decimalValue (s : List Char) : Nat :=
  s.foldl (fun n c => n * 10 + (c.toNat - '0'.toNat)) 0

/-- Key and record agree: the value under every key decodes to a record of kind
"diamond" whose name is the key. -/
def KeyConsistent (stub : ChaincodeStub) : Prop :=
  ∀ k b, stub.state k = some b →
    ∃ d : diamond, jsonUnmarshal b diamond.zero = .ok d ∧ d.ObjectType = "diamond" ∧ d.Name = k

/-- Name and origin are not empty: the value under every key decodes to a record with
a non-empty name and a non-empty origin. -/
def NameOriginNonEmpty (stub : ChaincodeStub) : Prop :=
  ∀ k b, stub.state k = some b →
    ∃ d : diamond, jsonUnmarshal b diamond.zero = .ok d ∧ d.Name ≠ "" ∧ d.Origin ≠ ""

/-! ## The chaincode on byte strings

A Go string is a sequence of bytes, and the arguments of an invocation reach the
chaincode without any check that they are well-formed UTF-8.  The definitions above
take the arguments as text; the definitions of this section take them as bytes.  The
library functions read a byte string through `utf8.DecodeRune`, one rune or one invalid
byte at a time, so each of them is the function on text above applied to what that
decoding gives. -/

namespace Bytes

/-- A byte. -/
abbrev Byte := Fin 256

/-- A Go `string` or `[]byte`. -/
abbrev GoString := List Byte

/-- The byte with the value `n`, for `n < 256`. -/
def byte (n : Nat) : Byte := Fin.ofNat n

/-- Go `utf8.EncodeRune` (`AppendRune`) on a rune that is a Unicode scalar value. -/
def encodeRune (c : Char) : GoString :=
  if c.toNat < 0x80 then [byte c.toNat]
  else if c.toNat < 0x800 then [byte (0xC0 + c.toNat / 64), byte (0x80 + c.toNat % 64)]
  else if c.toNat < 0x10000 then
    [byte (0xE0 + c.toNat / 4096), byte (0x80 + c.toNat / 64 % 64), byte (0x80 + c.toNat % 64)]
  else
    [byte (0xF0 + c.toNat / 262144), byte (0x80 + c.toNat / 4096 % 64),
      byte (0x80 + c.toNat / 64 % 64), byte (0x80 + c.toNat % 64)]

/-- The UTF-8 encoding of a text: the Go string with these runes. -/
def utf8 : List Char → GoString
  | [] => []
  | c :: cs => encodeRune c ++ utf8 cs

/-- Go `utf8.DecodeRune` on a non-empty input: the rune at its head and the input
after it, or `none` (the rune `RuneError` of width 1) and the input after the first
byte when the head is not a well-formed encoding.  The first byte gives the width and
the range of the second byte (tables `first` and `acceptRanges`). -/
def decodeRune (p : GoString) : Option Char × GoString :=
  match p with
  | [] => (none, [])
  | p0 :: r =>
    if p0.val < 0x80 then (some (Char.ofNat p0.val), r)
    else if p0.val < 0xC2 ∨ 0xF4 < p0.val then (none, r)
    else
      match r with
      | [] => (none, r)
      | b1 :: r1 =>
        if b1.val < (if p0.val = 0xE0 then 0xA0 else if p0.val = 0xF0 then 0x90 else 0x80)
            ∨ (if p0.val = 0xED then 0x9F else if p0.val = 0xF4 then 0x8F else 0xBF) < b1.val
        then (none, r)
        else if p0.val < 0xE0 then (some (Char.ofNat (p0.val % 32 * 64 + b1.val % 64)), r1)
        else
          match r1 with
          | [] => (none, r)
          | b2 :: r2 =>
            if b2.val < 0x80 ∨ 0xBF < b2.val then (none, r)
            else if p0.val < 0xF0 then
              (some (Char.ofNat (p0.val % 16 * 4096 + b1.val % 64 * 64 + b2.val % 64)), r2)
            else
              match r2 with
              | [] => (none, r)
              | b3 :: r3 =>
                if b3.val < 0x80 ∨ 0xBF < b3.val then (none, r)
                else
                  (some (Char.ofNat (p0.val % 8 * 262144 + b1.val % 64 * 4096
                    + b2.val % 64 * 64 + b3.val % 64)), r3)

/-- What `for range s` yields: the runes of a Go string in order, `none` for each byte
that is not part of a well-formed encoding.  `fuel` bounds the number of runes. -/
def toUnits : Nat → GoString → List (Option Char)
  | 0, _ => []
  | _ + 1, [] => []
  | fuel + 1, b :: r => (decodeRune (b :: r)).1 :: toUnits fuel (decodeRune (b :: r)).2

/-- The runes of a Go string, with U+FFFD for each invalid byte (Go `[]rune(s)`). -/
def toText (s : GoString) : List Char :=
  (toUnits s.length s).map (fun u => u.getD replacementChar)

/-- Well-formed UTF-8 (Go `utf8.Valid`): the bytes are the encoding of the runes they
decode to, with no byte replaced. -/
def ValidUTF8 (s : GoString) : Prop := utf8 (toText s) = s

instance (s : GoString) : Decidable (ValidUTF8 s) := by
  unfold ValidUTF8
  infer_instance

/-- Go `len(s)`. -/
def len (s : GoString) : Nat := s.length

/-- Go `strings.ToLower` (as `strings.Map(unicode.ToLower, s)`; on ASCII the fast path
gives the same bytes): each rune mapped by `unicode.ToLower` and encoded again, an
invalid byte becoming U+FFFD. -/
def ToLower (lowerCase : Char → Char) (s : GoString) : GoString :=
  utf8 ((toText s).map (unicodeToLower lowerCase))

/-- Go `strconv.Atoi(s)`: the sign and the digits are ASCII bytes, and every other
byte, like every other rune, is a syntax error. -/
def Atoi (s : GoString) : Option Int := ParseInt (toText s)

/-- The Go struct `diamond`, its strings as bytes. -/
structure diamond where
  ObjectType : GoString
  Name : GoString
  Origin : GoString
  Carats : Int
  Owner : GoString
  deriving DecidableEq, Repr

/-- The Go zero value `diamond{}`. -/
def diamond.zero : diamond := ⟨[], [], [], 0, []⟩

/-- The body of a JSON string literal as `encodeState.string` writes it: each rune as
`escapeRune` gives it, each invalid byte as the escape of U+FFFD. -/
def escapeUnits : List (Option Char) → List Char
  | [] => []
  | some c :: us => escapeRune c ++ escapeUnits us
  | none :: us => ['\\', 'u', 'f', 'f', 'f', 'd'] ++ escapeUnits us

/-- A Go string as a JSON string literal. -/
def quote (s : GoString) : List Char := '"' :: (escapeUnits (toUnits s.length s) ++ ['"'])

/-- The text that `json.Marshal` writes for a `diamond`. -/
def jsonText (d : diamond) : List Char :=
  "\x7b\"docType\":".data ++ quote d.ObjectType ++ ",\"name\":".data ++ quote d.Name
    ++ ",\"origin\":".data ++ quote d.Origin ++ ",\"carats\":".data ++ formatInt d.Carats
    ++ ",\"owner\":".data ++ quote d.Owner ++ ['}']

/-- Go `json.Marshal` of a `diamond`: the bytes of its JSON text. -/
def jsonMarshal (d : diamond) : GoString := utf8 (jsonText d)

/-- Decoding a JSON value into a field of type `string`: the runes of a JSON string
are stored as their UTF-8 encoding. -/
def storeString (v : JVal) (cur : GoString) : GoString × Bool :=
  match v with
  | .str s => (utf8 s, false)
  | .null => (cur, false)
  | _ => (cur, true)

/-- One member of a JSON object decoded into the struct. -/
def decodeMember (st : diamond × Bool) (m : List Char × JVal) : diamond × Bool :=
  match findField m.1 with
  | none => st
  | some .docType =>
    let r := storeString m.2 st.1.ObjectType
    ({ st.1 with ObjectType := r.1 }, st.2 || r.2)
  | some .name =>
    let r := storeString m.2 st.1.Name
    ({ st.1 with Name := r.1 }, st.2 || r.2)
  | some .origin =>
    let r := storeString m.2 st.1.Origin
    ({ st.1 with Origin := r.1 }, st.2 || r.2)
  | some .carats =>
    let r := storeInt m.2 st.1.Carats
    ({ st.1 with Carats := r.1 }, st.2 || r.2)
  | some .owner =>
    let r := storeString m.2 st.1.Owner
    ({ st.1 with Owner := r.1 }, st.2 || r.2)

/-- Go `json.Unmarshal(data, &v)` for `v` of type `diamond`.  The scanner refuses a
byte that is no ASCII outside a string literal and lets every byte from 0x20 on
through inside one, where `unquote` then replaces an invalid byte by U+FFFD: the input
is read as the runes it decodes to. -/
def jsonUnmarshal (data : GoString) (v : diamond) : Except JsonError diamond :=
  match parseJ ((toText data).length + 1) 0 .value (skipSpace (toText data)) with
  | none => .error .syntaxError
  | some (j, rest) =>
    match skipSpace rest with
    | _ :: _ => .error .syntaxError
    | [] =>
      match j with
      | .obj ms =>
        let r := ms.foldl decodeMember (v, false)
        if r.2 then .error .typeError else .ok r.1
      | .null => .ok v
      | _ => .error .typeError

/-- The `pb.Response` of an invocation, message and payload as bytes. -/
structure Response where
  Status : Nat
  Message : GoString
  Payload : Option GoString
  deriving DecidableEq, Repr

/-- Go `shim.Success(payload)`. -/
def shim.Success (payload : Option GoString) : Response :=
  { Status := 200, Message := [], Payload := payload }

/-- Go `shim.Error(msg)`. -/
def shim.Error (msg : GoString) : Response :=
  { Status := 500, Message := msg, Payload := none }

/-- The world state, keys and values as bytes, with the failures of its reads and
writes. -/
structure ChaincodeStub where
  state : GoString → Option GoString
  getError : GoString → Option GoString
  putError : GoString → GoString → Option GoString

/-- Go `stub.GetState(key)`. -/
def ChaincodeStub.GetState (stub : ChaincodeStub) (key : GoString) :
    Except GoString (Option GoString) :=
  match stub.getError key with
  | some e => .error e
  | none => .ok (stub.state key)

/-- The world state after a write of `value` under `key`; a write of no bytes deletes
the key. -/
def ChaincodeStub.write (stub : ChaincodeStub) (key : GoString) (value : GoString) :
    ChaincodeStub :=
  { stub with state := fun k =>
      if k = key then (if len value = 0 then none else some value) else stub.state k }

/-- Go `stub.PutState(key, value)`. -/
def ChaincodeStub.PutState (stub : ChaincodeStub) (key : GoString) (value : GoString) :
    Except GoString ChaincodeStub :=
  match stub.putError key value with
  | some e => .error e
  | none => .ok (stub.write key value)

/-- A Go string literal of the source. -/
def lit (s : String) : GoString := utf8 s.data

/-- The method `createDiamond`, on byte strings. -/
def createDiamond (lowerCase : Char → Char) (stub : ChaincodeStub) (args : List GoString) :
    Response × ChaincodeStub :=
  match args with
  | [a0, a1, a2, a3] =>
    if len a0 ≤ 0 then (shim.Error (lit "1st argument must be a non-empty string"), stub)
    else if len a1 ≤ 0 then (shim.Error (lit "2nd argument must be a non-empty string"), stub)
    else if len a2 ≤ 0 then (shim.Error (lit "3rd argument must be a non-empty string"), stub)
    else if len a3 ≤ 0 then (shim.Error (lit "4th argument must be a non-empty string"), stub)
    else
      let diamondName := a0
      let origin := ToLower lowerCase a1
      let owner := ToLower lowerCase a3
      match Atoi a2 with
      | none => (shim.Error (lit "3rd argument must be a numeric string"), stub)
      | some carats =>
        match stub.GetState diamondName with
        | .error err => (shim.Error (lit "Failed to get diamond: " ++ err), stub)
        | .ok (some _) =>
          (shim.Error (lit "This diamond already exists: " ++ diamondName), stub)
        | .ok none =>
          let objectType := lit "diamond"
          let diamond : diamond := ⟨objectType, diamondName, origin, carats, owner⟩
          let diamondJSONasBytes := jsonMarshal diamond
          match stub.PutState diamondName diamondJSONasBytes with
          | .error err => (shim.Error err, stub)
          | .ok stub1 => (shim.Success none, stub1)
  | _ => (shim.Error (lit "Incorrect number of arguments. Expecting 4"), stub)

/-- The method `queryDiamond`, on byte strings. -/
def queryDiamond (stub : ChaincodeStub) (args : List GoString) : Response × ChaincodeStub :=
  match args with
  | [name] =>
    match stub.GetState name with
    | .error _ =>
      (shim.Error (lit "\x7b\"Error\":\"Failed to get state for " ++ name ++ lit "\"\x7d"), stub)
    | .ok none =>
      (shim.Error (lit "\x7b\"Error\":\"Diamond does not exist: " ++ name ++ lit "\"\x7d"), stub)
    | .ok (some valAsbytes) => (shim.Success (some valAsbytes), stub)
  | _ =>
    (shim.Error (lit "Incorrect number of arguments. Expecting name of the diamond to query"),
      stub)

/-- The method `transferDiamond`, on byte strings. -/
def transferDiamond (lowerCase : Char → Char) (stub : ChaincodeStub) (args : List GoString) :
    Response × ChaincodeStub :=
  match args with
  | a0 :: a1 :: _ =>
    let diamondName := a0
    let newOwner := ToLower lowerCase a1
    match stub.GetState diamondName with
    | .error err => (shim.Error (lit "Failed to get diamond:" ++ err), stub)
    | .ok none => (shim.Error (lit "Diamond does not exist"), stub)
    | .ok (some diamondAsBytes) =>
      match jsonUnmarshal diamondAsBytes diamond.zero with
      | .error err => (shim.Error (lit err.Error), stub)
      | .ok diamondToTransfer =>
        let diamondToTransfer := { diamondToTransfer with Owner := newOwner }
        let diamondJSONasBytes := jsonMarshal diamondToTransfer
        match stub.PutState diamondName diamondJSONasBytes with
        | .error err => (shim.Error err, stub)
        | .ok stub1 => (shim.Success none, stub1)
  | _ => (shim.Error (lit "Incorrect number of arguments. Expecting 2"), stub)

/-- The method `Invoke`, on byte strings. -/
def Invoke (lowerCase : Char → Char) (stub : ChaincodeStub) (function : GoString)
    (args : List GoString) : Response × ChaincodeStub :=
  if function = lit "createDiamond" then createDiamond lowerCase stub args
  else if function = lit "transferDiamond" then transferDiamond lowerCase stub args
  else if function = lit "queryDiamond" then queryDiamond stub args
  else (shim.Error (lit "Received unknown function invocation"), stub)

/-- The world states the chaincode can reach, on byte strings. -/
inductive Reachable (lowerCase : Char → Char) : ChaincodeStub → Prop where
  | empty (getError : GoString → Option GoString)
      (putError : GoString → GoString → Option GoString) :
    Reachable lowerCase ⟨fun _ => none, getError, putError⟩
  | invoke (stub : ChaincodeStub) (function : GoString) (args : List GoString) :
    Reachable lowerCase stub → Reachable lowerCase (Invoke lowerCase stub function args).2
  | faults (stub : ChaincodeStub) (getError : GoString → Option GoString)
      (putError : GoString → GoString → Option GoString) :
    Reachable lowerCase stub →
    Reachable lowerCase { stub with getError := getError, putError := putError }

/-- A store without values and without failures. -/
def emptyStub : ChaincodeStub := ⟨fun _ => none, fun _ => none, fun _ _ => none⟩

/-- The text that is read back from a string field: its runes, U+FFFD for each
invalid byte, encoded again. -/
def sanitize (s : GoString) : GoString := utf8 (toText s)

/-- Key and record agree up to invalid bytes: the value under every key decodes to a
record of kind "diamond" whose name is the key with U+FFFD for each invalid byte. -/
def KeyConsistent (stub : ChaincodeStub) : Prop :=
  ∀ k b, stub.state k = some b →
    ∃ d : diamond, jsonUnmarshal b diamond.zero = .ok d ∧ d.ObjectType = lit "diamond"
      ∧ d.Name = sanitize k ∧ IntRange d.Carats

/-- A string literal for the units `us` and what follows it, in the text. -/
def unitsThen (us : List (Option Char)) (rest : List Char) : List Char :=
  '"' :: (escapeUnits us ++ '"' :: rest)

end Bytes

/-! ## Lemmas on the library models -/

theorem len_pos_iff (s : String) : ¬ len s ≤ 0 ↔ s ≠ "" := by
  rcases s with ⟨l⟩
  cases l with
  | nil => simp [len, String.utf8ByteSize, String.utf8ByteSize.go]
  | cons c cs =>
    have h := Char.utf8Size_pos c
    have hne : (⟨c :: cs⟩ : String) ≠ "" := by
      intro h
      have := congrArg String.data h
      simp at this
    simp only [len, String.utf8ByteSize, String.utf8ByteSize.go, hne, ne_eq, not_false_eq_true,
      iff_true]
    omega

/-- The accumulator of `natDigits` is a suffix of its result. -/
theorem natDigits_acc (fuel n : Nat) (acc : List Char) :
    natDigits fuel n acc = natDigits fuel n [] ++ acc := by
  induction fuel generalizing n acc with
  | zero => simp [natDigits]
  | succ f ih =>
    simp only [natDigits]
    split
    · simp
    · rw [ih (n / 10) (_ :: acc), ih (n / 10) [_]]
      simp

/-- With enough fuel the digits of `n` do not depend on the fuel. -/
theorem natDigits_fuel (f g n : Nat) (acc : List Char) (hf : n < f) (hg : n < g) :
    natDigits f n acc = natDigits g n acc := by
  induction f generalizing g n acc with
  | zero => omega
  | succ f ih =>
    cases g with
    | zero => omega
    | succ g =>
      simp only [natDigits]
      split
      · rfl
      · rename_i h
        have : n / 10 < n := Nat.div_lt_self (by omega) (by omega)
        exact ih g (n / 10) _ (by omega) (by omega)

theorem natDigits_small (n : Nat) (h : n < 10) : natDigits (n + 1) n [] = [digitChar n] := by
  have h1 : n / 10 = 0 := by omega
  have h2 : n % 10 = n := by omega
  simp [natDigits, h1, h2, digitChar]

theorem natDigits_step (n : Nat) (h : 10 ≤ n) :
    natDigits (n + 1) n [] = natDigits (n / 10 + 1) (n / 10) [] ++ [digitChar (n % 10)] := by
  have h1 : ¬ n / 10 = 0 := by omega
  have : n / 10 < n := Nat.div_lt_self (by omega) (by omega)
  simp only [natDigits, h1, if_false]
  rw [natDigits_acc, natDigits_fuel n (n / 10 + 1) (n / 10) [] this (by omega)]
  rfl

theorem digitChar_toNat (d : Nat) (h : d < 10) : (digitChar d).toNat = 48 + d := by
  have : d = 0 ∨ d = 1 ∨ d = 2 ∨ d = 3 ∨ d = 4 ∨ d = 5 ∨ d = 6 ∨ d = 7 ∨ d = 8 ∨ d = 9 := by
    omega
  rcases this with h | h | h | h | h | h | h | h | h | h <;> subst h <;> rfl

theorem decimal_small (n : Nat) (h : n < 10) : decimal n = [digitChar n] :=
  natDigits_small n h

theorem decimal_step (n : Nat) (h : 10 ≤ n) :
    decimal n = decimal (n / 10) ++ [digitChar (n % 10)] :=
  natDigits_step n h

theorem isDigit_digitChar (d : Nat) (h : d < 10) : isDigit (digitChar d) = true := by
  have := digitChar_toNat d h
  simp [isDigit, this]
  omega

theorem digitVal_digitChar (d : Nat) (h : d < 10) : digitVal (digitChar d) = some d := by
  have := digitChar_toNat d h
  simp [digitVal, this]
  omega

theorem decimal_isDigit (n : Nat) : ∀ c ∈ decimal n, isDigit c = true := by
  induction n using Nat.strong_induction_on with
  | _ n ih =>
    by_cases h : n < 10
    · rw [decimal_small n h]
      intro c hc
      simp at hc
      subst hc
      exact isDigit_digitChar n h
    · rw [decimal_step n (by omega)]
      intro c hc
      rcases List.mem_append.mp hc with hc | hc
      · exact ih (n / 10) (Nat.div_lt_self (by omega) (by omega)) c hc
      · simp at hc
        subst hc
        exact isDigit_digitChar _ (Nat.mod_lt _ (by omega))

/-- The first digit of a positive number is not `0`. -/
theorem decimal_head (n : Nat) (hn : 0 < n) :
    ∃ c cs, decimal n = c :: cs ∧ isDigit c = true ∧ c ≠ '0' := by
  induction n using Nat.strong_induction_on with
  | _ n ih =>
    by_cases h : n < 10
    · refine ⟨digitChar n, [], decimal_small n h, isDigit_digitChar n h, ?_⟩
      intro hc
      have := congrArg Char.toNat hc
      rw [digitChar_toNat n h] at this
      have h0 : '0'.toNat = 48 := rfl
      omega
    · obtain ⟨c, cs, hcs, hd, h0⟩ := ih (n / 10) (Nat.div_lt_self (by omega) (by omega))
        (Nat.div_pos (by omega) (by omega))
      exact ⟨c, cs ++ [digitChar (n % 10)], by rw [decimal_step n (by omega), hcs]; rfl, hd, h0⟩

theorem digitsValue_snoc (l : List Char) (a d : Nat) (h : d < 10) :
    digitsValue a (l ++ [digitChar d]) = (digitsValue a l).map (fun v => v * 10 + d) := by
  induction l generalizing a with
  | nil => simp [digitsValue, digitVal_digitChar d h]
  | cons c cs ih =>
    simp only [List.cons_append, digitsValue]
    cases digitVal c with
    | none => rfl
    | some x => exact ih _

theorem digitsValue_decimal (n : Nat) : digitsValue 0 (decimal n) = some n := by
  induction n using Nat.strong_induction_on with
  | _ n ih =>
    by_cases h : n < 10
    · rw [decimal_small n h]
      simp [digitsValue, digitVal_digitChar n h]
    · rw [decimal_step n (by omega), digitsValue_snoc _ _ _ (Nat.mod_lt _ (by omega)),
        ih (n / 10) (Nat.div_lt_self (by omega) (by omega))]
      simp
      omega

theorem takeDigits_append (l : List Char) (x : Char) (rest : List Char)
    (hl : ∀ c ∈ l, isDigit c = true) (hx : isDigit x = false) :
    takeDigits (l ++ x :: rest) = (l, x :: rest) := by
  induction l with
  | nil => simp [takeDigits, hx]
  | cons c cs ih =>
    have hc : isDigit c = true := hl c (List.mem_cons_self _ _)
    have := ih (fun c hc => hl c (List.mem_cons_of_mem _ hc))
    simp [takeDigits, hc, this]

theorem scanInteger_decimal (n : Nat) (lit : List Char) (x : Char) (rest : List Char)
    (hx : endsNumber x) :
    scanInteger lit (decimal n ++ x :: rest) = some (lit ++ decimal n, x :: rest) := by
  obtain ⟨hx1, hx2, hx3, hx4⟩ := hx
  have hfrac : ∀ l, scanFraction l (x :: rest) = some (l, x :: rest) := by
    intro l
    unfold scanFraction
    split
    · rename_i h
      simp at h
      exact absurd h.1 hx2
    · simp [scanExponent, hx3, hx4]
  by_cases hn : n = 0
  · subst hn
    have : decimal 0 = ['0'] := rfl
    rw [this]
    simp [scanInteger, hfrac]
  · obtain ⟨c, cs, hcs, hd, h0⟩ := decimal_head n (by omega)
    have hall := decimal_isDigit n
    rw [hcs] at hall ⊢
    have htd := takeDigits_append cs x rest (fun c hc => hall c (List.mem_cons_of_mem _ hc)) hx1
    simp [scanInteger, h0, hd, htd, hfrac]

theorem formatInt_nonneg (i : Int) (h : 0 ≤ i) : formatInt i = decimal i.natAbs := by
  simp [formatInt, decimal, not_lt.mpr h]

theorem formatInt_neg (i : Int) (h : i < 0) : formatInt i = '-' :: decimal i.natAbs := by
  simp [formatInt, decimal, h]

theorem scanNumber_formatInt (i : Int) (x : Char) (rest : List Char) (hx : endsNumber x) :
    scanNumber (formatInt i ++ x :: rest) = some (formatInt i, x :: rest) := by
  by_cases h : i < 0
  · rw [formatInt_neg i h]
    simp [scanNumber, scanInteger_decimal _ _ _ _ hx]
  · rw [formatInt_nonneg i (not_lt.mp h)]
    by_cases hn : i.natAbs = 0
    · rw [hn]
      have : decimal 0 = ['0'] := rfl
      rw [this]
      have := scanInteger_decimal 0 [] x rest hx
      rw [‹decimal 0 = ['0']›] at this
      simpa [scanNumber] using this
    · obtain ⟨c, cs, hcs, hd, h0⟩ := decimal_head i.natAbs (by omega)
      have hc : c ≠ '-' := by
        intro hc
        subst hc
        simp [isDigit] at hd
      have := scanInteger_decimal i.natAbs [] x rest hx
      rw [hcs] at this ⊢
      unfold scanNumber
      split
      · rename_i h1
        simp at h1
        exact absurd h1.1 hc
      · simpa using this

/-- The first character of the decimal digits of a number is a digit. -/
theorem decimal_cons (n : Nat) : ∃ c cs, decimal n = c :: cs ∧ isDigit c = true := by
  by_cases hn : n = 0
  · subst hn
    exact ⟨'0', [], rfl, rfl⟩
  · obtain ⟨c, cs, hcs, hd, _⟩ := decimal_head n (by omega)
    exact ⟨c, cs, hcs, hd⟩

/-- The integer written by `formatInt` is read back by `ParseInt`, when it is a value
of the 64-bit type `int`. -/
theorem ParseInt_formatInt (i : Int) (hlo : -(2 : Int) ^ 63 ≤ i) (hhi : i < (2 : Int) ^ 63) :
    ParseInt (formatInt i) = some i := by
  by_cases h : i < 0
  · rw [formatInt_neg i h]
    obtain ⟨c, cs, hcs, hd⟩ := decimal_cons i.natAbs
    have hv := digitsValue_decimal i.natAbs
    rw [hcs] at hv
    have hr : ¬ (i.natAbs > 2 ^ 63) := by omega
    simp [ParseInt, parseDigits, hcs, hv, hr]
    exact ⟨by omega, by rw [abs_of_neg h]; omega⟩
  · rw [formatInt_nonneg i (not_lt.mp h)]
    obtain ⟨c, cs, hcs, hd⟩ := decimal_cons i.natAbs
    have hv := digitsValue_decimal i.natAbs
    rw [hcs] at hv
    have hp : c ≠ '+' := by
      intro hc
      subst hc
      simp [isDigit] at hd
    have hm : c ≠ '-' := by
      intro hc
      subst hc
      simp [isDigit] at hd
    have hr : ¬ (i.natAbs ≥ 2 ^ 63) := by omega
    simp [ParseInt, parseDigits, hcs, hv, hp, hm, hr]
    omega

theorem hexVal_hexDigit (d : Nat) (h : d < 16) : hexVal (hexDigit d) = some d := by
  have : d = 0 ∨ d = 1 ∨ d = 2 ∨ d = 3 ∨ d = 4 ∨ d = 5 ∨ d = 6 ∨ d = 7 ∨ d = 8 ∨ d = 9
      ∨ d = 10 ∨ d = 11 ∨ d = 12 ∨ d = 13 ∨ d = 14 ∨ d = 15 := by omega
  rcases this with h | h | h | h | h | h | h | h | h | h | h | h | h | h | h | h <;>
    subst h <;> rfl

theorem getu4_hex (n : Nat) (h : n < 256) :
    getu4 '0' '0' (hexDigit (n / 16)) (hexDigit (n % 16)) = some n := by
  have h0 : hexVal '0' = some 0 := rfl
  simp only [getu4, h0, hexVal_hexDigit (n / 16) (by omega),
    hexVal_hexDigit (n % 16) (Nat.mod_lt _ (by omega))]
  congr 1
  omega

/-- One escaped rune is read back as that rune. -/
theorem unquote_escapeRune (f : Nat) (c : Char) (tail : List Char) :
    unquote (f + 1) (escapeRune c ++ tail) = consRune c (unquote f tail) := by
  unfold escapeRune
  split
  · rename_i h
    rcases h with h | h <;> subst h <;> simp [unquote, simpleEscape]
  split
  · rename_i h
    subst h
    rfl
  split
  · rename_i h
    subst h
    rfl
  split
  · rename_i h
    subst h
    simp [unquote, simpleEscape]
  split
  · rename_i h
    subst h
    simp [unquote, simpleEscape]
  split
  · rename_i h
    subst h
    simp [unquote, simpleEscape]
  split
  · rename_i h1 h2 h3 h4 h5 h6 h
    have hlt : c.toNat < 256 := by
      rcases h with h | h | h | h
      · omega
      · subst h; decide
      · subst h; decide
      · subst h; decide
    have hu := getu4_hex c.toNat hlt
    have hs : ¬ (55296 ≤ c.toNat ∧ c.toNat < 56320) := by omega
    have hs2 : ¬ (55296 ≤ c.toNat ∧ c.toNat < 57344) := by omega
    simp [unquote, hu, hs, runeOfEscape, hs2]
  split
  · rename_i h
    rcases h with h | h <;> subst h <;> rfl
  · rename_i h1 h2 h3 h4 h5 h6 h7 h8
    have hq : c ≠ '"' := fun h => h1 (Or.inr h)
    have hb : c ≠ '\\' := fun h => h1 (Or.inl h)
    have hc : ¬ c.toNat < 32 := fun h => h7 (Or.inl h)
    simp [unquote, hq, hb, hc]

/-- A string literal written by `quote` is read back as the string. -/
theorem unquote_escapeRunes (s : List Char) (f : Nat) (rest : List Char) (hf : s.length < f) :
    unquote f (escapeRunes s ++ '"' :: rest) = some (s, rest) := by
  induction s generalizing f with
  | nil =>
    cases f with
    | zero => simp at hf
    | succ f => simp [escapeRunes, unquote]
  | cons c cs ih =>
    cases f with
    | zero => simp at hf
    | succ f =>
      simp only [escapeRunes, List.append_assoc]
      rw [unquote_escapeRune, ih f (by simpa using hf)]
      rfl

theorem length_escapeRune (c : Char) : 1 ≤ (escapeRune c).length := by
  unfold escapeRune
  repeat' split
  all_goals simp

theorem length_escapeRunes (s : List Char) : s.length ≤ (escapeRunes s).length := by
  induction s with
  | nil => simp [escapeRunes]
  | cons c cs ih =>
    have := length_escapeRune c
    simp only [escapeRunes, List.length_cons, List.length_append]
    omega

/-- The form in which the parser meets a string literal: the fuel is the length of
the input after the opening quote. -/
theorem unquote_quote (s : List Char) (rest : List Char) :
    unquote (escapeRunes s ++ '"' :: rest).length (escapeRunes s ++ '"' :: rest)
      = some (s, rest) := by
  apply unquote_escapeRunes
  have := length_escapeRunes s
  simp only [List.length_append, List.length_cons]
  omega

theorem skipSpace_cons (c : Char) (r : List Char) (h : isSpace c = false) :
    skipSpace (c :: r) = c :: r := by
  simp [skipSpace, h]

theorem parseJ_string (f n : Nat) (s rest : List Char) :
    parseJ (f + 1) n .value (literalThen s rest) = some (.str s, rest) := by
  have hu := unquote_quote s rest
  unfold literalThen
  generalize escapeRunes s ++ '"' :: rest = L at hu ⊢
  simp [parseJ, hu]

theorem parseJ_int (f n : Nat) (i : Int) (x : Char) (rest : List Char) (hx : endsNumber x) :
    parseJ (f + 1) n .value (formatInt i ++ x :: rest)
      = some (.num (formatInt i), x :: rest) := by
  have hsn := scanNumber_formatInt i x rest hx
  have hhead : ∃ c cs, formatInt i = c :: cs ∧ (c = '-' ∨ isDigit c = true) := by
    by_cases h : i < 0
    · exact ⟨'-', _, formatInt_neg i h, Or.inl rfl⟩
    · obtain ⟨c, cs, hcs, hd⟩ := decimal_cons i.natAbs
      exact ⟨c, cs, by rw [formatInt_nonneg i (not_lt.mp h), hcs], Or.inr hd⟩
  obtain ⟨c, cs, hcs, hc⟩ := hhead
  rw [hcs] at hsn ⊢
  have h1 : c ≠ '{' := by rintro rfl; revert hc; decide
  have h2 : c ≠ '[' := by rintro rfl; revert hc; decide
  have h3 : c ≠ '"' := by rintro rfl; revert hc; decide
  have h4 : c ≠ 't' := by rintro rfl; revert hc; decide
  have h5 : c ≠ 'f' := by rintro rfl; revert hc; decide
  have h6 : c ≠ 'n' := by rintro rfl; revert hc; decide
  simp only [List.cons_append] at hsn ⊢
  simp [parseJ, h1, h2, h3, h4, h5, h6, hsn]

/-- One member `"k":V` of an object followed by a comma: the parser goes on with the
next member. -/
theorem parseJ_member (f n : Nat) (acc : List (List Char × JVal)) (k V : List Char)
    (v : JVal) (next : List Char) (hV : skipSpace V = V) (hn : skipSpace next = next)
    (hv : parseJ f n .value V = some (v, ',' :: next)) :
    parseJ (f + 1) n (.members acc) (memberText k V)
      = parseJ f n (.members (acc ++ [(k, v)])) next := by
  have hu := unquote_quote k (':' :: V)
  have h1 : skipSpace (':' :: V) = ':' :: V := rfl
  have h2 : skipSpace (',' :: next) = ',' :: next := rfl
  unfold memberText literalThen
  generalize escapeRunes k ++ '"' :: ':' :: V = L at hu ⊢
  simp [parseJ, hu, h1, h2, hV, hv, hn]

/-- The last member `"k":V` of an object, followed by the closing brace. -/
theorem parseJ_lastMember (f n : Nat) (acc : List (List Char × JVal)) (k V : List Char)
    (v : JVal) (rest : List Char) (hV : skipSpace V = V)
    (hv : parseJ f n .value V = some (v, '}' :: rest)) :
    parseJ (f + 1) n (.members acc) (memberText k V)
      = some (.obj (acc ++ [(k, v)]), rest) := by
  have hu := unquote_quote k (':' :: V)
  unfold memberText literalThen
  generalize escapeRunes k ++ '"' :: ':' :: V = L at hu ⊢
  have h1 : skipSpace (':' :: V) = ':' :: V := rfl
  have h2 : skipSpace ('}' :: rest) = '}' :: rest := rfl
  simp [parseJ, hu, h1, h2, hV, hv]

/-- An object or an array opened when `maxNestingDepth` of them are open is refused. -/
theorem parseJ_exceeded_max_depth (f n : Nat) (c : Char) (r : List Char)
    (hn : maxNestingDepth ≤ n) (hc : c = '{' ∨ c = '[') :
    parseJ (f + 1) n .value (c :: r) = none := by
  have h : ¬ n < maxNestingDepth := Nat.not_lt.mpr hn
  rcases hc with rfl | rfl <;> simp [parseJ, h]

theorem skipSpace_literalThen (s r : List Char) :
    skipSpace (literalThen s r) = literalThen s r := rfl

theorem skipSpace_formatInt (i : Int) (r : List Char) :
    skipSpace (formatInt i ++ r) = formatInt i ++ r := by
  by_cases h : i < 0
  · rw [formatInt_neg i h]
    rfl
  · obtain ⟨c, cs, hcs, hd⟩ := decimal_cons i.natAbs
    rw [formatInt_nonneg i (not_lt.mp h), hcs]
    apply skipSpace_cons
    have h1 : c ≠ ' ' := by rintro rfl; revert hd; decide
    have h2 : c ≠ '\t' := by rintro rfl; revert hd; decide
    have h3 : c ≠ '\r' := by rintro rfl; revert hd; decide
    have h4 : c ≠ '\n' := by rintro rfl; revert hd; decide
    simp [isSpace, h1, h2, h3, h4]

/-- The text written by `jsonMarshal`, member by member. -/
theorem jsonMarshal_data (d : diamond) :
    (jsonMarshal d).data =
      '{' :: memberText "docType".data (literalThen d.ObjectType.data (',' ::
        memberText "name".data (literalThen d.Name.data (',' ::
        memberText "origin".data (literalThen d.Origin.data (',' ::
        memberText "carats".data (formatInt d.Carats ++ ',' ::
        memberText "owner".data (literalThen d.Owner.data ['}'])))))))) := by
  have e1 : escapeRunes "docType".data = "docType".data := by decide
  have e2 : escapeRunes "name".data = "name".data := by decide
  have e3 : escapeRunes "origin".data = "origin".data := by decide
  have e4 : escapeRunes "carats".data = "carats".data := by decide
  have e5 : escapeRunes "owner".data = "owner".data := by decide
  simp only [memberText, literalThen]
  rw [e1, e2, e3, e4, e5]
  simp [jsonMarshal, quote]

/-- The parser reads the text of `jsonMarshal d` as the object of its five members. -/
theorem parseJ_jsonMarshal (d : diamond) (f : Nat) :
    parseJ (f + 7) 0 .value (jsonMarshal d).data =
      some (.obj [("docType".data, .str d.ObjectType.data), ("name".data, .str d.Name.data),
        ("origin".data, .str d.Origin.data), ("carats".data, .num (formatInt d.Carats)),
        ("owner".data, .str d.Owner.data)], []) := by
  rw [jsonMarshal_data]
  have hcomma : endsNumber ',' := by
    unfold endsNumber
    decide
  have step0 : ∀ k V, parseJ (f + 7) 0 .value ('{' :: memberText k V)
      = parseJ (f + 6) 1 (.members []) (memberText k V) := by
    intro k V
    rfl
  rw [step0]
  rw [parseJ_member (f + 5) 1 _ _ _ _ _ (skipSpace_literalThen _ _) rfl (parseJ_string (f + 4) 1 _ _)]
  rw [parseJ_member (f + 4) 1 _ _ _ _ _ (skipSpace_literalThen _ _) rfl (parseJ_string (f + 3) 1 _ _)]
  rw [parseJ_member (f + 3) 1 _ _ _ _ _ (skipSpace_literalThen _ _) rfl (parseJ_string (f + 2) 1 _ _)]
  rw [parseJ_member (f + 2) 1 _ _ _ _ _ (skipSpace_formatInt _ _) rfl
    (parseJ_int (f + 1) 1 _ _ _ hcomma)]
  rw [parseJ_lastMember (f + 1) 1 _ _ _ _ _ (skipSpace_literalThen _ _) (parseJ_string f 1 _ _)]
  rfl

theorem jsonMarshal_length (d : diamond) : 6 ≤ (jsonMarshal d).data.length := by
  rw [jsonMarshal_data]
  simp only [memberText, literalThen, List.length_cons, List.length_append]
  omega

theorem jsonMarshal_ne_empty (d : diamond) : len (jsonMarshal d) ≠ 0 := by
  have h := jsonMarshal_length d
  intro h0
  have hne : ¬ len (jsonMarshal d) ≤ 0 := by
    rw [len_pos_iff]
    intro he
    rw [he] at h
    simp at h
  omega

/-- Decoding what `jsonMarshal` wrote gives the record back, whatever the struct
decoded into held before. -/
theorem jsonUnmarshal_jsonMarshal (d v : diamond) (hr : IntRange d.Carats) :
    jsonUnmarshal (jsonMarshal d) v = .ok d := by
  obtain ⟨f, hf⟩ : ∃ f, (jsonMarshal d).data.length + 1 = f + 7 :=
    ⟨(jsonMarshal d).data.length - 6, by have := jsonMarshal_length d; omega⟩
  have hs : skipSpace (jsonMarshal d).data = (jsonMarshal d).data := by
    rw [jsonMarshal_data]
    rfl
  have hp := parseJ_jsonMarshal d f
  have f1 : findField "docType".data = some .docType := by decide
  have f2 : findField "name".data = some .name := by decide
  have f3 : findField "origin".data = some .origin := by decide
  have f4 : findField "carats".data = some .carats := by decide
  have f5 : findField "owner".data = some .owner := by decide
  have hi := ParseInt_formatInt d.Carats hr.1 hr.2
  unfold jsonUnmarshal
  rw [hf, hs, hp]
  simp [skipSpace, List.foldl, decodeMember, f1, f2, f3, f4, f5, storeString, storeInt, hi]

theorem ParseInt_range (l : List Char) (n : Int) (h : ParseInt l = some n) : IntRange n := by
  unfold ParseInt at h
  split at h
  · simp at h
  · rename_i c r
    simp only at h
    split at h
    · simp at h
    · rename_i un hun
      split at h
      · simp at h
      · split at h
        · simp at h
        · rename_i h1 h2
          simp only [Option.some.injEq] at h
          subst h
          unfold IntRange
          by_cases hneg : c = '-'
          · simp [hneg] at h1 h2 ⊢
            omega
          · simp [hneg] at h1 h2 ⊢
            omega

theorem storeInt_range (v : JVal) (cur : Int) (h : IntRange cur) :
    IntRange (storeInt v cur).1 := by
  unfold storeInt
  split
  · split
    · rename_i hn
      exact ParseInt_range _ _ hn
    · exact h
  · exact h
  · exact h

theorem decodeMember_range (st : diamond × Bool) (m : List Char × JVal)
    (h : IntRange st.1.Carats) : IntRange (decodeMember st m).1.Carats := by
  unfold decodeMember
  split <;> try exact h
  exact storeInt_range _ _ h

theorem foldl_decodeMember_range (ms : List (List Char × JVal)) (st : diamond × Bool)
    (h : IntRange st.1.Carats) : IntRange (ms.foldl decodeMember st).1.Carats := by
  induction ms generalizing st with
  | nil => exact h
  | cons m ms ih => exact ih _ (decodeMember_range st m h)

/-- A record decoded by `jsonUnmarshal` has a weight of type `int`. -/
theorem jsonUnmarshal_range (data : String) (v d : diamond) (hv : IntRange v.Carats)
    (h : jsonUnmarshal data v = .ok d) : IntRange d.Carats := by
  unfold jsonUnmarshal at h
  split at h
  · simp at h
  · split at h
    · simp at h
    · split at h
      · simp only at h
        split at h
        · simp at h
        · simp only [Except.ok.injEq] at h
          subst h
          exact foldl_decodeMember_range _ _ hv
      · simp only [Except.ok.injEq] at h
        subst h
        exact hv
      · simp at h

theorem IntRange_zero : IntRange diamond.zero.Carats := by decide

theorem Atoi_range (s : String) (w : Int) (h : Atoi s = some w) : IntRange w :=
  ParseInt_range _ _ h

/-! ## Lemmas on the operations -/

theorem write_state_same (stub : ChaincodeStub) (key value : String) (h : len value ≠ 0) :
    (stub.write key value).state key = some value := by
  simp [ChaincodeStub.write, h]

theorem write_state_other (stub : ChaincodeStub) (key value k : String) (h : k ≠ key) :
    (stub.write key value).state k = stub.state k := by
  simp [ChaincodeStub.write, h]

theorem write_getError (stub : ChaincodeStub) (key value : String) :
    (stub.write key value).getError = stub.getError := rfl

theorem write_putError (stub : ChaincodeStub) (key value : String) :
    (stub.write key value).putError = stub.putError := rfl

/-- Writing under a key the value it already holds changes nothing. -/
theorem write_same_value (stub : ChaincodeStub) (key value : String)
    (h : stub.state key = some value) (hv : len value ≠ 0) : stub.write key value = stub := by
  rcases stub with ⟨st, ge, pe⟩
  simp only [ChaincodeStub.write, ChaincodeStub.mk.injEq, and_true]
  funext k
  by_cases hk : k = key
  · subst hk
    simp [hv, ← h]
  · simp [hk]

/-- The outcome of `createDiamond` on four arguments that pass the checks. -/
theorem createDiamond_checked (lowerCase : Char → Char) (stub : ChaincodeStub)
    (a0 a1 a2 a3 : String) (w : Int) (h0 : a0 ≠ "") (h1 : a1 ≠ "") (h2 : a2 ≠ "")
    (h3 : a3 ≠ "") (hw : Atoi a2 = some w) :
    createDiamond lowerCase stub [a0, a1, a2, a3] =
      match stub.GetState a0 with
      | .error err => (shim.Error ("Failed to get diamond: " ++ err), stub)
      | .ok (some _) => (shim.Error ("This diamond already exists: " ++ a0), stub)
      | .ok none =>
        match stub.PutState a0
          (jsonMarshal ⟨"diamond", a0, ToLower lowerCase a1, w, ToLower lowerCase a3⟩) with
        | .error err => (shim.Error err, stub)
        | .ok stub1 => (shim.Success none, stub1) := by
  simp only [createDiamond, (len_pos_iff a0).mpr h0, (len_pos_iff a1).mpr h1,
    (len_pos_iff a2).mpr h2, (len_pos_iff a3).mpr h3, if_false, hw]

/-- The outcome of `createDiamond` when it passes the checks, finds no value and the
store does not fail. -/
theorem createDiamond_ok (lowerCase : Char → Char) (stub : ChaincodeStub)
    (a0 a1 a2 a3 : String) (w : Int) (h0 : a0 ≠ "") (h1 : a1 ≠ "") (h2 : a2 ≠ "")
    (h3 : a3 ≠ "") (hw : Atoi a2 = some w) (habsent : stub.state a0 = none)
    (hget : stub.getError a0 = none)
    (hput : stub.putError a0
      (jsonMarshal ⟨"diamond", a0, ToLower lowerCase a1, w, ToLower lowerCase a3⟩) = none) :
    createDiamond lowerCase stub [a0, a1, a2, a3] =
      (shim.Success none, stub.write a0
        (jsonMarshal ⟨"diamond", a0, ToLower lowerCase a1, w, ToLower lowerCase a3⟩)) := by
  rw [createDiamond_checked lowerCase stub a0 a1 a2 a3 w h0 h1 h2 h3 hw]
  simp [ChaincodeStub.GetState, ChaincodeStub.PutState, hget, habsent, hput]

theorem shim_Error_ne_Success (msg : String) (p : Option String) :
    shim.Error msg ≠ shim.Success p := by
  simp [shim.Error, shim.Success]

theorem shim_Error_status (msg : String) : (shim.Error msg).Status = 500 := rfl

theorem shim_Success_status (p : Option String) : (shim.Success p).Status = 200 := rfl

/-- What a successful `createDiamond` has checked and done. -/
theorem createDiamond_success (lowerCase : Char → Char) (stub : ChaincodeStub)
    (args : List String) (h : (createDiamond lowerCase stub args).1.Status = 200) :
    ∃ a0 a1 a2 a3 w, args = [a0, a1, a2, a3] ∧ a0 ≠ "" ∧ a1 ≠ "" ∧ a2 ≠ "" ∧ a3 ≠ ""
      ∧ Atoi a2 = some w ∧ stub.getError a0 = none ∧ stub.state a0 = none
      ∧ stub.putError a0
          (jsonMarshal ⟨"diamond", a0, ToLower lowerCase a1, w, ToLower lowerCase a3⟩) = none
      ∧ createDiamond lowerCase stub args = (shim.Success none, stub.write a0
          (jsonMarshal ⟨"diamond", a0, ToLower lowerCase a1, w, ToLower lowerCase a3⟩)) := by
  unfold createDiamond at h
  split at h
  case h_2 => simp [shim_Error_status] at h
  case h_1 a0 a1 a2 a3 =>
    by_cases h0 : len a0 ≤ 0
    · simp [h0, shim_Error_status] at h
    by_cases h1 : len a1 ≤ 0
    · simp [h0, h1, shim_Error_status] at h
    by_cases h2 : len a2 ≤ 0
    · simp [h0, h1, h2, shim_Error_status] at h
    by_cases h3 : len a3 ≤ 0
    · simp [h0, h1, h2, h3, shim_Error_status] at h
    simp only [h0, h1, h2, h3, if_false] at h
    cases hw : Atoi a2 with
    | none => simp [hw, shim_Error_status] at h
    | some w =>
      simp only [hw] at h
      cases hg : stub.getError a0 with
      | some e => simp [ChaincodeStub.GetState, hg, shim_Error_status] at h
      | none =>
        cases hs : stub.state a0 with
        | some b => simp [ChaincodeStub.GetState, hg, hs, shim_Error_status] at h
        | none =>
          cases hp : stub.putError a0
            (jsonMarshal ⟨"diamond", a0, ToLower lowerCase a1, w, ToLower lowerCase a3⟩) with
          | some e =>
            simp [ChaincodeStub.GetState, ChaincodeStub.PutState, hg, hs, hp,
              shim_Error_status] at h
          | none =>
            rw [len_pos_iff] at h0 h1 h2 h3
            exact ⟨a0, a1, a2, a3, w, rfl, h0, h1, h2, h3, hw, hg, hs, hp,
              createDiamond_ok lowerCase stub a0 a1 a2 a3 w h0 h1 h2 h3 hw hs hg hp⟩

/-- The outcome of `transferDiamond` when the read finds a value that decodes and the
store does not fail. -/
theorem transferDiamond_ok (lowerCase : Char → Char) (stub : ChaincodeStub)
    (a0 a1 : String) (rest : List String) (b : String) (d : diamond)
    (hget : stub.getError a0 = none) (hb : stub.state a0 = some b)
    (hd : jsonUnmarshal b diamond.zero = .ok d)
    (hput : stub.putError a0 (jsonMarshal { d with Owner := ToLower lowerCase a1 }) = none) :
    transferDiamond lowerCase stub (a0 :: a1 :: rest) =
      (shim.Success none,
        stub.write a0 (jsonMarshal { d with Owner := ToLower lowerCase a1 })) := by
  simp [transferDiamond, ChaincodeStub.GetState, ChaincodeStub.PutState, hget, hb, hd, hput]

/-- What a successful `transferDiamond` has read and done. -/
theorem transferDiamond_success (lowerCase : Char → Char) (stub : ChaincodeStub)
    (args : List String) (h : (transferDiamond lowerCase stub args).1.Status = 200) :
    ∃ a0 a1 rest b d, args = a0 :: a1 :: rest ∧ stub.getError a0 = none
      ∧ stub.state a0 = some b ∧ jsonUnmarshal b diamond.zero = .ok d
      ∧ stub.putError a0 (jsonMarshal { d with Owner := ToLower lowerCase a1 }) = none
      ∧ transferDiamond lowerCase stub args = (shim.Success none,
          stub.write a0 (jsonMarshal { d with Owner := ToLower lowerCase a1 })) := by
  unfold transferDiamond at h
  split at h
  case h_2 => simp [shim_Error_status] at h
  case h_1 a0 a1 rest =>
    cases hg : stub.getError a0 with
    | some e => simp [ChaincodeStub.GetState, hg, shim_Error_status] at h
    | none =>
      cases hs : stub.state a0 with
      | none => simp [ChaincodeStub.GetState, hg, hs, shim_Error_status] at h
      | some b =>
        cases hd : jsonUnmarshal b diamond.zero with
        | error e => simp [ChaincodeStub.GetState, hg, hs, hd, shim_Error_status] at h
        | ok d =>
          cases hp : stub.putError a0
            (jsonMarshal { d with Owner := ToLower lowerCase a1 }) with
          | some e =>
            simp [ChaincodeStub.GetState, ChaincodeStub.PutState, hg, hs, hd, hp,
              shim_Error_status] at h
          | none =>
            exact ⟨a0, a1, rest, b, d, rfl, hg, hs, hd, hp,
              transferDiamond_ok lowerCase stub a0 a1 rest b d hg hs hd hp⟩

/-- An operation that does not return success leaves the stub as it was. -/
theorem createDiamond_failed (lowerCase : Char → Char) (stub : ChaincodeStub)
    (args : List String) (h : (createDiamond lowerCase stub args).1.Status ≠ 200) :
    (createDiamond lowerCase stub args).2 = stub := by
  unfold createDiamond at h ⊢
  split
  case h_2 => rfl
  case h_1 a0 a1 a2 a3 =>
    simp only at h
    split_ifs
    · rfl
    · rfl
    · rfl
    · rfl
    · rename_i h0 h1 h2 h3
      simp only [h0, h1, h2, h3, if_false] at h
      cases hw : Atoi a2 with
      | none => rfl
      | some w =>
        simp only [hw] at h ⊢
        cases hg : stub.GetState a0 with
        | error e => rfl
        | ok v =>
          cases v with
          | some b => rfl
          | none =>
            simp only [hg] at h ⊢
            cases hp : stub.PutState a0
              (jsonMarshal ⟨"diamond", a0, ToLower lowerCase a1, w, ToLower lowerCase a3⟩) with
            | error e => rfl
            | ok s1 =>
              simp [hp, shim_Success_status] at h

theorem transferDiamond_failed (lowerCase : Char → Char) (stub : ChaincodeStub)
    (args : List String) (h : (transferDiamond lowerCase stub args).1.Status ≠ 200) :
    (transferDiamond lowerCase stub args).2 = stub := by
  unfold transferDiamond at h ⊢
  split
  case h_2 => rfl
  case h_1 a0 a1 rest =>
    simp only at h ⊢
    cases hg : stub.GetState a0 with
    | error e => rfl
    | ok v =>
      cases v with
      | none => rfl
      | some b =>
        simp only [hg] at h ⊢
        cases hd : jsonUnmarshal b diamond.zero with
        | error e => rfl
        | ok d =>
          simp only [hd] at h ⊢
          cases hp : stub.PutState a0
            (jsonMarshal { d with Owner := ToLower lowerCase a1 }) with
          | error e => rfl
          | ok s1 => simp [hp, shim_Success_status] at h

/-- The operation `queryDiamond` never changes the stub. -/
theorem queryDiamond_stub (stub : ChaincodeStub) (args : List String) :
    (queryDiamond stub args).2 = stub := by
  unfold queryDiamond
  split
  · split <;> rfl
  · rfl

/-! ## The claims -/

/-- Creation then query on text, that is on arguments that are well-formed UTF-8 (the
form on byte strings is proved in the last section):
on a store without a value under `name` whose read and writes of `name` do not
fail, `createDiamond` with four non-empty arguments whose weight text `Atoi` reads as
`w` succeeds, and `queryDiamond` on the name then succeeds with bytes that decode to
the record of kind "diamond" with that name, the lower-cased origin, the weight `w`
and the lower-cased owner. -/
theorem createDiamond_then_queryDiamond (lowerCase : Char → Char) (stub : ChaincodeStub)
    (name origin weightText owner : String) (w : Int)
    (habsent : stub.state name = none) (hget : stub.getError name = none)
    (hput : ∀ v, stub.putError name v = none)
    (hname : name ≠ "") (horigin : origin ≠ "") (hweight : weightText ≠ "")
    (howner : owner ≠ "") (hw : Atoi weightText = some w) :
    (createDiamond lowerCase stub [name, origin, weightText, owner]).1 = shim.Success none
    ∧ ∃ bytes,
      (queryDiamond (createDiamond lowerCase stub [name, origin, weightText, owner]).2
        [name]).1 = shim.Success (some bytes)
      ∧ jsonUnmarshal bytes diamond.zero
        = .ok ⟨"diamond", name, ToLower lowerCase origin, w, ToLower lowerCase owner⟩ := by
  rw [createDiamond_ok lowerCase stub name origin weightText owner w hname horigin hweight
    howner hw habsent hget (hput _)]
  refine ⟨rfl, jsonMarshal
    ⟨"diamond", name, ToLower lowerCase origin, w, ToLower lowerCase owner⟩, ?_, ?_⟩
  · simp [queryDiamond, ChaincodeStub.GetState, write_getError, hget,
      write_state_same _ _ _ (jsonMarshal_ne_empty _)]
  · exact jsonUnmarshal_jsonMarshal _ _ (Atoi_range _ _ hw)

/-- The text scenario of creation then query: the creation of ("asdf", "Blue", "35",
"Bob") on the empty store, then the query of "asdf". -/
theorem createDiamond_then_queryDiamond_witness :
    (emptyStub.state "asdf" = none ∧ emptyStub.getError "asdf" = none
      ∧ (∀ v, emptyStub.putError "asdf" v = none)
      ∧ "asdf" ≠ "" ∧ "Blue" ≠ "" ∧ "35" ≠ "" ∧ "Bob" ≠ "" ∧ Atoi "35" = some 35)
    ∧ (createDiamond id emptyStub ["asdf", "Blue", "35", "Bob"]).1 = shim.Success none
    ∧ ∃ bytes,
      (queryDiamond (createDiamond id emptyStub ["asdf", "Blue", "35", "Bob"]).2
        ["asdf"]).1 = shim.Success (some bytes)
      ∧ jsonUnmarshal bytes diamond.zero = .ok ⟨"diamond", "asdf", "blue", 35, "bob"⟩ :=
  ⟨⟨rfl, rfl, fun _ => rfl, by decide, by decide, by decide, by decide, by decide⟩,
    createDiamond_then_queryDiamond id emptyStub "asdf" "Blue" "35" "Bob" 35 rfl rfl
      (fun _ => rfl) (by decide) (by decide) (by decide) (by decide) (by decide)⟩

/-- C2: when a first `createDiamond` succeeds, a second one under the same name, with
any three other valid arguments, fails with "This diamond already exists: " followed
by the name, and leaves the store as the first call left it. -/
theorem createDiamond_twice (lowerCase : Char → Char) (stub : ChaincodeStub)
    (args : List String) (name origin weightText owner : String) (w : Int)
    (hfirst : (createDiamond lowerCase stub args).1 = shim.Success none)
    (hsame : args.head? = some name)
    (horigin : origin ≠ "") (hweight : weightText ≠ "") (howner : owner ≠ "")
    (hw : Atoi weightText = some w) :
    createDiamond lowerCase (createDiamond lowerCase stub args).2
        [name, origin, weightText, owner]
      = (shim.Error ("This diamond already exists: " ++ name),
          (createDiamond lowerCase stub args).2) := by
  obtain ⟨a0, a1, a2, a3, w0, hargs, h0, -, -, -, -, hg, -, -, hres⟩ :=
    createDiamond_success lowerCase stub args (by rw [hfirst]; rfl)
  subst hargs
  simp only [List.head?_cons, Option.some.injEq] at hsame
  subst hsame
  rw [hres]
  rw [createDiamond_checked lowerCase _ a0 origin weightText owner w h0 horigin hweight
    howner hw]
  simp [ChaincodeStub.GetState, write_getError, hg,
    write_state_same _ _ _ (jsonMarshal_ne_empty _)]

/-- The scenario of C2: "asdf" created twice on the empty store, the second time with
another origin, weight and owner. -/
theorem createDiamond_twice_witness :
    ((createDiamond id emptyStub ["asdf", "Blue", "35", "Bob"]).1 = shim.Success none
      ∧ ["asdf", "Blue", "35", "Bob"].head? = some "asdf"
      ∧ "Red" ≠ "" ∧ "7" ≠ "" ∧ "Eve" ≠ "" ∧ Atoi "7" = some 7)
    ∧ createDiamond id (createDiamond id emptyStub ["asdf", "Blue", "35", "Bob"]).2
        ["asdf", "Red", "7", "Eve"]
      = (shim.Error "This diamond already exists: asdf",
          (createDiamond id emptyStub ["asdf", "Blue", "35", "Bob"]).2) :=
  ⟨⟨by decide, rfl, by decide, by decide, by decide, by decide⟩,
    createDiamond_twice id emptyStub ["asdf", "Blue", "35", "Bob"] "asdf" "Red" "7" "Eve" 7
      (by decide) rfl (by decide) (by decide) (by decide) (by decide)⟩

/-- C3: when the store holds under `name` bytes that decode to the record `r`, a
successful `transferDiamond` of `name` to `newOwner` followed by `queryDiamond` of
`name` returns bytes that decode to `r` with the lower-cased new owner as its owner:
kind, name, origin and weight are those of `r`. -/
theorem transferDiamond_then_queryDiamond (lowerCase : Char → Char) (stub : ChaincodeStub)
    (name newOwner : String) (b : String) (r : diamond)
    (hstored : stub.state name = some b) (hr : jsonUnmarshal b diamond.zero = .ok r)
    (hok : (transferDiamond lowerCase stub [name, newOwner]).1 = shim.Success none) :
    ∃ bytes r1,
      (queryDiamond (transferDiamond lowerCase stub [name, newOwner]).2 [name]).1
        = shim.Success (some bytes)
      ∧ jsonUnmarshal bytes diamond.zero = .ok r1
      ∧ r1.ObjectType = r.ObjectType ∧ r1.Name = r.Name ∧ r1.Origin = r.Origin
      ∧ r1.Carats = r.Carats ∧ r1.Owner = ToLower lowerCase newOwner := by
  obtain ⟨a0, a1, rest, b1, d, hargs, hg, hs, hd, -, hres⟩ :=
    transferDiamond_success lowerCase stub [name, newOwner] (by rw [hok]; rfl)
  simp only [List.cons.injEq] at hargs
  obtain ⟨rfl, rfl, -⟩ := hargs
  rw [hstored] at hs
  simp only [Option.some.injEq] at hs
  subst hs
  rw [hr] at hd
  simp only [Except.ok.injEq] at hd
  subst hd
  rw [hres]
  refine ⟨jsonMarshal { r with Owner := ToLower lowerCase newOwner },
    { r with Owner := ToLower lowerCase newOwner }, ?_, ?_, rfl, rfl, rfl, rfl, rfl⟩
  · simp [queryDiamond, ChaincodeStub.GetState, write_getError, hg,
      write_state_same _ _ _ (jsonMarshal_ne_empty _)]
  · have hrange : IntRange r.Carats := jsonUnmarshal_range b diamond.zero r IntRange_zero hr
    exact jsonUnmarshal_jsonMarshal _ _ hrange

/-- The scenario of C3: after the creation of ("asdf", "Blue", "35", "Bob"), the
transfer of "asdf" to "Alice" and the query of "asdf". -/
theorem transferDiamond_then_queryDiamond_witness :
    ((createDiamond id emptyStub ["asdf", "Blue", "35", "Bob"]).2.state "asdf"
        = some (jsonMarshal ⟨"diamond", "asdf", "blue", 35, "bob"⟩)
      ∧ jsonUnmarshal (jsonMarshal ⟨"diamond", "asdf", "blue", 35, "bob"⟩) diamond.zero
        = .ok ⟨"diamond", "asdf", "blue", 35, "bob"⟩
      ∧ (transferDiamond id (createDiamond id emptyStub ["asdf", "Blue", "35", "Bob"]).2
          ["asdf", "Alice"]).1 = shim.Success none)
    ∧ ∃ bytes r1,
      (queryDiamond (transferDiamond id
          (createDiamond id emptyStub ["asdf", "Blue", "35", "Bob"]).2
          ["asdf", "Alice"]).2 ["asdf"]).1 = shim.Success (some bytes)
      ∧ jsonUnmarshal bytes diamond.zero = .ok r1
      ∧ r1.ObjectType = "diamond" ∧ r1.Name = "asdf" ∧ r1.Origin = "blue"
      ∧ r1.Carats = 35 ∧ r1.Owner = "alice" :=
  ⟨⟨by decide, by rfl, by decide⟩,
    transferDiamond_then_queryDiamond id
      (createDiamond id emptyStub ["asdf", "Blue", "35", "Bob"]).2 "asdf" "Alice"
      (jsonMarshal ⟨"diamond", "asdf", "blue", 35, "bob"⟩) ⟨"diamond", "asdf", "blue", 35, "bob"⟩
      (by decide) (by rfl) (by decide)⟩

/-- C4: `transferDiamond` with at least two arguments, the first a name without a
value in the store, the read not failing, fails with "Diamond does not exist" and
leaves the store as it was. -/
theorem transferDiamond_absent (lowerCase : Char → Char) (stub : ChaincodeStub)
    (name newOwner : String) (rest : List String)
    (habsent : stub.state name = none) (hget : stub.getError name = none) :
    transferDiamond lowerCase stub (name :: newOwner :: rest)
      = (shim.Error "Diamond does not exist", stub) := by
  simp [transferDiamond, ChaincodeStub.GetState, hget, habsent]

/-- The scenario of C4: a transfer of a name that was never created. -/
theorem transferDiamond_absent_witness :
    (emptyStub.state "asdf" = none ∧ emptyStub.getError "asdf" = none)
    ∧ transferDiamond id emptyStub ["asdf", "Alice", "extra"]
      = (shim.Error "Diamond does not exist", emptyStub) :=
  ⟨⟨rfl, rfl⟩, transferDiamond_absent id emptyStub "asdf" "Alice" ["extra"] rfl rfl⟩

/-- An invocation that does not return success leaves the stub as it was. -/
theorem Invoke_failed (lowerCase : Char → Char) (stub : ChaincodeStub) (function : String)
    (args : List String) (h : (Invoke lowerCase stub function args).1.Status ≠ 200) :
    (Invoke lowerCase stub function args).2 = stub := by
  unfold Invoke at h ⊢
  split_ifs at h ⊢
  · exact createDiamond_failed lowerCase stub args h
  · exact transferDiamond_failed lowerCase stub args h
  · exact queryDiamond_stub stub args
  · rfl

/-- A key that holds a value still holds one after a write of an encoded record. -/
theorem write_present (stub : ChaincodeStub) (key : String) (d : diamond) (k : String)
    (h : (stub.state k).isSome = true) :
    ((stub.write key (jsonMarshal d)).state k).isSome = true := by
  by_cases hk : k = key
  · subst hk
    rw [write_state_same _ _ _ (jsonMarshal_ne_empty d)]
    rfl
  · rw [write_state_other _ _ _ _ hk]
    exact h

theorem createDiamond_present (lowerCase : Char → Char) (stub : ChaincodeStub)
    (args : List String) (k : String) (h : (stub.state k).isSome = true) :
    ((createDiamond lowerCase stub args).2.state k).isSome = true := by
  by_cases hs : (createDiamond lowerCase stub args).1.Status = 200
  · obtain ⟨a0, a1, a2, a3, w, -, -, -, -, -, -, -, -, -, hres⟩ :=
      createDiamond_success lowerCase stub args hs
    rw [hres]
    exact write_present stub _ _ k h
  · rw [createDiamond_failed lowerCase stub args hs]
    exact h

theorem transferDiamond_present (lowerCase : Char → Char) (stub : ChaincodeStub)
    (args : List String) (k : String) (h : (stub.state k).isSome = true) :
    ((transferDiamond lowerCase stub args).2.state k).isSome = true := by
  by_cases hs : (transferDiamond lowerCase stub args).1.Status = 200
  · obtain ⟨a0, a1, rest, b, d, -, -, -, -, -, hres⟩ :=
      transferDiamond_success lowerCase stub args hs
    rw [hres]
    exact write_present stub _ _ k h
  · rw [transferDiamond_failed lowerCase stub args hs]
    exact h

theorem Invoke_present (lowerCase : Char → Char) (stub : ChaincodeStub) (function : String)
    (args : List String) (k : String) (h : (stub.state k).isSome = true) :
    ((Invoke lowerCase stub function args).2.state k).isSome = true := by
  unfold Invoke
  split_ifs
  · exact createDiamond_present lowerCase stub args k h
  · exact transferDiamond_present lowerCase stub args k h
  · rw [queryDiamond_stub]
    exact h
  · exact h

theorem run_present (lowerCase : Char → Char) (calls : List (String × List String))
    (stub : ChaincodeStub) (k : String) (h : (stub.state k).isSome = true) :
    ((run lowerCase stub calls).state k).isSome = true := by
  induction calls generalizing stub with
  | nil => exact h
  | cons c cs ih =>
    obtain ⟨function, args⟩ := c
    exact ih _ (Invoke_present lowerCase stub function args k h)

/-- C5: no partial writes.  Each of `createDiamond`, `queryDiamond`, `transferDiamond`
and `Invoke` under any function name, on any store and any arguments, leaves the
store (a failed write included) as it was when it returns an error. -/
theorem error_leaves_store_unchanged (lowerCase : Char → Char) (stub : ChaincodeStub)
    (function : String) (args : List String) :
    ((createDiamond lowerCase stub args).1.Status ≠ 200 →
      (createDiamond lowerCase stub args).2 = stub)
    ∧ ((queryDiamond stub args).1.Status ≠ 200 → (queryDiamond stub args).2 = stub)
    ∧ ((transferDiamond lowerCase stub args).1.Status ≠ 200 →
      (transferDiamond lowerCase stub args).2 = stub)
    ∧ ((Invoke lowerCase stub function args).1.Status ≠ 200 →
      (Invoke lowerCase stub function args).2 = stub) :=
  ⟨createDiamond_failed lowerCase stub args, fun _ => queryDiamond_stub stub args,
    transferDiamond_failed lowerCase stub args, Invoke_failed lowerCase stub function args⟩

/-- A scenario of C5: on a store that fails every write, a creation with valid
arguments returns the error of the store and the store is as it was. -/
theorem error_leaves_store_unchanged_witness :
    (createDiamond id ⟨fun _ => none, fun _ => none, fun _ _ => some "write failed"⟩
        ["asdf", "Blue", "35", "Bob"]).1 = shim.Error "write failed"
    ∧ (createDiamond id ⟨fun _ => none, fun _ => none, fun _ _ => some "write failed"⟩
        ["asdf", "Blue", "35", "Bob"]).2
      = ⟨fun _ => none, fun _ => none, fun _ _ => some "write failed"⟩ :=
  ⟨by decide, (error_leaves_store_unchanged id
    ⟨fun _ => none, fun _ => none, fun _ _ => some "write failed"⟩ "createDiamond"
    ["asdf", "Blue", "35", "Bob"]).1 (by decide)⟩

/-- C6: `queryDiamond` never changes the store; on one argument `name`, the read not
failing, it returns success with exactly the bytes stored under `name` when there are
some, and the error that wraps "Diamond does not exist: " followed by the name when
there are none; on any other number of arguments it returns the error about the
number of arguments. -/
theorem queryDiamond_reads (stub : ChaincodeStub) (name : String) (args : List String) :
    (queryDiamond stub args).2 = stub
    ∧ (stub.getError name = none → ∀ b, stub.state name = some b →
        queryDiamond stub [name] = (shim.Success (some b), stub))
    ∧ (stub.getError name = none → stub.state name = none →
        queryDiamond stub [name]
          = (shim.Error ("\x7b\"Error\":\"" ++ ("Diamond does not exist: " ++ name) ++ "\"\x7d"),
              stub))
    ∧ (args.length ≠ 1 →
        queryDiamond stub args
          = (shim.Error "Incorrect number of arguments. Expecting name of the diamond to query",
              stub)) := by
  refine ⟨queryDiamond_stub stub args, ?_, ?_, ?_⟩
  · intro hg b hb
    simp [queryDiamond, ChaincodeStub.GetState, hg, hb]
  · intro hg hb
    have hlit : "\x7b\"Error\":\"Diamond does not exist: "
        = "\x7b\"Error\":\"" ++ "Diamond does not exist: " := by decide
    simp only [queryDiamond, ChaincodeStub.GetState, hg, hb, hlit, String.append_assoc]
  · intro hlen
    unfold queryDiamond
    split
    · simp at hlen
    · rfl

/-- Scenarios of C6.  On a store that holds under "raw" bytes that are no record at
all, and on the store left by the creation of ("asdf", "Blue", "35", "Bob"), the query
returns success with exactly the stored bytes and the store as it was; the query of a
name that was never created returns the NotFound error, and a query with two arguments
the error on the number of arguments. -/
theorem queryDiamond_reads_witness :
    ((⟨fun k => if k = "raw" then some "not a record <&> \t" else none, fun _ => none,
        fun _ _ => none⟩ : ChaincodeStub).getError "raw" = none
      ∧ (⟨fun k => if k = "raw" then some "not a record <&> \t" else none, fun _ => none,
        fun _ _ => none⟩ : ChaincodeStub).state "raw" = some "not a record <&> \t"
      ∧ (createDiamond id emptyStub ["asdf", "Blue", "35", "Bob"]).2.state "asdf"
        = some "\x7b\"docType\":\"diamond\",\"name\":\"asdf\",\"origin\":\"blue\",\"carats\":35,\"owner\":\"bob\"\x7d")
    ∧ queryDiamond ⟨fun k => if k = "raw" then some "not a record <&> \t" else none,
        fun _ => none, fun _ _ => none⟩ ["raw"]
      = (shim.Success (some "not a record <&> \t"),
          ⟨fun k => if k = "raw" then some "not a record <&> \t" else none, fun _ => none,
            fun _ _ => none⟩)
    ∧ queryDiamond (createDiamond id emptyStub ["asdf", "Blue", "35", "Bob"]).2 ["asdf"]
      = (shim.Success (some
          "\x7b\"docType\":\"diamond\",\"name\":\"asdf\",\"origin\":\"blue\",\"carats\":35,\"owner\":\"bob\"\x7d"),
          (createDiamond id emptyStub ["asdf", "Blue", "35", "Bob"]).2)
    ∧ queryDiamond emptyStub ["asdf"]
      = (shim.Error "\x7b\"Error\":\"Diamond does not exist: asdf\"\x7d", emptyStub)
    ∧ queryDiamond emptyStub ["asdf", "x"]
      = (shim.Error "Incorrect number of arguments. Expecting name of the diamond to query",
          emptyStub) :=
  ⟨⟨rfl, by decide, by decide⟩,
    (queryDiamond_reads ⟨fun k => if k = "raw" then some "not a record <&> \t" else none,
      fun _ => none, fun _ _ => none⟩ "raw" []).2.1 rfl "not a record <&> \t" (by decide),
    (queryDiamond_reads (createDiamond id emptyStub ["asdf", "Blue", "35", "Bob"]).2 "asdf"
      []).2.1 rfl _ (by decide),
    (queryDiamond_reads emptyStub "asdf" []).2.2.1 rfl rfl,
    (queryDiamond_reads emptyStub "asdf" ["asdf", "x"]).2.2.2 (by decide)⟩

/-- The store after a write of an encoded record, as a function of the key. -/
theorem write_jsonMarshal (stub : ChaincodeStub) (key : String) (d : diamond) :
    stub.write key (jsonMarshal d)
      = { stub with state := fun k => if k = key then some (jsonMarshal d) else stub.state k } := by
  simp [ChaincodeStub.write, jsonMarshal_ne_empty d]

theorem ToLower_idem (lowerCase : Char → Char)
    (hidem : ∀ c, unicodeToLower lowerCase (unicodeToLower lowerCase c)
      = unicodeToLower lowerCase c) (y : String) :
    ToLower lowerCase (ToLower lowerCase y) = ToLower lowerCase y := by
  have hcomp : unicodeToLower lowerCase ∘ unicodeToLower lowerCase
      = unicodeToLower lowerCase := funext hidem
  simp [ToLower, hcomp]

theorem wellFormed_write (lowerCase : Char → Char) (stub : ChaincodeStub) (key : String)
    (d : diamond) (hwf : WellFormed lowerCase stub) (h1 : d.ObjectType = "diamond")
    (h2 : d.Name = key) (h3 : IntRange d.Carats) (h4 : ∃ x, d.Origin = ToLower lowerCase x)
    (h5 : ∃ y, d.Owner = ToLower lowerCase y) :
    WellFormed lowerCase (stub.write key (jsonMarshal d)) := by
  intro k b hb
  by_cases hk : k = key
  · subst hk
    rw [write_state_same _ _ _ (jsonMarshal_ne_empty d)] at hb
    simp only [Option.some.injEq] at hb
    exact ⟨d, hb.symm, h1, h2, h3, h4, h5⟩
  · rw [write_state_other _ _ _ _ hk] at hb
    exact hwf k b hb

theorem createDiamond_wellFormed (lowerCase : Char → Char) (stub : ChaincodeStub)
    (args : List String) (hwf : WellFormed lowerCase stub) :
    WellFormed lowerCase (createDiamond lowerCase stub args).2 := by
  by_cases hs : (createDiamond lowerCase stub args).1.Status = 200
  · obtain ⟨a0, a1, a2, a3, w, -, -, -, -, -, hw, -, -, -, hres⟩ :=
      createDiamond_success lowerCase stub args hs
    rw [hres]
    exact wellFormed_write lowerCase stub a0 _ hwf rfl rfl (Atoi_range _ _ hw) ⟨a1, rfl⟩
      ⟨a3, rfl⟩
  · rw [createDiamond_failed lowerCase stub args hs]
    exact hwf

theorem transferDiamond_wellFormed (lowerCase : Char → Char) (stub : ChaincodeStub)
    (args : List String) (hwf : WellFormed lowerCase stub) :
    WellFormed lowerCase (transferDiamond lowerCase stub args).2 := by
  by_cases hs : (transferDiamond lowerCase stub args).1.Status = 200
  · obtain ⟨a0, a1, rest, b, d, -, -, hb, hd, -, hres⟩ :=
      transferDiamond_success lowerCase stub args hs
    obtain ⟨d0, hb0, h1, h2, h3, h4, -⟩ := hwf a0 b hb
    rw [hb0, jsonUnmarshal_jsonMarshal d0 _ h3] at hd
    simp only [Except.ok.injEq] at hd
    subst hd
    rw [hres]
    exact wellFormed_write lowerCase stub a0 _ hwf h1 h2 h3 h4 ⟨a1, rfl⟩
  · rw [transferDiamond_failed lowerCase stub args hs]
    exact hwf

theorem Invoke_wellFormed (lowerCase : Char → Char) (stub : ChaincodeStub)
    (function : String) (args : List String) (hwf : WellFormed lowerCase stub) :
    WellFormed lowerCase (Invoke lowerCase stub function args).2 := by
  unfold Invoke
  split_ifs
  · exact createDiamond_wellFormed lowerCase stub args hwf
  · exact transferDiamond_wellFormed lowerCase stub args hwf
  · rw [queryDiamond_stub]
    exact hwf
  · exact hwf

/-- Every reachable world state satisfies the invariant. -/
theorem Reachable.wellFormed (lowerCase : Char → Char) (stub : ChaincodeStub)
    (h : Reachable lowerCase stub) : WellFormed lowerCase stub := by
  induction h with
  | empty ge pe =>
    intro k b hb
    simp at hb
  | invoke stub function args _ ih => exact Invoke_wellFormed lowerCase stub function args ih
  | faults stub ge pe _ ih => exact ih

/-- A second transfer of the same name to the same owner leaves the store as the first
transfer left it. -/
theorem transferDiamond_twice (lowerCase : Char → Char) (stub : ChaincodeStub)
    (name x : String) :
    (transferDiamond lowerCase (transferDiamond lowerCase stub [name, x]).2 [name, x]).2
      = (transferDiamond lowerCase stub [name, x]).2 := by
  by_cases hs : (transferDiamond lowerCase stub [name, x]).1.Status = 200
  · obtain ⟨a0, a1, rest, b, d, hargs, hg, hb, hd, hp, hres⟩ :=
      transferDiamond_success lowerCase stub [name, x] hs
    simp only [List.cons.injEq] at hargs
    obtain ⟨rfl, rfl, rfl⟩ := hargs
    have hrange : IntRange d.Carats := jsonUnmarshal_range b diamond.zero d IntRange_zero hd
    rw [hres]
    have hstate := write_state_same stub name
      (jsonMarshal { d with Owner := ToLower lowerCase x }) (jsonMarshal_ne_empty _)
    rw [transferDiamond_ok lowerCase _ name x [] _ { d with Owner := ToLower lowerCase x }
      (by rw [write_getError]; exact hg) hstate
      (jsonUnmarshal_jsonMarshal _ _ hrange) (by rw [write_putError]; exact hp)]
    exact write_same_value _ _ _ hstate (jsonMarshal_ne_empty _)
  · have hf := transferDiamond_failed lowerCase stub [name, x] hs
    rw [hf, hf]

theorem toNat_ofNat_small (n : Nat) (h : n < 128) : (Char.ofNat n).toNat = n := by
  have hv : n.isValidChar := Or.inl (by omega)
  simp [Char.ofNat, hv, Char.toNat, Char.ofNatAux, UInt32.toNat]

theorem unicodeToLower_upper (lowerCase : Char → Char) (c : Char)
    (h : 65 ≤ c.toNat ∧ c.toNat ≤ 90) :
    unicodeToLower lowerCase c = Char.ofNat (c.toNat + 32) := by
  have h1 : c.toNat ≤ 127 := by omega
  have h2 : 'A'.toNat ≤ c.toNat ∧ c.toNat ≤ 'Z'.toNat := h
  simp only [unicodeToLower, h1, h2, and_self, if_true]
  rfl

theorem unicodeToLower_other (lowerCase : Char → Char) (c : Char) (h1 : c.toNat ≤ 127)
    (h : ¬ (65 ≤ c.toNat ∧ c.toNat ≤ 90)) : unicodeToLower lowerCase c = c := by
  have h2 : ¬ ('A'.toNat ≤ c.toNat ∧ c.toNat ≤ 'Z'.toNat) := h
  simp only [unicodeToLower, h1, h2, if_true, if_false]

/-- With a table that leaves every rune as it is, `unicode.ToLower` is idempotent. -/
theorem unicodeToLower_id_idem (c : Char) :
    unicodeToLower id (unicodeToLower id c) = unicodeToLower id c := by
  by_cases h1 : c.toNat ≤ 127
  · by_cases h2 : 65 ≤ c.toNat ∧ c.toNat ≤ 90
    · rw [unicodeToLower_upper id c h2]
      have h3 := toNat_ofNat_small (c.toNat + 32) (by omega)
      exact unicodeToLower_other id _ (by omega) (by omega)
    · rw [unicodeToLower_other id c h1 h2, unicodeToLower_other id c h1 h2]
  · have h3 : unicodeToLower id c = c := by
      simp only [unicodeToLower, h1, if_false, id]
    rw [h3, h3]

/-- C7: idempotence of transfer, with `unicode.ToLower` idempotent on runes.  In a
reachable store where the bytes under `name` decode to a record with owner `o`,
`transferDiamond` of `name` to `o` leaves the whole store, so the bytes under `name`,
as it was, and it succeeds when the read and the write of `name` do not fail; and a
second transfer of `name` to any `x` leaves the store as the first such transfer left
it. -/
theorem transferDiamond_idempotent (lowerCase : Char → Char)
    (hidem : ∀ c, unicodeToLower lowerCase (unicodeToLower lowerCase c)
      = unicodeToLower lowerCase c)
    (stub : ChaincodeStub) (hreach : Reachable lowerCase stub) (name o b : String)
    (r : diamond) (hb : stub.state name = some b)
    (hr : jsonUnmarshal b diamond.zero = .ok r) (ho : r.Owner = o) :
    (transferDiamond lowerCase stub [name, o]).2 = stub
    ∧ (transferDiamond lowerCase stub [name, o]).2.state name = some b
    ∧ (stub.getError name = none → stub.putError name b = none →
        (transferDiamond lowerCase stub [name, o]).1 = shim.Success none)
    ∧ ∀ x, (transferDiamond lowerCase (transferDiamond lowerCase stub [name, x]).2
        [name, x]).2 = (transferDiamond lowerCase stub [name, x]).2 := by
  obtain ⟨d, hbd, -, -, h3, -, y, h5⟩ := Reachable.wellFormed lowerCase stub hreach name b hb
  have hdr : d = r := by
    rw [hbd, jsonUnmarshal_jsonMarshal d _ h3] at hr
    simpa using hr
  subst hdr
  have hown : ToLower lowerCase o = d.Owner := by
    rw [← ho, h5, ToLower_idem lowerCase hidem]
  have hsame : ({ d with Owner := ToLower lowerCase o } : diamond) = d := by
    rw [hown]
  have hne : len b ≠ 0 := by
    rw [hbd]
    exact jsonMarshal_ne_empty d
  have hstub : (transferDiamond lowerCase stub [name, o]).2 = stub := by
    by_cases hs : (transferDiamond lowerCase stub [name, o]).1.Status = 200
    · obtain ⟨a0, a1, rest, b1, d1, hargs, -, hb1, hd1, -, hres⟩ :=
        transferDiamond_success lowerCase stub [name, o] hs
      simp only [List.cons.injEq] at hargs
      obtain ⟨rfl, rfl, rfl⟩ := hargs
      rw [hb] at hb1
      simp only [Option.some.injEq] at hb1
      subst hb1
      rw [hr] at hd1
      simp only [Except.ok.injEq] at hd1
      subst hd1
      rw [hres, hsame, ← hbd]
      exact write_same_value stub _ b hb hne
    · exact transferDiamond_failed lowerCase stub [name, o] hs
  refine ⟨hstub, by rw [hstub]; exact hb, ?_, fun x => transferDiamond_twice lowerCase stub name x⟩
  intro hget hput
  rw [transferDiamond_ok lowerCase stub name o [] b d hget hb hr
    (by rw [hsame, ← hbd]; exact hput)]

/-- The scenario of C7: after the creation of ("asdf", "Blue", "35", "Bob"), the
transfer of "asdf" to its owner "bob". -/
theorem transferDiamond_idempotent_witness :
    ((∀ c, unicodeToLower id (unicodeToLower id c) = unicodeToLower id c)
      ∧ Reachable id (Invoke id emptyStub "createDiamond" ["asdf", "Blue", "35", "Bob"]).2
      ∧ (Invoke id emptyStub "createDiamond" ["asdf", "Blue", "35", "Bob"]).2.state "asdf"
        = some "\x7b\"docType\":\"diamond\",\"name\":\"asdf\",\"origin\":\"blue\",\"carats\":35,\"owner\":\"bob\"\x7d"
      ∧ jsonUnmarshal
          "\x7b\"docType\":\"diamond\",\"name\":\"asdf\",\"origin\":\"blue\",\"carats\":35,\"owner\":\"bob\"\x7d"
          diamond.zero = .ok ⟨"diamond", "asdf", "blue", 35, "bob"⟩)
    ∧ (transferDiamond id
        (Invoke id emptyStub "createDiamond" ["asdf", "Blue", "35", "Bob"]).2
        ["asdf", "bob"]).2
      = (Invoke id emptyStub "createDiamond" ["asdf", "Blue", "35", "Bob"]).2
    ∧ (transferDiamond id
        (Invoke id emptyStub "createDiamond" ["asdf", "Blue", "35", "Bob"]).2
        ["asdf", "bob"]).1 = shim.Success none :=
  ⟨⟨unicodeToLower_id_idem, Reachable.invoke _ _ _ (Reachable.empty _ _), by decide, by rfl⟩,
    (transferDiamond_idempotent id unicodeToLower_id_idem
      (Invoke id emptyStub "createDiamond" ["asdf", "Blue", "35", "Bob"]).2
      (Reachable.invoke _ _ _ (Reachable.empty _ _)) "asdf" "bob"
      "\x7b\"docType\":\"diamond\",\"name\":\"asdf\",\"origin\":\"blue\",\"carats\":35,\"owner\":\"bob\"\x7d"
      ⟨"diamond", "asdf", "blue", 35, "bob"⟩ (by decide) (by rfl) rfl).1,
    by decide⟩

/-- C8: a successful `transferDiamond` of `name` keeps the set of keys of the store and
the value under every key other than `name`; the key `name` held a value before and
holds one afterwards: one existing key is rewritten, none is created, none removed. -/
theorem transferDiamond_frame (lowerCase : Char → Char) (stub : ChaincodeStub)
    (name newOwner : String) (rest : List String)
    (hok : (transferDiamond lowerCase stub (name :: newOwner :: rest)).1
      = shim.Success none) :
    (∀ k, ((transferDiamond lowerCase stub (name :: newOwner :: rest)).2.state k).isSome
        = (stub.state k).isSome)
    ∧ (∀ k, k ≠ name →
        (transferDiamond lowerCase stub (name :: newOwner :: rest)).2.state k = stub.state k)
    ∧ (stub.state name).isSome = true := by
  obtain ⟨a0, a1, rest1, b, d, hargs, -, hb, -, -, hres⟩ :=
    transferDiamond_success lowerCase stub (name :: newOwner :: rest) (by rw [hok]; rfl)
  simp only [List.cons.injEq] at hargs
  obtain ⟨rfl, rfl, rfl⟩ := hargs
  rw [hres]
  refine ⟨?_, ?_, by rw [hb]; rfl⟩
  · intro k
    by_cases hk : k = name
    · subst hk
      rw [write_state_same _ _ _ (jsonMarshal_ne_empty _), hb]
      rfl
    · rw [write_state_other _ _ _ _ hk]
  · intro k hk
    exact write_state_other _ _ _ _ hk

/-- The scenario of C8: a store with the two diamonds "asdf" and "qwer"; the transfer of
"asdf" leaves "qwer" and the absent key "zxcv" as they were. -/
theorem transferDiamond_frame_witness :
    (transferDiamond id (run id emptyStub [("createDiamond", ["asdf", "Blue", "35", "Bob"]),
        ("createDiamond", ["qwer", "Red", "7", "Eve"])]) ["asdf", "Alice", "extra"]).1
      = shim.Success none
    ∧ (transferDiamond id (run id emptyStub [("createDiamond", ["asdf", "Blue", "35", "Bob"]),
        ("createDiamond", ["qwer", "Red", "7", "Eve"])]) ["asdf", "Alice", "extra"]).2.state
        "qwer"
      = some "\x7b\"docType\":\"diamond\",\"name\":\"qwer\",\"origin\":\"red\",\"carats\":7,\"owner\":\"eve\"\x7d"
    ∧ (transferDiamond id (run id emptyStub [("createDiamond", ["asdf", "Blue", "35", "Bob"]),
        ("createDiamond", ["qwer", "Red", "7", "Eve"])]) ["asdf", "Alice", "extra"]).2.state
        "zxcv" = none :=
  ⟨by decide,
    ((transferDiamond_frame id (run id emptyStub
      [("createDiamond", ["asdf", "Blue", "35", "Bob"]),
        ("createDiamond", ["qwer", "Red", "7", "Eve"])]) "asdf" "Alice" ["extra"]
      (by decide)).2.1 "qwer" (by decide)).trans (by decide),
    ((transferDiamond_frame id (run id emptyStub
      [("createDiamond", ["asdf", "Blue", "35", "Bob"]),
        ("createDiamond", ["qwer", "Red", "7", "Eve"])]) "asdf" "Alice" ["extra"]
      (by decide)).2.1 "zxcv" (by decide)).trans (by decide)⟩

/-- C9: on a store whose reads and writes do not fail, `createDiamond` returns success
exactly when there are four arguments, each of them non-empty, the third read by
`Atoi` as an integer, and no value stored under the first; the store afterwards is then
the store before with the encoded record under the first argument, a key that held no
value, and every other key as it was. -/
theorem createDiamond_succeeds_iff (lowerCase : Char → Char) (stub : ChaincodeStub)
    (hget : ∀ k, stub.getError k = none) (hput : ∀ k v, stub.putError k v = none)
    (args : List String) :
    ((createDiamond lowerCase stub args).1 = shim.Success none ↔
      ∃ a0 a1 a2 a3 w, args = [a0, a1, a2, a3] ∧ a0 ≠ "" ∧ a1 ≠ "" ∧ a2 ≠ "" ∧ a3 ≠ ""
        ∧ Atoi a2 = some w ∧ stub.state a0 = none)
    ∧ ((createDiamond lowerCase stub args).1 = shim.Success none →
      ∃ a0 a1 a2 a3 w, args = [a0, a1, a2, a3] ∧ Atoi a2 = some w ∧ stub.state a0 = none
        ∧ (createDiamond lowerCase stub args).2 =
          { stub with state := fun k => if k = a0 then some (jsonMarshal
              ⟨"diamond", a0, ToLower lowerCase a1, w, ToLower lowerCase a3⟩)
            else stub.state k }) := by
  constructor
  · constructor
    · intro h
      obtain ⟨a0, a1, a2, a3, w, hargs, h0, h1, h2, h3, hw, -, hs, -, -⟩ :=
        createDiamond_success lowerCase stub args (by rw [h]; rfl)
      exact ⟨a0, a1, a2, a3, w, hargs, h0, h1, h2, h3, hw, hs⟩
    · rintro ⟨a0, a1, a2, a3, w, rfl, h0, h1, h2, h3, hw, hs⟩
      rw [createDiamond_ok lowerCase stub a0 a1 a2 a3 w h0 h1 h2 h3 hw hs (hget _) (hput _ _)]
  · intro h
    obtain ⟨a0, a1, a2, a3, w, hargs, -, -, -, -, hw, -, hs, -, hres⟩ :=
      createDiamond_success lowerCase stub args (by rw [h]; rfl)
    exact ⟨a0, a1, a2, a3, w, hargs, hw, hs, by rw [hres, write_jsonMarshal]⟩

/-- Scenarios of C9 on the empty store: valid arguments succeed and store the record;
three arguments, an empty owner and a weight that is not a number fail. -/
theorem createDiamond_succeeds_iff_witness :
    ((∀ k, emptyStub.getError k = none) ∧ (∀ k v, emptyStub.putError k v = none))
    ∧ (createDiamond id emptyStub ["asdf", "Blue", "35", "Bob"]).1 = shim.Success none
    ∧ (createDiamond id emptyStub ["asdf", "Blue", "35", "Bob"]).2.state "asdf"
      = some "\x7b\"docType\":\"diamond\",\"name\":\"asdf\",\"origin\":\"blue\",\"carats\":35,\"owner\":\"bob\"\x7d"
    ∧ (createDiamond id emptyStub ["asdf", "Blue", "35"]).1 ≠ shim.Success none
    ∧ (createDiamond id emptyStub ["asdf", "Blue", "35", ""]).1 ≠ shim.Success none
    ∧ (createDiamond id emptyStub ["asdf", "Blue", "3x", "Bob"]).1 ≠ shim.Success none :=
  ⟨⟨fun _ => rfl, fun _ _ => rfl⟩,
    (createDiamond_succeeds_iff id emptyStub (fun _ => rfl) (fun _ _ => rfl)
      ["asdf", "Blue", "35", "Bob"]).1.2
      ⟨"asdf", "Blue", "35", "Bob", 35, rfl, by decide, by decide, by decide, by decide,
        by decide, rfl⟩,
    by decide, by decide, by decide, by decide⟩

/-- C10: there is no transition back to absent.  A key that holds a value before
`createDiamond`, `queryDiamond`, `transferDiamond` or `Invoke` under any function
name, with any arguments, holds a value after it, and so after any sequence of
invocations. -/
theorem present_stays_present (lowerCase : Char → Char) (stub : ChaincodeStub)
    (function : String) (args : List String) (calls : List (String × List String))
    (k : String) (hk : (stub.state k).isSome = true) :
    ((createDiamond lowerCase stub args).2.state k).isSome = true
    ∧ ((queryDiamond stub args).2.state k).isSome = true
    ∧ ((transferDiamond lowerCase stub args).2.state k).isSome = true
    ∧ ((Invoke lowerCase stub function args).2.state k).isSome = true
    ∧ ((run lowerCase stub calls).state k).isSome = true :=
  ⟨createDiamond_present lowerCase stub args k hk,
    by rw [queryDiamond_stub]; exact hk,
    transferDiamond_present lowerCase stub args k hk,
    Invoke_present lowerCase stub function args k hk,
    run_present lowerCase calls stub k hk⟩

/-- A scenario of C10: "asdf", once created, holds a value after a second creation
under its name, a transfer, a query, an unknown function and a transfer to the empty
owner. -/
theorem present_stays_present_witness :
    ((createDiamond id emptyStub ["asdf", "Blue", "35", "Bob"]).2.state "asdf").isSome = true
    ∧ ((run id (createDiamond id emptyStub ["asdf", "Blue", "35", "Bob"]).2
        [("createDiamond", ["asdf", "Red", "7", "Eve"]), ("transferDiamond", ["asdf", "Alice"]),
          ("queryDiamond", ["asdf"]), ("deleteDiamond", ["asdf"]),
          ("transferDiamond", ["asdf", ""])]).state "asdf").isSome = true :=
  ⟨by decide,
    (present_stays_present id (createDiamond id emptyStub ["asdf", "Blue", "35", "Bob"]).2
      "queryDiamond" ["asdf"]
      [("createDiamond", ["asdf", "Red", "7", "Eve"]), ("transferDiamond", ["asdf", "Alice"]),
        ("queryDiamond", ["asdf"]), ("deleteDiamond", ["asdf"]),
        ("transferDiamond", ["asdf", ""])] "asdf" (by decide)).2.2.2.2⟩

/-! ## Lemmas on `Atoi` -/

theorem digitVal_of_isDigit (c : Char) (h : isDigit c = true) :
    digitVal c = some (c.toNat - '0'.toNat) := by
  simp only [isDigit, decide_eq_true_eq] at h
  simp only [digitVal, h, and_self, if_true]

theorem digitVal_of_not_isDigit (c : Char) (h : isDigit c = false) : digitVal c = none := by
  simp only [isDigit, decide_eq_false_iff_not] at h
  simp only [digitVal, h, if_false]

/-- On a sequence of digits the digit loop computes the value the digits denote. -/
theorem digitsValue_of_all (s : List Char) (a : Nat) (h : s.all isDigit = true) :
    digitsValue a s = some (s.foldl (fun n c => n * 10 + (c.toNat - '0'.toNat)) a) := by
  induction s generalizing a with
  | nil => rfl
  | cons c cs ih =>
    simp only [List.all_cons, Bool.and_eq_true] at h
    simp only [digitsValue, digitVal_of_isDigit c h.1, List.foldl_cons]
    exact ih _ h.2

/-- The digit loop fails on a sequence with a character that is not a digit. -/
theorem digitsValue_of_not_all (s : List Char) (a : Nat) (h : s.all isDigit = false) :
    digitsValue a s = none := by
  induction s generalizing a with
  | nil => simp at h
  | cons c cs ih =>
    cases hc : isDigit c with
    | false => simp only [digitsValue, digitVal_of_not_isDigit c hc]
    | true =>
      simp only [List.all_cons, hc, Bool.true_and] at h
      simp only [digitsValue, digitVal_of_isDigit c hc]
      exact ih _ h

theorem parseDigits_of_not_all (s : List Char) (h : s.all isDigit = false) :
    parseDigits s = none := by
  cases s with
  | nil => rfl
  | cons c cs => exact digitsValue_of_not_all _ 0 h

/-- A text that is not a numeric string is not read by `Atoi`. -/
theorem Atoi_of_not_numeric (s : String) (h : isNumericString s = false) : Atoi s = none := by
  unfold isNumericString at h
  unfold Atoi ParseInt
  cases hs : s.data with
  | nil => rfl
  | cons c r =>
    rw [hs] at h
    simp only at h ⊢
    by_cases hc : c = '+' ∨ c = '-'
    · simp only [hc, if_true] at h ⊢
      cases r with
      | nil => rfl
      | cons c1 r1 =>
        simp only [List.isEmpty_cons, Bool.not_false, Bool.true_and] at h
        rw [parseDigits_of_not_all _ h]
    · simp only [hc, if_false] at h ⊢
      rw [parseDigits_of_not_all _ h]

/-- What `Atoi` reads from a non-empty sequence of digits: the value they denote when
it is below `2^63`, an error otherwise. -/
theorem Atoi_of_digits (s : String) (hne : s ≠ "") (h : s.data.all isDigit = true) :
    Atoi s = if decimalValue s.data < 2 ^ 63 then some (decimalValue s.data : Int) else none := by
  unfold Atoi ParseInt
  cases hs : s.data with
  | nil =>
    exfalso
    apply hne
    rcases s with ⟨l⟩
    simp only at hs
    subst hs
    rfl
  | cons c r =>
    rw [hs] at h
    have hc : isDigit c = true := by
      simp only [List.all_cons, Bool.and_eq_true] at h
      exact h.1
    have hp : c ≠ '+' := by rintro rfl; revert hc; decide
    have hm : c ≠ '-' := by rintro rfl; revert hc; decide
    have hv : digitsValue 0 (c :: r) = some (decimalValue (c :: r)) :=
      digitsValue_of_all (c :: r) 0 h
    generalize decimalValue (c :: r) = v at hv ⊢
    simp only [parseDigits, hp, hm, or_self, if_false, hv]
    simp only [hm, decide_False, Bool.not_false, Bool.false_eq_true, false_and, if_false,
      true_and]
    norm_num
    split_ifs <;> first | rfl | omega

/-- A text without a leading minus sign is read by `Atoi` as a number that is not
negative. -/
theorem Atoi_nonneg (s : String) (w : Int) (h : Atoi s = some w)
    (hsign : s.data.head? ≠ some '-') : 0 ≤ w := by
  unfold Atoi ParseInt at h
  cases hs : s.data with
  | nil => simp [hs] at h
  | cons c r =>
    rw [hs] at h hsign
    have hm : c ≠ '-' := by
      intro hc
      apply hsign
      simp [hc]
    simp only [hm, decide_False, or_false] at h
    split at h
    · simp at h
    · split at h
      · simp at h
      · split at h
        · simp at h
        · simp only [Bool.false_eq_true, if_false, Option.some.injEq] at h
          subst h
          exact Int.ofNat_nonneg _

/-! ## Name and origin of the stored records -/

theorem ToLower_ne_empty (lowerCase : Char → Char) (s : String) (h : s ≠ "") :
    ToLower lowerCase s ≠ "" := by
  rcases s with ⟨l⟩
  cases l with
  | nil => exact absurd rfl h
  | cons c cs =>
    intro he
    have := congrArg String.data he
    simp [ToLower] at this

theorem nameOriginNonEmpty_write (stub : ChaincodeStub) (key : String) (d : diamond)
    (h : NameOriginNonEmpty stub) (h1 : d.Name ≠ "") (h2 : d.Origin ≠ "")
    (h3 : IntRange d.Carats) : NameOriginNonEmpty (stub.write key (jsonMarshal d)) := by
  intro k b hb
  by_cases hk : k = key
  · subst hk
    rw [write_state_same _ _ _ (jsonMarshal_ne_empty d)] at hb
    simp only [Option.some.injEq] at hb
    subst hb
    exact ⟨d, jsonUnmarshal_jsonMarshal d _ h3, h1, h2⟩
  · rw [write_state_other _ _ _ _ hk] at hb
    exact h k b hb

theorem createDiamond_nameOriginNonEmpty (lowerCase : Char → Char) (stub : ChaincodeStub)
    (args : List String) (h : NameOriginNonEmpty stub) :
    NameOriginNonEmpty (createDiamond lowerCase stub args).2 := by
  by_cases hs : (createDiamond lowerCase stub args).1.Status = 200
  · obtain ⟨a0, a1, a2, a3, w, -, h0, h1, -, -, hw, -, -, -, hres⟩ :=
      createDiamond_success lowerCase stub args hs
    rw [hres]
    exact nameOriginNonEmpty_write stub a0 _ h h0 (ToLower_ne_empty lowerCase a1 h1)
      (Atoi_range _ _ hw)
  · rw [createDiamond_failed lowerCase stub args hs]
    exact h

theorem transferDiamond_nameOriginNonEmpty (lowerCase : Char → Char) (stub : ChaincodeStub)
    (args : List String) (h : NameOriginNonEmpty stub) :
    NameOriginNonEmpty (transferDiamond lowerCase stub args).2 := by
  by_cases hs : (transferDiamond lowerCase stub args).1.Status = 200
  · obtain ⟨a0, a1, rest, b, d, -, -, hb, hd, -, hres⟩ :=
      transferDiamond_success lowerCase stub args hs
    obtain ⟨d0, hd0, h1, h2⟩ := h a0 b hb
    rw [hd] at hd0
    simp only [Except.ok.injEq] at hd0
    subst hd0
    rw [hres]
    exact nameOriginNonEmpty_write stub a0 _ h h1 h2
      (jsonUnmarshal_range b diamond.zero d IntRange_zero hd)
  · rw [transferDiamond_failed lowerCase stub args hs]
    exact h

/-- In every reachable world state the records have a non-empty name and a non-empty
origin. -/
theorem Reachable.nameOriginNonEmpty (lowerCase : Char → Char) (stub : ChaincodeStub)
    (h : Reachable lowerCase stub) : NameOriginNonEmpty stub := by
  induction h with
  | empty ge pe =>
    intro k b hb
    simp at hb
  | invoke stub function args _ ih =>
    unfold Invoke
    split_ifs
    · exact createDiamond_nameOriginNonEmpty lowerCase stub args ih
    · exact transferDiamond_nameOriginNonEmpty lowerCase stub args ih
    · rw [queryDiamond_stub]
      exact ih
    · exact ih
  | faults stub ge pe _ ih => exact ih

/-! ## The claims on the stored records -/

/-- C11, as amended: the weight of every stored record is a value of the 64-bit type
`int`, negative values included.  When `createDiamond` succeeds, the record it writes
has as its weight the integer `Atoi` reads from the third argument, within
`[-2^63, 2^63 - 1]`, and that weight is not negative when the argument has no leading
minus sign; and the value under every key of every reachable store decodes to a record
with a weight in that range. -/
theorem stored_carats_int (lowerCase : Char → Char) :
    (∀ (stub : ChaincodeStub) (args : List String),
      (createDiamond lowerCase stub args).1 = shim.Success none →
      ∃ a0 a1 a2 a3 w, args = [a0, a1, a2, a3] ∧ Atoi a2 = some w
        ∧ (createDiamond lowerCase stub args).2.state a0
          = some (jsonMarshal ⟨"diamond", a0, ToLower lowerCase a1, w, ToLower lowerCase a3⟩)
        ∧ IntRange w ∧ (a2.data.head? ≠ some '-' → 0 ≤ w))
    ∧ (∀ (stub : ChaincodeStub) (k b : String), Reachable lowerCase stub →
      stub.state k = some b →
      ∃ d, jsonUnmarshal b diamond.zero = .ok d ∧ IntRange d.Carats) := by
  constructor
  · intro stub args h
    obtain ⟨a0, a1, a2, a3, w, hargs, -, -, -, -, hw, -, -, -, hres⟩ :=
      createDiamond_success lowerCase stub args (by rw [h]; rfl)
    refine ⟨a0, a1, a2, a3, w, hargs, hw, ?_, Atoi_range _ _ hw, Atoi_nonneg _ _ hw⟩
    rw [hres]
    exact write_state_same _ _ _ (jsonMarshal_ne_empty _)
  · intro stub k b hreach hb
    obtain ⟨d, hbd, -, -, h3, -, -⟩ := Reachable.wellFormed lowerCase stub hreach k b hb
    exact ⟨d, by rw [hbd]; exact jsonUnmarshal_jsonMarshal d _ h3, h3⟩

/-- A scenario of C11 as amended: the creation of ("asdf", "Blue", "35", "Bob") stores
the weight 35. -/
theorem stored_carats_int_witness :
    ∃ a0 a1 a2 a3 w, ["asdf", "Blue", "35", "Bob"] = [a0, a1, a2, a3] ∧ Atoi a2 = some w
      ∧ (createDiamond id emptyStub ["asdf", "Blue", "35", "Bob"]).2.state a0
        = some (jsonMarshal ⟨"diamond", a0, ToLower id a1, w, ToLower id a3⟩)
      ∧ IntRange w ∧ (a2.data.head? ≠ some '-' → 0 ≤ w) :=
  (stored_carats_int id).1 emptyStub ["asdf", "Blue", "35", "Bob"] (by decide)

/-- The counterexample to C11: the creation of ("x", "blue", "-5", "bob") on the empty
store succeeds and stores a record whose weight is -5. -/
theorem createDiamond_negative_carats :
    (createDiamond id emptyStub ["x", "blue", "-5", "bob"]).1 = shim.Success none
    ∧ Reachable id (Invoke id emptyStub "createDiamond" ["x", "blue", "-5", "bob"]).2
    ∧ (Invoke id emptyStub "createDiamond" ["x", "blue", "-5", "bob"]).2.state "x"
      = some "\x7b\"docType\":\"diamond\",\"name\":\"x\",\"origin\":\"blue\",\"carats\":-5,\"owner\":\"bob\"\x7d"
    ∧ jsonUnmarshal
        "\x7b\"docType\":\"diamond\",\"name\":\"x\",\"origin\":\"blue\",\"carats\":-5,\"owner\":\"bob\"\x7d"
        diamond.zero = .ok ⟨"diamond", "x", "blue", -5, "bob"⟩
    ∧ ¬ (0 ≤ (⟨"diamond", "x", "blue", -5, "bob"⟩ : diamond).Carats) :=
  ⟨by decide, Reachable.invoke _ _ _ (Reachable.empty _ _), by decide, by rfl, by decide⟩

/-- C12, with `unicode.ToLower` idempotent on runes: in every reachable store the value
under every key decodes to a record whose origin and owner are fixed points of
`strings.ToLower`. -/
theorem stored_origin_owner_lowercase (lowerCase : Char → Char)
    (hidem : ∀ c, unicodeToLower lowerCase (unicodeToLower lowerCase c)
      = unicodeToLower lowerCase c)
    (stub : ChaincodeStub) (hreach : Reachable lowerCase stub) (k b : String)
    (hb : stub.state k = some b) :
    ∃ d, jsonUnmarshal b diamond.zero = .ok d
      ∧ ToLower lowerCase d.Origin = d.Origin ∧ ToLower lowerCase d.Owner = d.Owner := by
  obtain ⟨d, hbd, -, -, h3, ⟨x, hx⟩, ⟨y, hy⟩⟩ :=
    Reachable.wellFormed lowerCase stub hreach k b hb
  refine ⟨d, by rw [hbd]; exact jsonUnmarshal_jsonMarshal d _ h3, ?_, ?_⟩
  · rw [hx, ToLower_idem lowerCase hidem]
  · rw [hy, ToLower_idem lowerCase hidem]

/-- The scenario of C12: after the creation of ("asdf", "BLUE", "35", "BoB") and the
transfer to "ALICE", the stored origin is "blue" and the stored owner "alice". -/
theorem stored_origin_owner_lowercase_witness :
    ((∀ c, unicodeToLower id (unicodeToLower id c) = unicodeToLower id c)
      ∧ Reachable id (run id emptyStub [("createDiamond", ["asdf", "BLUE", "35", "BoB"]),
          ("transferDiamond", ["asdf", "ALICE"])])
      ∧ (run id emptyStub [("createDiamond", ["asdf", "BLUE", "35", "BoB"]),
          ("transferDiamond", ["asdf", "ALICE"])]).state "asdf"
        = some "\x7b\"docType\":\"diamond\",\"name\":\"asdf\",\"origin\":\"blue\",\"carats\":35,\"owner\":\"alice\"\x7d")
    ∧ ∃ d, jsonUnmarshal
        "\x7b\"docType\":\"diamond\",\"name\":\"asdf\",\"origin\":\"blue\",\"carats\":35,\"owner\":\"alice\"\x7d"
        diamond.zero = .ok d
      ∧ ToLower id d.Origin = d.Origin ∧ ToLower id d.Owner = d.Owner :=
  ⟨⟨unicodeToLower_id_idem,
      Reachable.invoke _ _ _ (Reachable.invoke _ _ _ (Reachable.empty _ _)), by decide⟩,
    stored_origin_owner_lowercase id unicodeToLower_id_idem
      (run id emptyStub [("createDiamond", ["asdf", "BLUE", "35", "BoB"]),
        ("transferDiamond", ["asdf", "ALICE"])])
      (Reachable.invoke _ _ _ (Reachable.invoke _ _ _ (Reachable.empty _ _))) "asdf"
      "\x7b\"docType\":\"diamond\",\"name\":\"asdf\",\"origin\":\"blue\",\"carats\":35,\"owner\":\"alice\"\x7d"
      (by decide)⟩

/-- C13 at its failing input: after the creation of ("asdf", "Blue", "35", "Bob"), the
transfer of "asdf" to the empty owner succeeds, and the reachable store then holds
under "asdf" a record whose owner is the empty string, its name and its origin being
non-empty as in every reachable store; `createDiamond` refuses the empty owner. -/
theorem transferDiamond_empty_owner :
    (transferDiamond id (Invoke id emptyStub "createDiamond" ["asdf", "Blue", "35", "Bob"]).2
        ["asdf", ""]).1 = shim.Success none
    ∧ Reachable id (run id emptyStub [("createDiamond", ["asdf", "Blue", "35", "Bob"]),
        ("transferDiamond", ["asdf", ""])])
    ∧ (run id emptyStub [("createDiamond", ["asdf", "Blue", "35", "Bob"]),
        ("transferDiamond", ["asdf", ""])]).state "asdf"
      = some "\x7b\"docType\":\"diamond\",\"name\":\"asdf\",\"origin\":\"blue\",\"carats\":35,\"owner\":\"\"\x7d"
    ∧ jsonUnmarshal
        "\x7b\"docType\":\"diamond\",\"name\":\"asdf\",\"origin\":\"blue\",\"carats\":35,\"owner\":\"\"\x7d"
        diamond.zero = .ok ⟨"diamond", "asdf", "blue", 35, ""⟩
    ∧ NameOriginNonEmpty (run id emptyStub [("createDiamond", ["asdf", "Blue", "35", "Bob"]),
        ("transferDiamond", ["asdf", ""])])
    ∧ (createDiamond id emptyStub ["asdf", "Blue", "35", ""]).1
      = shim.Error "4th argument must be a non-empty string" :=
  ⟨by decide, Reachable.invoke _ _ _ (Reachable.invoke _ _ _ (Reachable.empty _ _)),
    by decide, by rfl,
    Reachable.nameOriginNonEmpty id _
      (Reachable.invoke _ _ _ (Reachable.invoke _ _ _ (Reachable.empty _ _))),
    by decide⟩

/-! ## The claims on arguments and dispatch -/

/-- C14: `transferDiamond` ignores the arguments after the second.  On a list of at
least two arguments it returns the response and the store it returns on the list of
the first two alone; on a shorter list it fails with "Incorrect number of arguments.
Expecting 2" and leaves the store as it was. -/
theorem transferDiamond_extra_arguments (lowerCase : Char → Char) (stub : ChaincodeStub)
    (args : List String) :
    (∀ a0 a1 rest, args = a0 :: a1 :: rest →
      transferDiamond lowerCase stub args = transferDiamond lowerCase stub [a0, a1])
    ∧ (args.length < 2 →
      transferDiamond lowerCase stub args
        = (shim.Error "Incorrect number of arguments. Expecting 2", stub)) := by
  constructor
  · rintro a0 a1 rest rfl
    rfl
  · intro hlen
    unfold transferDiamond
    split
    · simp only [List.length_cons] at hlen
      omega
    · rfl

/-- Scenarios of C14: a transfer with two extra arguments does what the transfer with
the first two arguments does, and a transfer with one argument fails. -/
theorem transferDiamond_extra_arguments_witness :
    transferDiamond id (createDiamond id emptyStub ["asdf", "Blue", "35", "Bob"]).2
        ["asdf", "Alice", "x", "y"]
      = transferDiamond id (createDiamond id emptyStub ["asdf", "Blue", "35", "Bob"]).2
          ["asdf", "Alice"]
    ∧ transferDiamond id emptyStub ["asdf"]
      = (shim.Error "Incorrect number of arguments. Expecting 2", emptyStub) :=
  ⟨(transferDiamond_extra_arguments id
      (createDiamond id emptyStub ["asdf", "Blue", "35", "Bob"]).2
      ["asdf", "Alice", "x", "y"]).1 "asdf" "Alice" ["x", "y"] rfl,
    (transferDiamond_extra_arguments id emptyStub ["asdf"]).2 (by decide)⟩

/-- C15: `Invoke` dispatches on exactly three names.  Under "createDiamond",
"transferDiamond" and "queryDiamond" it returns what the operation of that name
returns on the same store and arguments; under any other function name it returns
the error "Received unknown function invocation" and leaves the store as it was. -/
theorem Invoke_dispatch (lowerCase : Char → Char) (stub : ChaincodeStub) (function : String)
    (args : List String) :
    Invoke lowerCase stub "createDiamond" args = createDiamond lowerCase stub args
    ∧ Invoke lowerCase stub "transferDiamond" args = transferDiamond lowerCase stub args
    ∧ Invoke lowerCase stub "queryDiamond" args = queryDiamond stub args
    ∧ (function ≠ "createDiamond" → function ≠ "transferDiamond" →
        function ≠ "queryDiamond" →
        Invoke lowerCase stub function args
          = (shim.Error "Received unknown function invocation", stub)) := by
  refine ⟨?_, ?_, ?_, ?_⟩
  · simp [Invoke]
  · have h : ¬ ("transferDiamond" = "createDiamond") := by decide
    simp [Invoke, h]
  · have h1 : ¬ ("queryDiamond" = "createDiamond") := by decide
    have h2 : ¬ ("queryDiamond" = "transferDiamond") := by decide
    simp [Invoke, h1, h2]
  · intro h1 h2 h3
    simp [Invoke, h1, h2, h3]

/-- Scenarios of C15: a function name that differs from "queryDiamond" in case, and
the empty function name, are unknown. -/
theorem Invoke_dispatch_witness :
    Invoke id emptyStub "querydiamond" ["asdf"]
      = (shim.Error "Received unknown function invocation", emptyStub)
    ∧ Invoke id emptyStub "" []
      = (shim.Error "Received unknown function invocation", emptyStub) :=
  ⟨(Invoke_dispatch id emptyStub "querydiamond" ["asdf"]).2.2.2 (by decide) (by decide)
      (by decide),
    (Invoke_dispatch id emptyStub "" []).2.2.2 (by decide) (by decide) (by decide)⟩

/-- C16: on exactly four arguments of which at least one is empty, `createDiamond`
fails with the message that names the position of the first empty argument, whatever
the store holds, and leaves the store as it was. -/
theorem createDiamond_empty_argument (lowerCase : Char → Char) (stub : ChaincodeStub)
    (a0 a1 a2 a3 : String) :
    (a0 = "" → createDiamond lowerCase stub [a0, a1, a2, a3]
      = (shim.Error "1st argument must be a non-empty string", stub))
    ∧ (a0 ≠ "" → a1 = "" → createDiamond lowerCase stub [a0, a1, a2, a3]
      = (shim.Error "2nd argument must be a non-empty string", stub))
    ∧ (a0 ≠ "" → a1 ≠ "" → a2 = "" → createDiamond lowerCase stub [a0, a1, a2, a3]
      = (shim.Error "3rd argument must be a non-empty string", stub))
    ∧ (a0 ≠ "" → a1 ≠ "" → a2 ≠ "" → a3 = "" → createDiamond lowerCase stub [a0, a1, a2, a3]
      = (shim.Error "4th argument must be a non-empty string", stub)) := by
  have hempty : len "" ≤ 0 := by decide
  refine ⟨?_, ?_, ?_, ?_⟩
  · rintro rfl
    simp [createDiamond, hempty]
  · rintro h0 rfl
    simp [createDiamond, hempty, (len_pos_iff a0).mpr h0]
  · rintro h0 h1 rfl
    simp [createDiamond, hempty, (len_pos_iff a0).mpr h0, (len_pos_iff a1).mpr h1]
  · rintro h0 h1 h2 rfl
    simp [createDiamond, hempty, (len_pos_iff a0).mpr h0, (len_pos_iff a1).mpr h1,
      (len_pos_iff a2).mpr h2]

/-- The scenario of C16: the creation of ("x", "", "5", "bob"), on a store that holds
"x" already, and a creation with two empty arguments. -/
theorem createDiamond_empty_argument_witness :
    createDiamond id (createDiamond id emptyStub ["x", "blue", "5", "bob"]).2
        ["x", "", "5", "bob"]
      = (shim.Error "2nd argument must be a non-empty string",
          (createDiamond id emptyStub ["x", "blue", "5", "bob"]).2)
    ∧ createDiamond id emptyStub ["x", "blue", "", ""]
      = (shim.Error "3rd argument must be a non-empty string", emptyStub) :=
  ⟨(createDiamond_empty_argument id (createDiamond id emptyStub ["x", "blue", "5", "bob"]).2
      "x" "" "5" "bob").2.1 (by decide) rfl,
    (createDiamond_empty_argument id emptyStub "x" "blue" "" "").2.2.1 (by decide) (by decide)
      rfl⟩

/-- C17: on four non-empty arguments of which the third is not a numeric string, not
an optional sign followed by decimal digits, `createDiamond` fails with "3rd argument
must be a numeric string", whatever the store holds under the name, and leaves the
store as it was. -/
theorem createDiamond_not_numeric (lowerCase : Char → Char) (stub : ChaincodeStub)
    (a0 a1 a2 a3 : String) (h0 : a0 ≠ "") (h1 : a1 ≠ "") (h2 : a2 ≠ "") (h3 : a3 ≠ "")
    (hnum : isNumericString a2 = false) :
    createDiamond lowerCase stub [a0, a1, a2, a3]
      = (shim.Error "3rd argument must be a numeric string", stub) := by
  simp only [createDiamond, (len_pos_iff a0).mpr h0, (len_pos_iff a1).mpr h1,
    (len_pos_iff a2).mpr h2, (len_pos_iff a3).mpr h3, if_false, Atoi_of_not_numeric a2 hnum]

/-- The scenario of C17: the creation of ("x", "blue", "five", "bob") on a store that
holds "x" already. -/
theorem createDiamond_not_numeric_witness :
    ("x" ≠ "" ∧ "blue" ≠ "" ∧ "five" ≠ "" ∧ "bob" ≠ "" ∧ isNumericString "five" = false
      ∧ ((createDiamond id emptyStub ["x", "blue", "5", "bob"]).2.state "x").isSome = true)
    ∧ createDiamond id (createDiamond id emptyStub ["x", "blue", "5", "bob"]).2
        ["x", "blue", "five", "bob"]
      = (shim.Error "3rd argument must be a numeric string",
          (createDiamond id emptyStub ["x", "blue", "5", "bob"]).2) :=
  ⟨⟨by decide, by decide, by decide, by decide, by decide, by decide⟩,
    createDiamond_not_numeric id (createDiamond id emptyStub ["x", "blue", "5", "bob"]).2
      "x" "blue" "five" "bob" (by decide) (by decide) (by decide) (by decide) (by decide)⟩

/-- C18, as amended: `createDiamond` enforces no bound on the weight below the range
of `int`.  On four non-empty arguments of which the third is a sequence of decimal
digits, against an absent key and a store that does not fail, it succeeds and stores a
record whose weight is the value the digits denote when that value is at most
`2^63 - 1`, and it fails with "3rd argument must be a numeric string", the store
unchanged, when the value is larger. -/
theorem createDiamond_weight_digits (lowerCase : Char → Char) (stub : ChaincodeStub)
    (a0 a1 a2 a3 : String) (h0 : a0 ≠ "") (h1 : a1 ≠ "") (h2 : a2 ≠ "") (h3 : a3 ≠ "")
    (hdigits : a2.data.all isDigit = true) (habsent : stub.state a0 = none)
    (hget : stub.getError a0 = none) (hput : ∀ v, stub.putError a0 v = none) :
    (decimalValue a2.data < 2 ^ 63 →
      (createDiamond lowerCase stub [a0, a1, a2, a3]).1 = shim.Success none
      ∧ (createDiamond lowerCase stub [a0, a1, a2, a3]).2.state a0
        = some (jsonMarshal ⟨"diamond", a0, ToLower lowerCase a1, (decimalValue a2.data : Int),
            ToLower lowerCase a3⟩))
    ∧ (2 ^ 63 ≤ decimalValue a2.data →
      createDiamond lowerCase stub [a0, a1, a2, a3]
        = (shim.Error "3rd argument must be a numeric string", stub)) := by
  have hatoi := Atoi_of_digits a2 h2 hdigits
  constructor
  · intro hlt
    rw [if_pos hlt] at hatoi
    rw [createDiamond_ok lowerCase stub a0 a1 a2 a3 _ h0 h1 h2 h3 hatoi habsent hget (hput _)]
    exact ⟨rfl, write_state_same _ _ _ (jsonMarshal_ne_empty _)⟩
  · intro hge
    rw [if_neg (by omega)] at hatoi
    simp only [createDiamond, (len_pos_iff a0).mpr h0, (len_pos_iff a1).mpr h1,
      (len_pos_iff a2).mpr h2, (len_pos_iff a3).mpr h3, if_false, hatoi]

/-- Scenarios of C18 as amended: the weight `2^63 - 1` is stored, on the empty store. -/
theorem createDiamond_weight_digits_witness :
    ("x" ≠ "" ∧ "blue" ≠ "" ∧ "9223372036854775807" ≠ "" ∧ "bob" ≠ ""
      ∧ "9223372036854775807".data.all isDigit = true ∧ emptyStub.state "x" = none
      ∧ emptyStub.getError "x" = none ∧ (∀ v, emptyStub.putError "x" v = none)
      ∧ decimalValue "9223372036854775807".data < 2 ^ 63)
    ∧ (createDiamond id emptyStub ["x", "blue", "9223372036854775807", "bob"]).1
      = shim.Success none
    ∧ (createDiamond id emptyStub ["x", "blue", "9223372036854775807", "bob"]).2.state "x"
      = some (jsonMarshal ⟨"diamond", "x", ToLower id "blue",
          (decimalValue "9223372036854775807".data : Int), ToLower id "bob"⟩) :=
  ⟨⟨by decide, by decide, by decide, by decide, by decide, rfl, rfl, fun _ => rfl, by decide⟩,
    (createDiamond_weight_digits id emptyStub "x" "blue" "9223372036854775807" "bob"
      (by decide) (by decide) (by decide) (by decide) (by decide) rfl rfl (fun _ => rfl)).1
      (by decide)⟩

/-- The counterexample to C18: the weight text "9223372036854775808", a sequence of
decimal digits that denotes `2^63`, with otherwise valid arguments against an absent
key of a store that does not fail: `createDiamond` fails at the reading of the weight
and stores nothing. -/
theorem createDiamond_weight_out_of_range :
    "9223372036854775808".data.all isDigit = true
    ∧ decimalValue "9223372036854775808".data = 2 ^ 63
    ∧ emptyStub.state "x" = none
    ∧ createDiamond id emptyStub ["x", "blue", "9223372036854775808", "bob"]
      = (shim.Error "3rd argument must be a numeric string", emptyStub)
    ∧ (createDiamond id emptyStub ["x", "blue", "9223372036854775808", "bob"]).2.state "x"
      = none :=
  ⟨by decide, by decide, rfl, by rfl, by decide⟩

/-! ## The claims on key and record, and on the order of transfers -/

theorem write_write (stub : ChaincodeStub) (key v1 v2 : String) :
    (stub.write key v1).write key v2 = stub.write key v2 := by
  rcases stub with ⟨st, ge, pe⟩
  simp only [ChaincodeStub.write, ChaincodeStub.mk.injEq, and_true]
  funext k
  by_cases hk : k = key
  · simp [hk]
  · simp [hk]

theorem keyConsistent_write (stub : ChaincodeStub) (key : String) (d : diamond)
    (h : KeyConsistent stub) (h1 : d.ObjectType = "diamond") (h2 : d.Name = key)
    (h3 : IntRange d.Carats) : KeyConsistent (stub.write key (jsonMarshal d)) := by
  intro k b hb
  by_cases hk : k = key
  · subst hk
    rw [write_state_same _ _ _ (jsonMarshal_ne_empty d)] at hb
    simp only [Option.some.injEq] at hb
    subst hb
    exact ⟨d, jsonUnmarshal_jsonMarshal d _ h3, h1, h2⟩
  · rw [write_state_other _ _ _ _ hk] at hb
    exact h k b hb

/-- A transfer keeps key and record in agreement: it writes the record it decoded,
with another owner, under the key it read. -/
theorem transferDiamond_keyConsistent (lowerCase : Char → Char) (stub : ChaincodeStub)
    (args : List String) (h : KeyConsistent stub) :
    KeyConsistent (transferDiamond lowerCase stub args).2 := by
  by_cases hs : (transferDiamond lowerCase stub args).1.Status = 200
  · obtain ⟨a0, a1, rest, b, d, -, -, hb, hd, -, hres⟩ :=
      transferDiamond_success lowerCase stub args hs
    obtain ⟨d0, hd0, h1, h2⟩ := h a0 b hb
    rw [hd] at hd0
    simp only [Except.ok.injEq] at hd0
    subst hd0
    rw [hres]
    exact keyConsistent_write stub a0 _ h h1 h2
      (jsonUnmarshal_range b diamond.zero d IntRange_zero hd)
  · rw [transferDiamond_failed lowerCase stub args hs]
    exact h

/-- Key and record on text, that is on keys that are well-formed UTF-8 (the form on
byte strings is proved in the last section): in every
reachable store the value under every key decodes to a record of
kind "diamond" whose name is the key; and `transferDiamond`, on any store in which key
and record agree, leaves a store in which they agree. -/
theorem key_record_consistent (lowerCase : Char → Char) (stub : ChaincodeStub)
    (hreach : Reachable lowerCase stub) :
    (∀ k b, stub.state k = some b →
      ∃ d : diamond, jsonUnmarshal b diamond.zero = .ok d ∧ d.ObjectType = "diamond"
        ∧ d.Name = k)
    ∧ (∀ (s : ChaincodeStub) (args : List String), KeyConsistent s →
      KeyConsistent (transferDiamond lowerCase s args).2) := by
  constructor
  · intro k b hb
    obtain ⟨d, hbd, h1, h2, h3, -, -⟩ := Reachable.wellFormed lowerCase stub hreach k b hb
    exact ⟨d, by rw [hbd]; exact jsonUnmarshal_jsonMarshal d _ h3, h1, h2⟩
  · intro s args hs
    exact transferDiamond_keyConsistent lowerCase s args hs

/-- The text scenario of key and record: after the creation of "asdf" and "qwer" and
the transfer of "qwer", the value under "qwer" decodes to a diamond named "qwer". -/
theorem key_record_consistent_witness :
    (Reachable id (run id emptyStub [("createDiamond", ["asdf", "Blue", "35", "Bob"]),
        ("createDiamond", ["qwer", "Red", "7", "Eve"]), ("transferDiamond", ["qwer", "Alice"])])
      ∧ (run id emptyStub [("createDiamond", ["asdf", "Blue", "35", "Bob"]),
        ("createDiamond", ["qwer", "Red", "7", "Eve"]),
        ("transferDiamond", ["qwer", "Alice"])]).state "qwer"
        = some "\x7b\"docType\":\"diamond\",\"name\":\"qwer\",\"origin\":\"red\",\"carats\":7,\"owner\":\"alice\"\x7d")
    ∧ ∃ d : diamond, jsonUnmarshal
        "\x7b\"docType\":\"diamond\",\"name\":\"qwer\",\"origin\":\"red\",\"carats\":7,\"owner\":\"alice\"\x7d"
        diamond.zero = .ok d ∧ d.ObjectType = "diamond" ∧ d.Name = "qwer" :=
  ⟨⟨Reachable.invoke _ _ _ (Reachable.invoke _ _ _ (Reachable.invoke _ _ _
      (Reachable.empty _ _))), by decide⟩,
    (key_record_consistent id
      (run id emptyStub [("createDiamond", ["asdf", "Blue", "35", "Bob"]),
        ("createDiamond", ["qwer", "Red", "7", "Eve"]), ("transferDiamond", ["qwer", "Alice"])])
      (Reachable.invoke _ _ _ (Reachable.invoke _ _ _ (Reachable.invoke _ _ _
        (Reachable.empty _ _))))).1 "qwer" _ (by decide)⟩

/-- On a store that holds under `name` bytes that decode to `r` and does not fail the
read and the writes of `name`, two transfers of `name` in a row leave what the second
alone leaves. -/
theorem transferDiamond_after_transferDiamond (lowerCase : Char → Char)
    (stub : ChaincodeStub) (name a b b0 : String) (r : diamond)
    (hpresent : stub.state name = some b0) (hr : jsonUnmarshal b0 diamond.zero = .ok r)
    (hget : stub.getError name = none) (hput : ∀ v, stub.putError name v = none) :
    transferDiamond lowerCase stub [name, b]
      = (shim.Success none,
          stub.write name (jsonMarshal { r with Owner := ToLower lowerCase b }))
    ∧ transferDiamond lowerCase (transferDiamond lowerCase stub [name, a]).2 [name, b]
      = (shim.Success none,
          stub.write name (jsonMarshal { r with Owner := ToLower lowerCase b })) := by
  have hrange : IntRange r.Carats := jsonUnmarshal_range b0 diamond.zero r IntRange_zero hr
  have hb := transferDiamond_ok lowerCase stub name b [] b0 r hget hpresent hr (hput _)
  have ha := transferDiamond_ok lowerCase stub name a [] b0 r hget hpresent hr (hput _)
  have hab := transferDiamond_ok lowerCase
    (stub.write name (jsonMarshal { r with Owner := ToLower lowerCase a })) name b []
    (jsonMarshal { r with Owner := ToLower lowerCase a })
    { r with Owner := ToLower lowerCase a }
    (by rw [write_getError]; exact hget)
    (write_state_same _ _ _ (jsonMarshal_ne_empty _))
    (jsonUnmarshal_jsonMarshal _ _ hrange)
    (by rw [write_putError]; exact hput _)
  have ha2 : (transferDiamond lowerCase stub [name, a]).2
      = stub.write name (jsonMarshal { r with Owner := ToLower lowerCase a }) := by
    rw [ha]
  refine ⟨hb, ?_⟩
  rw [ha2, hab, write_write]

/-- C20: last transfer wins.  In a reachable store that holds a value under `name` and
does not fail the read and the writes of `name`, the transfer of `name` to `a` followed
by the transfer to `b` leaves the store that the transfer to `b` alone leaves; both
ways the transfer to `b` succeeds, and the record then under `name` is the record that
was there with the lower-cased `b` as its owner. -/
theorem last_transfer_wins (lowerCase : Char → Char) (stub : ChaincodeStub)
    (hreach : Reachable lowerCase stub) (name a b b0 : String)
    (hpresent : stub.state name = some b0)
    (hget : stub.getError name = none) (hput : ∀ v, stub.putError name v = none) :
    (transferDiamond lowerCase (transferDiamond lowerCase stub [name, a]).2 [name, b]).2
      = (transferDiamond lowerCase stub [name, b]).2
    ∧ (transferDiamond lowerCase stub [name, b]).1 = shim.Success none
    ∧ (transferDiamond lowerCase (transferDiamond lowerCase stub [name, a]).2 [name, b]).1
      = shim.Success none
    ∧ ∃ r bytes, jsonUnmarshal b0 diamond.zero = .ok r
      ∧ (transferDiamond lowerCase stub [name, b]).2.state name = some bytes
      ∧ jsonUnmarshal bytes diamond.zero = .ok { r with Owner := ToLower lowerCase b } := by
  obtain ⟨d, hbd, -, -, h3, -, -⟩ := Reachable.wellFormed lowerCase stub hreach name b0 hpresent
  have hr : jsonUnmarshal b0 diamond.zero = .ok d := by
    rw [hbd]
    exact jsonUnmarshal_jsonMarshal d _ h3
  obtain ⟨hb, hab⟩ :=
    transferDiamond_after_transferDiamond lowerCase stub name a b b0 d hpresent hr hget hput
  rw [hab, hb]
  exact ⟨rfl, rfl, rfl, d, _, hr, write_state_same _ _ _ (jsonMarshal_ne_empty _),
    jsonUnmarshal_jsonMarshal _ _ h3⟩

/-- The scenario of C20: after the creation of ("asdf", "Blue", "35", "Bob"), the
transfers to "Alice" and then to "Eve" leave the store that the transfer to "Eve" alone
leaves, with the owner "eve". -/
theorem last_transfer_wins_witness :
    (Reachable id (Invoke id emptyStub "createDiamond" ["asdf", "Blue", "35", "Bob"]).2
      ∧ (Invoke id emptyStub "createDiamond" ["asdf", "Blue", "35", "Bob"]).2.state "asdf"
        = some "\x7b\"docType\":\"diamond\",\"name\":\"asdf\",\"origin\":\"blue\",\"carats\":35,\"owner\":\"bob\"\x7d"
      ∧ (Invoke id emptyStub "createDiamond" ["asdf", "Blue", "35", "Bob"]).2.getError "asdf"
        = none
      ∧ (∀ v, (Invoke id emptyStub "createDiamond" ["asdf", "Blue", "35", "Bob"]).2.putError
        "asdf" v = none))
    ∧ (transferDiamond id (transferDiamond id
          (Invoke id emptyStub "createDiamond" ["asdf", "Blue", "35", "Bob"]).2
          ["asdf", "Alice"]).2 ["asdf", "Eve"]).2
      = (transferDiamond id
          (Invoke id emptyStub "createDiamond" ["asdf", "Blue", "35", "Bob"]).2
          ["asdf", "Eve"]).2
    ∧ (transferDiamond id
          (Invoke id emptyStub "createDiamond" ["asdf", "Blue", "35", "Bob"]).2
          ["asdf", "Eve"]).2.state "asdf"
      = some "\x7b\"docType\":\"diamond\",\"name\":\"asdf\",\"origin\":\"blue\",\"carats\":35,\"owner\":\"eve\"\x7d" :=
  ⟨⟨Reachable.invoke _ _ _ (Reachable.empty _ _), by decide, rfl, fun _ => rfl⟩,
    (last_transfer_wins id
      (Invoke id emptyStub "createDiamond" ["asdf", "Blue", "35", "Bob"]).2
      (Reachable.invoke _ _ _ (Reachable.empty _ _)) "asdf" "Alice" "Eve"
      "\x7b\"docType\":\"diamond\",\"name\":\"asdf\",\"origin\":\"blue\",\"carats\":35,\"owner\":\"bob\"\x7d"
      (by decide) rfl (fun _ => rfl)).1,
    by decide⟩

/-! ## Lemmas on byte strings -/

namespace Bytes

theorem byte_val (n : Nat) (h : n < 256) : (byte n).val = n := by
  simp only [byte, Fin.ofNat, Nat.reduceAdd]
  omega

theorem char_valid (c : Char) :
    c.toNat < 0xD800 ∨ (0xDFFF < c.toNat ∧ c.toNat < 0x110000) := c.valid

/-- Decoding the encoding of a rune gives the rune. -/
theorem decodeRune_encodeRune (c : Char) (rest : GoString) :
    decodeRune (encodeRune c ++ rest) = (some c, rest) := by
  have hv := char_valid c
  have hc : Char.ofNat c.toNat = c := Char.ofNat_toNat c
  unfold encodeRune
  generalize c.toNat = v at hv hc ⊢
  split
  · rename_i h1
    have e0 := byte_val v (by omega)
    simp only [List.singleton_append, decodeRune, e0, h1, if_true, hc]
  split
  · rename_i h1 h2
    have e0 := byte_val (0xC0 + v / 64) (by omega)
    have e1 := byte_val (0x80 + v % 64) (by omega)
    have a1 : ¬ (0xC0 + v / 64 < 0x80) := by omega
    have a2 : ¬ (0xC0 + v / 64 < 0xC2 ∨ 0xF4 < 0xC0 + v / 64) := by omega
    have a3 : ¬ (0xC0 + v / 64 = 0xE0) := by omega
    have a4 : ¬ (0xC0 + v / 64 = 0xF0) := by omega
    have a5 : ¬ (0xC0 + v / 64 = 0xED) := by omega
    have a6 : ¬ (0xC0 + v / 64 = 0xF4) := by omega
    have a7 : ¬ (0x80 + v % 64 < 0x80 ∨ 0xBF < 0x80 + v % 64) := by omega
    have a8 : 0xC0 + v / 64 < 0xE0 := by omega
    have a9 : (0xC0 + v / 64) % 32 * 64 + (0x80 + v % 64) % 64 = v := by omega
    simp only [List.cons_append, List.nil_append, decodeRune, e0, e1, a1, a2, a3, a4, a5, a6,
      a7, a8, a9, if_true, if_false, hc]
  split
  · rename_i h1 h2 h3
    have e0 := byte_val (0xE0 + v / 4096) (by omega)
    have e1 := byte_val (0x80 + v / 64 % 64) (by omega)
    have e2 := byte_val (0x80 + v % 64) (by omega)
    have a1 : ¬ (0xE0 + v / 4096 < 0x80) := by omega
    have a2 : ¬ (0xE0 + v / 4096 < 0xC2 ∨ 0xF4 < 0xE0 + v / 4096) := by omega
    have a4 : ¬ (0xE0 + v / 4096 = 0xF0) := by omega
    have a6 : ¬ (0xE0 + v / 4096 = 0xF4) := by omega
    have a7 : ¬ (0x80 + v / 64 % 64
          < (if 0xE0 + v / 4096 = 0xE0 then 0xA0 else 0x80)
        ∨ (if 0xE0 + v / 4096 = 0xED then 0x9F else 0xBF) < 0x80 + v / 64 % 64) := by
      split_ifs <;> omega
    have a8 : ¬ (0xE0 + v / 4096 < 0xE0) := by omega
    have a9 : ¬ (0x80 + v % 64 < 0x80 ∨ 0xBF < 0x80 + v % 64) := by omega
    have a10 : 0xE0 + v / 4096 < 0xF0 := by omega
    have a11 : (0xE0 + v / 4096) % 16 * 4096 + (0x80 + v / 64 % 64) % 64 * 64
        + (0x80 + v % 64) % 64 = v := by omega
    simp only [List.cons_append, List.nil_append, decodeRune, e0, e1, e2, a1, a2, a4, a6, a7,
      a8, a9, a10, a11, if_true, if_false, hc]
  · rename_i h1 h2 h3
    have e0 := byte_val (0xF0 + v / 262144) (by omega)
    have e1 := byte_val (0x80 + v / 4096 % 64) (by omega)
    have e2 := byte_val (0x80 + v / 64 % 64) (by omega)
    have e3 := byte_val (0x80 + v % 64) (by omega)
    have a1 : ¬ (0xF0 + v / 262144 < 0x80) := by omega
    have a2 : ¬ (0xF0 + v / 262144 < 0xC2 ∨ 0xF4 < 0xF0 + v / 262144) := by omega
    have a3 : ¬ (0xF0 + v / 262144 = 0xE0) := by omega
    have a5 : ¬ (0xF0 + v / 262144 = 0xED) := by omega
    have a7 : ¬ (0x80 + v / 4096 % 64
          < (if 0xF0 + v / 262144 = 0xF0 then 0x90 else 0x80)
        ∨ (if 0xF0 + v / 262144 = 0xF4 then 0x8F else 0xBF) < 0x80 + v / 4096 % 64) := by
      split_ifs <;> omega
    have a8 : ¬ (0xF0 + v / 262144 < 0xE0) := by omega
    have a9 : ¬ (0x80 + v / 64 % 64 < 0x80 ∨ 0xBF < 0x80 + v / 64 % 64) := by omega
    have a10 : ¬ (0xF0 + v / 262144 < 0xF0) := by omega
    have a11 : ¬ (0x80 + v % 64 < 0x80 ∨ 0xBF < 0x80 + v % 64) := by omega
    have a12 : (0xF0 + v / 262144) % 8 * 262144 + (0x80 + v / 4096 % 64) % 64 * 4096
        + (0x80 + v / 64 % 64) % 64 * 64 + (0x80 + v % 64) % 64 = v := by omega
    simp only [List.cons_append, List.nil_append, decodeRune, e0, e1, e2, e3, a1, a2, a3, a5,
      a7, a8, a9, a10, a11, a12, if_true, if_false, hc]

theorem encodeRune_cons (c : Char) : ∃ b bs, encodeRune c = b :: bs := by
  unfold encodeRune
  split_ifs <;> exact ⟨_, _, rfl⟩

/-- The runes of the encoding of a text are the runes of the text, none invalid. -/
theorem toUnits_utf8 (t : List Char) (n : Nat) (h : t.length ≤ n) :
    toUnits n (utf8 t) = t.map some := by
  induction t generalizing n with
  | nil => cases n <;> rfl
  | cons c cs ih =>
    cases n with
    | zero => simp at h
    | succ n =>
      obtain ⟨b, bs, hb⟩ := encodeRune_cons c
      have hd := decodeRune_encodeRune c (utf8 cs)
      simp only [utf8]
      rw [hb] at hd ⊢
      simp only [List.cons_append] at hd ⊢
      simp only [toUnits, hd, List.map_cons]
      rw [ih n (by simpa using h)]

theorem length_utf8 (t : List Char) : t.length ≤ (utf8 t).length := by
  induction t with
  | nil => simp [utf8]
  | cons c cs ih =>
    obtain ⟨b, bs, hb⟩ := encodeRune_cons c
    simp only [utf8, hb, List.cons_append, List.length_cons, List.length_append]
    omega

theorem toUnits_utf8_length (t : List Char) :
    toUnits (utf8 t).length (utf8 t) = t.map some :=
  toUnits_utf8 t _ (length_utf8 t)

/-- The encoding of a text decodes to the text. -/
theorem toText_utf8 (t : List Char) : toText (utf8 t) = t := by
  simp [toText, toUnits_utf8_length, Function.comp_def]

theorem sanitize_utf8 (t : List Char) : sanitize (utf8 t) = utf8 t := by
  simp [sanitize, toText_utf8]

theorem validUTF8_utf8 (t : List Char) : ValidUTF8 (utf8 t) := sanitize_utf8 t

theorem sanitize_of_valid (s : GoString) (h : ValidUTF8 s) : sanitize s = s := h

theorem utf8_append (s t : List Char) : utf8 (s ++ t) = utf8 s ++ utf8 t := by
  induction s with
  | nil => rfl
  | cons c cs ih => simp [utf8, ih]

theorem utf8_injective (s t : List Char) (h : utf8 s = utf8 t) : s = t := by
  have := congrArg toText h
  rwa [toText_utf8, toText_utf8] at this

end Bytes

namespace Bytes

theorem escapeUnits_map_some (t : List Char) : escapeUnits (t.map some) = escapeRunes t := by
  induction t with
  | nil => rfl
  | cons c cs ih => simp [escapeUnits, escapeRunes, ih]

/-- A string literal body written for a Go string is read back as its runes, with
U+FFFD for each invalid byte. -/
theorem unquote_escapeUnits (us : List (Option Char)) (f : Nat) (rest : List Char)
    (hf : us.length < f) :
    unquote f (escapeUnits us ++ '"' :: rest)
      = some (us.map (fun u => u.getD replacementChar), rest) := by
  induction us generalizing f with
  | nil =>
    cases f with
    | zero => simp at hf
    | succ f => simp [escapeUnits, unquote]
  | cons u us ih =>
    cases f with
    | zero => simp at hf
    | succ f =>
      have hf1 : us.length < f := by simpa using hf
      cases u with
      | some c =>
        simp only [escapeUnits, List.append_assoc]
        rw [unquote_escapeRune, ih f hf1]
        rfl
      | none =>
        have hstep : ∀ tail, unquote (f + 1) ('\\' :: 'u' :: 'f' :: 'f' :: 'f' :: 'd' :: tail)
            = consRune replacementChar (unquote f tail) := by
          intro tail
          rfl
        simp only [escapeUnits, List.append_assoc, List.cons_append, List.nil_append]
        rw [hstep, ih f hf1]
        rfl

theorem length_escapeUnits (us : List (Option Char)) : us.length ≤ (escapeUnits us).length := by
  induction us with
  | nil => simp [escapeUnits]
  | cons u us ih =>
    cases u with
    | some c =>
      have := length_escapeRune c
      simp only [escapeUnits, List.length_cons, List.length_append]
      omega
    | none =>
      simp only [escapeUnits, List.length_cons, List.length_append, List.length_nil]
      omega

theorem parseJ_units (f n : Nat) (us : List (Option Char)) (rest : List Char) :
    parseJ (f + 1) n .value (unitsThen us rest)
      = some (.str (us.map (fun u => u.getD replacementChar)), rest) := by
  have hu := unquote_escapeUnits us (escapeUnits us ++ '"' :: rest).length rest (by
    have := length_escapeUnits us
    simp only [List.length_append, List.length_cons]
    omega)
  unfold unitsThen
  generalize escapeUnits us ++ '"' :: rest = L at hu ⊢
  simp [parseJ, hu]

theorem skipSpace_unitsThen (us : List (Option Char)) (r : List Char) :
    skipSpace (unitsThen us r) = unitsThen us r := rfl

/-- The text written for a `diamond`, member by member. -/
theorem jsonText_eq (d : diamond) :
    jsonText d =
      '{' :: memberText "docType".data (unitsThen (toUnits d.ObjectType.length d.ObjectType)
        (',' :: memberText "name".data (unitsThen (toUnits d.Name.length d.Name)
        (',' :: memberText "origin".data (unitsThen (toUnits d.Origin.length d.Origin)
        (',' :: memberText "carats".data (formatInt d.Carats ++
        ',' :: memberText "owner".data (unitsThen (toUnits d.Owner.length d.Owner)
          ['}'])))))))) := by
  have e1 : escapeRunes "docType".data = "docType".data := by decide
  have e2 : escapeRunes "name".data = "name".data := by decide
  have e3 : escapeRunes "origin".data = "origin".data := by decide
  have e4 : escapeRunes "carats".data = "carats".data := by decide
  have e5 : escapeRunes "owner".data = "owner".data := by decide
  simp only [memberText, literalThen, unitsThen]
  rw [e1, e2, e3, e4, e5]
  simp [jsonText, quote]

/-- The parser reads the text written for a `diamond` as the object of its five
members, the strings with U+FFFD for each invalid byte. -/
theorem parseJ_jsonText (d : diamond) (f : Nat) :
    parseJ (f + 7) 0 .value (jsonText d) =
      some (.obj [("docType".data, .str (toText d.ObjectType)),
        ("name".data, .str (toText d.Name)), ("origin".data, .str (toText d.Origin)),
        ("carats".data, .num (formatInt d.Carats)),
        ("owner".data, .str (toText d.Owner))], []) := by
  rw [jsonText_eq]
  have hcomma : endsNumber ',' := by
    unfold endsNumber
    decide
  have step0 : ∀ k V, parseJ (f + 7) 0 .value ('{' :: memberText k V)
      = parseJ (f + 6) 1 (.members []) (memberText k V) := by
    intro k V
    rfl
  rw [step0]
  rw [parseJ_member (f + 5) 1 _ _ _ _ _ (skipSpace_unitsThen _ _) rfl (parseJ_units (f + 4) 1 _ _)]
  rw [parseJ_member (f + 4) 1 _ _ _ _ _ (skipSpace_unitsThen _ _) rfl (parseJ_units (f + 3) 1 _ _)]
  rw [parseJ_member (f + 3) 1 _ _ _ _ _ (skipSpace_unitsThen _ _) rfl (parseJ_units (f + 2) 1 _ _)]
  rw [parseJ_member (f + 2) 1 _ _ _ _ _ (skipSpace_formatInt _ _) rfl
    (parseJ_int (f + 1) 1 _ _ _ hcomma)]
  rw [parseJ_lastMember (f + 1) 1 _ _ _ _ _ (skipSpace_unitsThen _ _) (parseJ_units f 1 _ _)]
  rfl

theorem jsonText_length (d : diamond) : 6 ≤ (jsonText d).length := by
  rw [jsonText_eq]
  simp only [memberText, literalThen, unitsThen, List.length_cons, List.length_append]
  omega

theorem toText_jsonMarshal (d : diamond) : toText (jsonMarshal d) = jsonText d :=
  toText_utf8 _

theorem jsonMarshal_ne_nil (d : diamond) : len (jsonMarshal d) ≠ 0 := by
  have h1 := jsonText_length d
  have h2 := length_utf8 (jsonText d)
  simp only [len, jsonMarshal]
  omega

/-- Decoding what `jsonMarshal` wrote gives the record with each string read through
UTF-8 decoding: U+FFFD in place of each invalid byte. -/
theorem jsonUnmarshal_jsonMarshal_bytes (d v : diamond) (hr : IntRange d.Carats) :
    jsonUnmarshal (jsonMarshal d) v
      = .ok ⟨sanitize d.ObjectType, sanitize d.Name, sanitize d.Origin, d.Carats,
          sanitize d.Owner⟩ := by
  obtain ⟨f, hf⟩ : ∃ f, (jsonText d).length + 1 = f + 7 :=
    ⟨(jsonText d).length - 6, by have := jsonText_length d; omega⟩
  have hs : skipSpace (jsonText d) = jsonText d := by
    rw [jsonText_eq]
    rfl
  have hp := parseJ_jsonText d f
  have f1 : findField "docType".data = some .docType := by decide
  have f2 : findField "name".data = some .name := by decide
  have f3 : findField "origin".data = some .origin := by decide
  have f4 : findField "carats".data = some .carats := by decide
  have f5 : findField "owner".data = some .owner := by decide
  have hi := ParseInt_formatInt d.Carats hr.1 hr.2
  unfold jsonUnmarshal
  rw [toText_jsonMarshal, hf, hs, hp]
  simp [skipSpace, List.foldl, decodeMember, f1, f2, f3, f4, f5, storeString, storeInt, hi,
    sanitize]

end Bytes

/-! ## Lemmas on the operations on byte strings -/

namespace Bytes

theorem len_pos_bytes (s : GoString) : ¬ len s ≤ 0 ↔ s ≠ [] := by
  cases s with
  | nil => simp [len]
  | cons b r => simp [len]

theorem write_state_same_bytes (stub : ChaincodeStub) (key value : GoString)
    (h : len value ≠ 0) : (stub.write key value).state key = some value := by
  simp [ChaincodeStub.write, h]

theorem write_state_other_bytes (stub : ChaincodeStub) (key value k : GoString)
    (h : k ≠ key) : (stub.write key value).state k = stub.state k := by
  simp [ChaincodeStub.write, h]

theorem shim_Error_status_bytes (msg : GoString) : (shim.Error msg).Status = 500 := rfl

/-- The outcome of `createDiamond` when it passes the checks, finds no value and the
store does not fail. -/
theorem createDiamond_ok_bytes (lowerCase : Char → Char) (stub : ChaincodeStub)
    (a0 a1 a2 a3 : GoString) (w : Int) (h0 : a0 ≠ []) (h1 : a1 ≠ []) (h2 : a2 ≠ [])
    (h3 : a3 ≠ []) (hw : Atoi a2 = some w) (habsent : stub.state a0 = none)
    (hget : stub.getError a0 = none)
    (hput : stub.putError a0
      (jsonMarshal ⟨lit "diamond", a0, ToLower lowerCase a1, w, ToLower lowerCase a3⟩) = none) :
    createDiamond lowerCase stub [a0, a1, a2, a3] =
      (shim.Success none, stub.write a0
        (jsonMarshal ⟨lit "diamond", a0, ToLower lowerCase a1, w, ToLower lowerCase a3⟩)) := by
  simp only [createDiamond, (len_pos_bytes a0).mpr h0, (len_pos_bytes a1).mpr h1,
    (len_pos_bytes a2).mpr h2, (len_pos_bytes a3).mpr h3, if_false, hw,
    ChaincodeStub.GetState, ChaincodeStub.PutState, hget, habsent, hput]

/-- What a successful `createDiamond` has checked and done. -/
theorem createDiamond_success_bytes (lowerCase : Char → Char) (stub : ChaincodeStub)
    (args : List GoString) (h : (createDiamond lowerCase stub args).1.Status = 200) :
    ∃ a0 a1 a2 a3 w, args = [a0, a1, a2, a3] ∧ a0 ≠ [] ∧ a1 ≠ [] ∧ a2 ≠ [] ∧ a3 ≠ []
      ∧ Atoi a2 = some w ∧ stub.getError a0 = none ∧ stub.state a0 = none
      ∧ createDiamond lowerCase stub args = (shim.Success none, stub.write a0
          (jsonMarshal ⟨lit "diamond", a0, ToLower lowerCase a1, w, ToLower lowerCase a3⟩)) := by
  unfold createDiamond at h
  split at h
  case h_2 => simp [shim_Error_status_bytes] at h
  case h_1 a0 a1 a2 a3 =>
    by_cases h0 : len a0 ≤ 0
    · simp [h0, shim_Error_status_bytes] at h
    by_cases h1 : len a1 ≤ 0
    · simp [h0, h1, shim_Error_status_bytes] at h
    by_cases h2 : len a2 ≤ 0
    · simp [h0, h1, h2, shim_Error_status_bytes] at h
    by_cases h3 : len a3 ≤ 0
    · simp [h0, h1, h2, h3, shim_Error_status_bytes] at h
    simp only [h0, h1, h2, h3, if_false] at h
    cases hw : Atoi a2 with
    | none => simp [hw, shim_Error_status_bytes] at h
    | some w =>
      simp only [hw] at h
      cases hg : stub.getError a0 with
      | some e => simp [ChaincodeStub.GetState, hg, shim_Error_status_bytes] at h
      | none =>
        cases hs : stub.state a0 with
        | some b => simp [ChaincodeStub.GetState, hg, hs, shim_Error_status_bytes] at h
        | none =>
          cases hp : stub.putError a0
            (jsonMarshal ⟨lit "diamond", a0, ToLower lowerCase a1, w, ToLower lowerCase a3⟩) with
          | some e =>
            simp [ChaincodeStub.GetState, ChaincodeStub.PutState, hg, hs, hp,
              shim_Error_status_bytes] at h
          | none =>
            rw [len_pos_bytes] at h0 h1 h2 h3
            exact ⟨a0, a1, a2, a3, w, rfl, h0, h1, h2, h3, hw, hg, hs,
              createDiamond_ok_bytes lowerCase stub a0 a1 a2 a3 w h0 h1 h2 h3 hw hs hg hp⟩

/-- A `createDiamond` that does not return success leaves the stub as it was. -/
theorem createDiamond_failed_bytes (lowerCase : Char → Char) (stub : ChaincodeStub)
    (args : List GoString) (h : (createDiamond lowerCase stub args).1.Status ≠ 200) :
    (createDiamond lowerCase stub args).2 = stub := by
  unfold createDiamond at h ⊢
  split
  case h_2 => rfl
  case h_1 a0 a1 a2 a3 =>
    simp only at h
    split_ifs
    · rfl
    · rfl
    · rfl
    · rfl
    · rename_i h0 h1 h2 h3
      simp only [h0, h1, h2, h3, if_false] at h
      cases hw : Atoi a2 with
      | none => rfl
      | some w =>
        simp only [hw] at h ⊢
        cases hg : stub.GetState a0 with
        | error e => rfl
        | ok v =>
          cases v with
          | some b => rfl
          | none =>
            simp only [hg] at h ⊢
            cases hp : stub.PutState a0
              (jsonMarshal ⟨lit "diamond", a0, ToLower lowerCase a1, w, ToLower lowerCase a3⟩) with
            | error e => rfl
            | ok s1 => simp [hp, shim.Success] at h

/-- What a successful `transferDiamond` has read and done. -/
theorem transferDiamond_success_bytes (lowerCase : Char → Char) (stub : ChaincodeStub)
    (args : List GoString) (h : (transferDiamond lowerCase stub args).1.Status = 200) :
    ∃ a0 a1 rest b d, args = a0 :: a1 :: rest ∧ stub.getError a0 = none
      ∧ stub.state a0 = some b ∧ jsonUnmarshal b diamond.zero = .ok d
      ∧ transferDiamond lowerCase stub args = (shim.Success none,
          stub.write a0 (jsonMarshal { d with Owner := ToLower lowerCase a1 })) := by
  unfold transferDiamond at h
  split at h
  case h_2 => simp [shim_Error_status_bytes] at h
  case h_1 a0 a1 rest =>
    cases hg : stub.getError a0 with
    | some e => simp [ChaincodeStub.GetState, hg, shim_Error_status_bytes] at h
    | none =>
      cases hs : stub.state a0 with
      | none => simp [ChaincodeStub.GetState, hg, hs, shim_Error_status_bytes] at h
      | some b =>
        cases hd : jsonUnmarshal b diamond.zero with
        | error e => simp [ChaincodeStub.GetState, hg, hs, hd, shim_Error_status_bytes] at h
        | ok d =>
          cases hp : stub.putError a0
            (jsonMarshal { d with Owner := ToLower lowerCase a1 }) with
          | some e =>
            simp [ChaincodeStub.GetState, ChaincodeStub.PutState, hg, hs, hd, hp,
              shim_Error_status_bytes] at h
          | none =>
            refine ⟨a0, a1, rest, b, d, rfl, hg, hs, hd, ?_⟩
            simp [transferDiamond, ChaincodeStub.GetState, ChaincodeStub.PutState, hg, hs,
              hd, hp]

/-- A `transferDiamond` that does not return success leaves the stub as it was. -/
theorem transferDiamond_failed_bytes (lowerCase : Char → Char) (stub : ChaincodeStub)
    (args : List GoString) (h : (transferDiamond lowerCase stub args).1.Status ≠ 200) :
    (transferDiamond lowerCase stub args).2 = stub := by
  unfold transferDiamond at h ⊢
  split
  case h_2 => rfl
  case h_1 a0 a1 rest =>
    simp only at h ⊢
    cases hg : stub.GetState a0 with
    | error e => rfl
    | ok v =>
      cases v with
      | none => rfl
      | some b =>
        simp only [hg] at h ⊢
        cases hd : jsonUnmarshal b diamond.zero with
        | error e => rfl
        | ok d =>
          simp only [hd] at h ⊢
          cases hp : stub.PutState a0
            (jsonMarshal { d with Owner := ToLower lowerCase a1 }) with
          | error e => rfl
          | ok s1 => simp [hp, shim.Success] at h

theorem queryDiamond_stub_bytes (stub : ChaincodeStub) (args : List GoString) :
    (queryDiamond stub args).2 = stub := by
  unfold queryDiamond
  split
  · split <;> rfl
  · rfl

theorem sanitize_lit (s : String) : sanitize (lit s) = lit s := sanitize_utf8 _

theorem sanitize_ToLower (lowerCase : Char → Char) (s : GoString) :
    sanitize (ToLower lowerCase s) = ToLower lowerCase s := sanitize_utf8 _

theorem sanitize_sanitize (s : GoString) : sanitize (sanitize s) = sanitize s :=
  sanitize_utf8 _

/-- A write of the encoding of a record of kind "diamond" under the key that its name
decodes like keeps key and record in agreement. -/
theorem keyConsistent_write_bytes (stub : ChaincodeStub) (key : GoString) (d : diamond)
    (h : KeyConsistent stub) (h1 : sanitize d.ObjectType = lit "diamond")
    (h2 : sanitize d.Name = sanitize key) (h3 : IntRange d.Carats) :
    KeyConsistent (stub.write key (jsonMarshal d)) := by
  intro k b hb
  by_cases hk : k = key
  · subst hk
    rw [write_state_same_bytes _ _ _ (jsonMarshal_ne_nil d)] at hb
    simp only [Option.some.injEq] at hb
    subst hb
    exact ⟨_, jsonUnmarshal_jsonMarshal_bytes d _ h3, h1, h2, h3⟩
  · rw [write_state_other_bytes _ _ _ _ hk] at hb
    exact h k b hb

theorem createDiamond_keyConsistent_bytes (lowerCase : Char → Char) (stub : ChaincodeStub)
    (args : List GoString) (h : KeyConsistent stub) :
    KeyConsistent (createDiamond lowerCase stub args).2 := by
  by_cases hs : (createDiamond lowerCase stub args).1.Status = 200
  · obtain ⟨a0, a1, a2, a3, w, -, -, -, -, -, hw, -, -, hres⟩ :=
      createDiamond_success_bytes lowerCase stub args hs
    rw [hres]
    exact keyConsistent_write_bytes stub a0 _ h (sanitize_lit _) rfl (ParseInt_range _ _ hw)
  · rw [createDiamond_failed_bytes lowerCase stub args hs]
    exact h

/-- A transfer keeps key and record in agreement. -/
theorem transferDiamond_keyConsistent_bytes (lowerCase : Char → Char) (stub : ChaincodeStub)
    (args : List GoString) (h : KeyConsistent stub) :
    KeyConsistent (transferDiamond lowerCase stub args).2 := by
  by_cases hs : (transferDiamond lowerCase stub args).1.Status = 200
  · obtain ⟨a0, a1, rest, b, d, -, -, hb, hd, hres⟩ :=
      transferDiamond_success_bytes lowerCase stub args hs
    obtain ⟨d0, hd0, h1, h2, h3⟩ := h a0 b hb
    rw [hd] at hd0
    simp only [Except.ok.injEq] at hd0
    subst hd0
    rw [hres]
    refine keyConsistent_write_bytes stub a0 _ h ?_ ?_ h3
    · show sanitize d.ObjectType = lit "diamond"
      rw [h1, sanitize_lit]
    · show sanitize d.Name = sanitize a0
      rw [h2, sanitize_sanitize]
  · rw [transferDiamond_failed_bytes lowerCase stub args hs]
    exact h

/-- In every reachable world state key and record agree up to invalid bytes. -/
theorem Reachable.keyConsistent_bytes (lowerCase : Char → Char) (stub : ChaincodeStub)
    (h : Reachable lowerCase stub) : KeyConsistent stub := by
  induction h with
  | empty ge pe =>
    intro k b hb
    simp at hb
  | invoke stub function args _ ih =>
    unfold Invoke
    split_ifs
    · exact createDiamond_keyConsistent_bytes lowerCase stub args ih
    · exact transferDiamond_keyConsistent_bytes lowerCase stub args ih
    · rw [queryDiamond_stub_bytes]
      exact ih
    · exact ih
  | faults stub ge pe _ ih => exact ih

end Bytes

/-! ## The claims on byte strings -/

namespace Bytes

/-- C1, as amended: on a store without a value under `name` whose read and writes of
`name` do not fail, `createDiamond` with four non-empty arguments whose weight text
`Atoi` reads as `w` succeeds, and `queryDiamond` on the name then succeeds with bytes
that decode to the record of kind "diamond" with the lower-cased origin, the weight `w`,
the lower-cased owner, and as its name the name with U+FFFD in place of each byte that
is not part of well-formed UTF-8: the name itself when it is well-formed UTF-8. -/
theorem createDiamond_then_queryDiamond_bytes (lowerCase : Char → Char)
    (stub : ChaincodeStub) (name origin weightText owner : GoString) (w : Int)
    (habsent : stub.state name = none) (hget : stub.getError name = none)
    (hput : ∀ v, stub.putError name v = none)
    (hname : name ≠ []) (horigin : origin ≠ []) (hweight : weightText ≠ [])
    (howner : owner ≠ []) (hw : Atoi weightText = some w) :
    (createDiamond lowerCase stub [name, origin, weightText, owner]).1 = shim.Success none
    ∧ ∃ bytes,
      (queryDiamond (createDiamond lowerCase stub [name, origin, weightText, owner]).2
        [name]).1 = shim.Success (some bytes)
      ∧ jsonUnmarshal bytes diamond.zero
        = .ok ⟨lit "diamond", sanitize name, ToLower lowerCase origin, w,
            ToLower lowerCase owner⟩
      ∧ (ValidUTF8 name → jsonUnmarshal bytes diamond.zero
        = .ok ⟨lit "diamond", name, ToLower lowerCase origin, w, ToLower lowerCase owner⟩) := by
  rw [createDiamond_ok_bytes lowerCase stub name origin weightText owner w hname horigin
    hweight howner hw habsent hget (hput _)]
  have hdec := jsonUnmarshal_jsonMarshal_bytes
    ⟨lit "diamond", name, ToLower lowerCase origin, w, ToLower lowerCase owner⟩ diamond.zero
    (ParseInt_range _ _ hw)
  simp only [sanitize_lit, sanitize_ToLower] at hdec
  refine ⟨rfl, jsonMarshal
    ⟨lit "diamond", name, ToLower lowerCase origin, w, ToLower lowerCase owner⟩, ?_, hdec, ?_⟩
  · simp [queryDiamond, ChaincodeStub.GetState, ChaincodeStub.write, hget,
      jsonMarshal_ne_nil]
  · intro hvalid
    rw [hdec, sanitize_of_valid name hvalid]

/-- The scenario of C1: the creation of ("asdf", "Blue", "35", "Bob") on the empty
store, then the query of "asdf". -/
theorem createDiamond_then_queryDiamond_bytes_witness :
    (emptyStub.state (lit "asdf") = none ∧ emptyStub.getError (lit "asdf") = none
      ∧ (∀ v, emptyStub.putError (lit "asdf") v = none)
      ∧ lit "asdf" ≠ [] ∧ lit "Blue" ≠ [] ∧ lit "35" ≠ [] ∧ lit "Bob" ≠ []
      ∧ Atoi (lit "35") = some 35 ∧ ValidUTF8 (lit "asdf"))
    ∧ (createDiamond id emptyStub [lit "asdf", lit "Blue", lit "35", lit "Bob"]).1
      = shim.Success none
    ∧ (queryDiamond (createDiamond id emptyStub
        [lit "asdf", lit "Blue", lit "35", lit "Bob"]).2 [lit "asdf"]).1
      = shim.Success (some (lit
        "\x7b\"docType\":\"diamond\",\"name\":\"asdf\",\"origin\":\"blue\",\"carats\":35,\"owner\":\"bob\"\x7d"))
    ∧ ∃ bytes,
      (queryDiamond (createDiamond id emptyStub
        [lit "asdf", lit "Blue", lit "35", lit "Bob"]).2 [lit "asdf"]).1
        = shim.Success (some bytes)
      ∧ jsonUnmarshal bytes diamond.zero
        = .ok ⟨lit "diamond", lit "asdf", lit "blue", 35, lit "bob"⟩ :=
  ⟨⟨rfl, rfl, fun _ => rfl, by decide, by decide, by decide, by decide, by decide, by decide⟩,
    by decide, by decide,
    (createDiamond_then_queryDiamond_bytes id emptyStub (lit "asdf") (lit "Blue") (lit "35")
      (lit "Bob") 35 rfl rfl (fun _ => rfl) (by decide) (by decide) (by decide) (by decide)
      (by decide)).2.imp fun _ h => ⟨h.1, h.2.2 (by decide)⟩⟩

/-- The counterexample to C1: the name is the single byte 0xFF, not well-formed UTF-8,
the other arguments are "Blue", "35" and "Bob", the store is empty and does not fail.
`createDiamond` succeeds, `queryDiamond` of the name succeeds, and the bytes it returns
decode to a record whose name is U+FFFD (the bytes EF BF BD), not the name. -/
theorem createDiamond_invalid_name :
    (createDiamond id emptyStub [[0xFF], lit "Blue", lit "35", lit "Bob"]).1
      = shim.Success none
    ∧ (queryDiamond (createDiamond id emptyStub [[0xFF], lit "Blue", lit "35", lit "Bob"]).2
        [[0xFF]]).1
      = shim.Success (some (lit
        "\x7b\"docType\":\"diamond\",\"name\":\"\\ufffd\",\"origin\":\"blue\",\"carats\":35,\"owner\":\"bob\"\x7d"))
    ∧ jsonUnmarshal (lit
        "\x7b\"docType\":\"diamond\",\"name\":\"\\ufffd\",\"origin\":\"blue\",\"carats\":35,\"owner\":\"bob\"\x7d")
        diamond.zero = .ok ⟨lit "diamond", [0xEF, 0xBF, 0xBD], lit "blue", 35, lit "bob"⟩
    ∧ ([0xEF, 0xBF, 0xBD] : GoString) ≠ [0xFF]
    ∧ ¬ ValidUTF8 [0xFF] :=
  ⟨by decide, by decide, by rfl, by decide, by decide⟩

/-- C19, as amended: in every reachable store the value under every key decodes to a
record of kind "diamond" whose name is the key with U+FFFD in place of each byte that
is not part of well-formed UTF-8, so the key itself when the key is well-formed UTF-8;
and `transferDiamond`, on any store in which key and record agree in this way, leaves
a store in which they agree. -/
theorem key_record_consistent_bytes (lowerCase : Char → Char) (stub : ChaincodeStub)
    (hreach : Reachable lowerCase stub) :
    (∀ k b, stub.state k = some b →
      ∃ d : diamond, jsonUnmarshal b diamond.zero = .ok d ∧ d.ObjectType = lit "diamond"
        ∧ d.Name = sanitize k ∧ (ValidUTF8 k → d.Name = k))
    ∧ (∀ (s : ChaincodeStub) (args : List GoString), KeyConsistent s →
      KeyConsistent (transferDiamond lowerCase s args).2) := by
  constructor
  · intro k b hb
    obtain ⟨d, hd, h1, h2, -⟩ := Reachable.keyConsistent_bytes lowerCase stub hreach k b hb
    exact ⟨d, hd, h1, h2, fun hv => by rw [h2, sanitize_of_valid k hv]⟩
  · intro s args hs
    exact transferDiamond_keyConsistent_bytes lowerCase s args hs

/-- The scenario of C19: after the creation of "asdf" and "qwer" and the transfer of
"qwer", the value under "qwer" decodes to a diamond named "qwer". -/
theorem key_record_consistent_bytes_witness :
    (Reachable id (Invoke id (Invoke id (Invoke id emptyStub (lit "createDiamond")
        [lit "asdf", lit "Blue", lit "35", lit "Bob"]).2 (lit "createDiamond")
        [lit "qwer", lit "Red", lit "7", lit "Eve"]).2 (lit "transferDiamond")
        [lit "qwer", lit "Alice"]).2
      ∧ (Invoke id (Invoke id (Invoke id emptyStub (lit "createDiamond")
        [lit "asdf", lit "Blue", lit "35", lit "Bob"]).2 (lit "createDiamond")
        [lit "qwer", lit "Red", lit "7", lit "Eve"]).2 (lit "transferDiamond")
        [lit "qwer", lit "Alice"]).2.state (lit "qwer")
        = some (lit
          "\x7b\"docType\":\"diamond\",\"name\":\"qwer\",\"origin\":\"red\",\"carats\":7,\"owner\":\"alice\"\x7d")
      ∧ ValidUTF8 (lit "qwer"))
    ∧ ∃ d : diamond, jsonUnmarshal (lit
        "\x7b\"docType\":\"diamond\",\"name\":\"qwer\",\"origin\":\"red\",\"carats\":7,\"owner\":\"alice\"\x7d")
        diamond.zero = .ok d ∧ d.ObjectType = lit "diamond" ∧ d.Name = lit "qwer" :=
  ⟨⟨Reachable.invoke _ _ _ (Reachable.invoke _ _ _ (Reachable.invoke _ _ _
      (Reachable.empty _ _))), by decide, by decide⟩,
    ((key_record_consistent_bytes id
      (Invoke id (Invoke id (Invoke id emptyStub (lit "createDiamond")
        [lit "asdf", lit "Blue", lit "35", lit "Bob"]).2 (lit "createDiamond")
        [lit "qwer", lit "Red", lit "7", lit "Eve"]).2 (lit "transferDiamond")
        [lit "qwer", lit "Alice"]).2
      (Reachable.invoke _ _ _ (Reachable.invoke _ _ _ (Reachable.invoke _ _ _
        (Reachable.empty _ _))))).1 (lit "qwer")
      (lit
        "\x7b\"docType\":\"diamond\",\"name\":\"qwer\",\"origin\":\"red\",\"carats\":7,\"owner\":\"alice\"\x7d")
      (by decide)).imp
      fun _ h => ⟨h.1, h.2.1, h.2.2.2 (by decide)⟩⟩

/-- The counterexample to C19: the creation of a diamond whose name is the two bytes
61 C3, an "a" followed by a lead byte without its continuation, leaves a reachable
store that holds under that key a record whose name is "a" followed by U+FFFD, not
the key. -/
theorem key_record_differ :
    Reachable id (Invoke id emptyStub (lit "createDiamond")
      [[0x61, 0xC3], lit "Blue", lit "35", lit "Bob"]).2
    ∧ (Invoke id emptyStub (lit "createDiamond")
      [[0x61, 0xC3], lit "Blue", lit "35", lit "Bob"]).2.state [0x61, 0xC3]
      = some (lit
        "\x7b\"docType\":\"diamond\",\"name\":\"a\\ufffd\",\"origin\":\"blue\",\"carats\":35,\"owner\":\"bob\"\x7d")
    ∧ jsonUnmarshal (lit
        "\x7b\"docType\":\"diamond\",\"name\":\"a\\ufffd\",\"origin\":\"blue\",\"carats\":35,\"owner\":\"bob\"\x7d")
        diamond.zero
      = .ok ⟨lit "diamond", [0x61, 0xEF, 0xBF, 0xBD], lit "blue", 35, lit "bob"⟩
    ∧ ([0x61, 0xEF, 0xBF, 0xBD] : GoString) ≠ [0x61, 0xC3] :=
  ⟨Reachable.invoke _ _ _ (Reachable.empty _ _), by decide, by rfl, by decide⟩

end Bytes

end Diamonds
